import Mathlib

/-!
# nncfgt-lib: the NGINX-style configuration parser of `src/lib/parser.js`

A shallow embedding of the four functions of the parser (`prepareString`,
`tokenizeLine`, `tokenize`, `buildSyntaxTree`, and the entry point `parse`), followed by
theorems about them.

Conventions of the embedding:

* a JavaScript string is the list of its characters (`Str`); string literals are written
  `"...".toList`;
* a `forEach` loop is a left fold of a step function over the array, the mutable variables of
  the loop being the fields of a state record;
* a JavaScript number is a `JSNumber`: a signed magnitude (so that `-0` is representable),
  an infinity, or `NaN`;
* the recursion of `buildSyntaxTree` on the captured block is bounded by a fuel that starts
  at the length of the token list; `buildSyntaxTree_unfold` shows that the fuel never runs
  out: the function satisfies the defining equation of the source.
* these functions give the value of a call wherever it returns; the call stack and the
  argument limit of the engine, beyond which the source ends in a `RangeError`, are the
  parameters of `buildSyntaxTreeBounded`, `tokenizeBounded` and `parseBounded`.
-/

namespace Nncfgt

/-! ## Data model -/

/-- A JavaScript string, as the list of its characters. -/
abbrev Str := List Char

/-- A JavaScript number, as far as `parseInt` can produce one. -/
inductive JSNumber where
  | finite (neg : Bool) (mag : Nat)
  | infinite (neg : Bool)
  | nan
deriving DecidableEq, Repr

/-- An element of `ConfigEntry.arguments`: the token text or the number it was turned into. -/
inductive ArgValue where
  | str (s : Str)
  | num (n : JSNumber)
deriving DecidableEq, Repr

/-- The `ConfigEntry` typedef of the source. -/
structure ConfigEntry where
  directive : Str
  arguments : List ArgValue
  block : List ConfigEntry
deriving Repr

mutual
/-- Structural equality test on entries. -/
def ConfigEntry.beq : ConfigEntry → ConfigEntry → Bool
  | ⟨d1, a1, b1⟩, ⟨d2, a2, b2⟩ => d1 == d2 && a1 == a2 && ConfigEntry.beqList b1 b2
/-- Structural equality test on lists of entries. -/
def ConfigEntry.beqList : List ConfigEntry → List ConfigEntry → Bool
  | [], [] => true
  | x :: xs, y :: ys => ConfigEntry.beq x y && ConfigEntry.beqList xs ys
  | _, _ => false
end

/-- The double quote character. -/
def dquote : Char := Char.ofNat 34

/-- The single quote character. -/
def squote : Char := Char.ofNat 39

/-- The characters matched by the regular expression class `\s`, which are also the
characters removed by `String.prototype.trim` and skipped around a numeric string. -/
def isWhitespace (c : Char) : Bool :=
  let n := c.toNat
  n == 0x09 || n == 0x0A || n == 0x0B || n == 0x0C || n == 0x0D || n == 0x20 ||
  n == 0xA0 || n == 0x1680 || (0x2000 ≤ n && n ≤ 0x200A) ||
  n == 0x2028 || n == 0x2029 || n == 0x202F || n == 0x205F || n == 0x3000 || n == 0xFEFF

/-- The method `String.prototype.trim`. -/
def trim (s : Str) : Str :=
  ((s.dropWhile isWhitespace).reverse.dropWhile isWhitespace).reverse

/-! ## Argument coercion: `Number.isNaN(Number(token)) ? token : parseInt(token, 10)` -/

/-- A decimal digit. -/
def isDecDigit (c : Char) : Bool := 48 ≤ c.toNat && c.toNat ≤ 57

/-- A hexadecimal digit. -/
def isHexDigit (c : Char) : Bool :=
  isDecDigit c || (65 ≤ c.toNat && c.toNat ≤ 70) || (97 ≤ c.toNat && c.toNat ≤ 102)

/-- An octal digit. -/
def isOctDigit (c : Char) : Bool := 48 ≤ c.toNat && c.toNat ≤ 55

/-- A binary digit. -/
def isBinDigit (c : Char) : Bool := c.toNat == 48 || c.toNat == 49

/-- The value of a list of decimal digits in base 10. -/
def digitsValue (ds : Str) : Nat :=
  ds.foldl (fun acc c => 10 * acc + (c.toNat - 48)) 0

/-- Remove one leading sign character, if there is one. -/
def dropSign : Str → Str
  | '+' :: r => r
  | '-' :: r => r
  | s => s

/-- The text starts with the sign `-`. -/
def hasMinusSign : Str → Bool
  | '-' :: _ => true
  | _ => false

/-- The grammar production `SignedInteger` of an exponent: an optional sign and digits. -/
def isSignedInteger (s : Str) : Bool :=
  !(dropSign s).isEmpty && (dropSign s).all isDecDigit

/-- The grammar production `ExponentPart`, or nothing. -/
def isExponentPartOpt : Str → Bool
  | [] => true
  | e :: r => (e == 'e' || e == 'E') && isSignedInteger r

/-- The grammar production `StrUnsignedDecimalLiteral`. -/
def isStrUnsignedDecimalLiteral (s : Str) : Bool :=
  s == "Infinity".toList ||
  (let ip := s.takeWhile isDecDigit
   match s.dropWhile isDecDigit with
   | '.' :: r => (!ip.isEmpty || !(r.takeWhile isDecDigit).isEmpty) &&
        isExponentPartOpt (r.dropWhile isDecDigit)
   | r => !ip.isEmpty && isExponentPartOpt r)

/-- The grammar production `NonDecimalIntegerLiteral`: `0x`, `0o` or `0b` and digits. -/
def isNonDecimalIntegerLiteral : Str → Bool
  | '0' :: x :: ds =>
      !ds.isEmpty &&
      (((x == 'x' || x == 'X') && ds.all isHexDigit) ||
       ((x == 'o' || x == 'O') && ds.all isOctDigit) ||
       ((x == 'b' || x == 'B') && ds.all isBinDigit))
  | _ => false

/-- The text is a `StringNumericLiteral`: `Number(s)` is a number other than `NaN`. The
empty and the all-whitespace string convert to `0`. -/
def isStringNumericLiteral (s : Str) : Bool :=
  let t := trim s
  t.isEmpty || isNonDecimalIntegerLiteral t || isStrUnsignedDecimalLiteral (dropSign t)

/-- The test `Number.isNaN(Number(token))`. -/
def numberIsNaN (token : Str) : Bool := !isStringNumericLiteral token

/-- The double nearest to a natural number (ties to even), with the sign given: the Number
value of a mathematical integer. Below `2 ^ 53` it is the integer itself. -/
def toDouble (neg : Bool) (n : Nat) : JSNumber :=
  if n < 2 ^ 53 then .finite neg n
  else
    let e := Nat.log2 n - 52
    let q := n / 2 ^ e
    let r := n % 2 ^ e
    let half := 2 ^ (e - 1)
    let q1 := if half < r || (r == half && q % 2 == 1) then q + 1 else q
    if 2 ^ 1024 ≤ q1 * 2 ^ e then .infinite neg else .finite neg (q1 * 2 ^ e)

/-- The call `parseInt(token, 10)`: skip leading whitespace, read a sign, read the longest
prefix of decimal digits; `NaN` when there is no digit. -/
def parseInt10 (token : Str) : JSNumber :=
  let s := token.dropWhile isWhitespace
  let z := (dropSign s).takeWhile isDecDigit
  if z.isEmpty then .nan else toDouble (hasMinusSign s) (digitsValue z)

/-- The value pushed on `currentStatement.arguments` for a token (lines 205-207). -/
def coerceArg (token : Str) : ArgValue :=
  if numberIsNaN token then .str token else .num (parseInt10 token)

/-! ## `buildSyntaxTree` -/

/-- The mutable variables of `buildSyntaxTree`. -/
structure BuildState where
  syntaxTree : List ConfigEntry
  currentStatement : Option ConfigEntry
  blockStack : List Str
  captureStack : Bool
  captureBlocksQty : Int

/-- The state with the entries `pre` put in front of its result list. -/
def BuildState.prepend (pre : List ConfigEntry) (st : BuildState) : BuildState :=
  { st with syntaxTree := pre ++ st.syntaxTree }

/-- The variables before the loop (lines 157-162). -/
def BuildState.init : BuildState :=
  { syntaxTree := [], currentStatement := none, blockStack := [],
    captureStack := false, captureBlocksQty := 0 }

/-- The body of the `forEach` of `buildSyntaxTree` (lines 164-211) for one token; `build` is
the function called on the captured block at line 181. -/
def buildStep (build : List Str → List ConfigEntry) (st : BuildState) (token : Str) :
    BuildState :=
  match st.currentStatement with
  | none =>
      { st with currentStatement := some (ConfigEntry.mk token [] []) }
  | some cur =>
      if st.captureStack then
        if token = ['{'] then
          { st with captureBlocksQty := st.captureBlocksQty + 1,
                    blockStack := st.blockStack ++ [token] }
        else if token = ['}'] then
          if st.captureBlocksQty - 1 = 0 then
            { syntaxTree := st.syntaxTree ++
                [ConfigEntry.mk cur.directive cur.arguments (cur.block ++ build st.blockStack)],
              currentStatement := none,
              blockStack := [],
              captureStack := false,
              captureBlocksQty := st.captureBlocksQty - 1 }
          else
            { st with captureBlocksQty := st.captureBlocksQty - 1,
                      blockStack := st.blockStack ++ [token] }
        else
          { st with blockStack := st.blockStack ++ [token] }
      else
        if token = ['{'] then
          { st with captureBlocksQty := st.captureBlocksQty + 1, captureStack := true }
        else if token = [';'] then
          { st with syntaxTree := st.syntaxTree ++ [cur], currentStatement := none }
        else
          let toAddArg := coerceArg token
          let entry := ConfigEntry.mk cur.directive (cur.arguments ++ [toAddArg]) cur.block
          { st with currentStatement := some entry }

/-- The function `buildSyntaxTree` with a bound on the depth of its recursion. With the fuel
that `buildSyntaxTree` gives, the first case is only met on the empty token list, whose
result is the empty tree. -/
def buildSyntaxTreeFuel : Nat → List Str → List ConfigEntry
  | 0, _ => []
  | fuel + 1, tokenList =>
      (tokenList.foldl (buildStep (buildSyntaxTreeFuel fuel)) BuildState.init).syntaxTree

/-- The function `buildSyntaxTree` (lines 154-214). A call on a list of `n` tokens recurses
on lists of fewer than `n` tokens, so a fuel of `n` is never used up. -/
def buildSyntaxTree (tokenList : List Str) : List ConfigEntry :=
  buildSyntaxTreeFuel tokenList.length tokenList

/-- The state of the loop of `buildSyntaxTree` after the first `n` tokens of a list. -/
def buildStateAfter (tokens : List Str) (n : Nat) : BuildState :=
  (tokens.take n).foldl (buildStep buildSyntaxTree) BuildState.init

/-- A token list has balanced braces: no start of the list closes more braces than it opens,
and the whole list opens as many as it closes. -/
def BalancedBraces (tokens : List Str) : Prop :=
  (∀ n, n ≤ tokens.length → (tokens.take n).count ['}'] ≤ (tokens.take n).count ['{']) ∧
    tokens.count ['{'] = tokens.count ['}']

/-- The loop invariant of `buildSyntaxTree` on its mutable variables: while a block is
captured an entry is open, the depth is at least 1 and the buffer has `depth - 1` more `{`
than `}` with no start that closes more than it opens; otherwise the depth is 0 and the
buffer is empty. -/
def BuildInvariant (st : BuildState) : Prop :=
  (st.captureStack = true →
    st.currentStatement.isSome = true ∧ 1 ≤ st.captureBlocksQty ∧
    (st.blockStack.count ['{'] : Int) =
      (st.blockStack.count ['}'] : Int) + (st.captureBlocksQty - 1) ∧
    ∀ n, n ≤ st.blockStack.length →
      (st.blockStack.take n).count ['}'] ≤ (st.blockStack.take n).count ['{']) ∧
  (st.captureStack = false → st.captureBlocksQty = 0 ∧ st.blockStack = [])

/-- The bound on the buffer of `buildSyntaxTree` after `k` tokens: while a block is captured
the directive and the opening brace are among the tokens read and not in the buffer. -/
def BufferBound (st : BuildState) (k : Nat) : Prop :=
  (st.captureStack = true → st.blockStack.length + 2 ≤ k) ∧
  (st.captureStack = false →
    st.blockStack = [] ∧ (st.currentStatement.isSome = true → 1 ≤ k))

/-- No entry of the state has a block, and no block is being captured. -/
def NoBlockState (st : BuildState) : Prop :=
  st.captureStack = false ∧ (∀ e ∈ st.syntaxTree, e.block = []) ∧
    ∀ cur, st.currentStatement = some cur → cur.block = []

/-! ## `prepareString` -/

/-- The test `stringMarkers.includes(token)`. -/
def isStringMarker (token : Str) : Bool := token == [squote] || token == [dquote]

/-- The test `stringMarkers.includes(nextToken)`, where `nextToken` is `undefined` after the
last token. -/
def nextIsStringMarker : Option Str → Bool
  | none => false
  | some t => isStringMarker t

/-- The truth value of `nextToken`: `undefined` and the empty string are falsy. -/
def nextIsTruthy : Option Str → Bool
  | none => false
  | some t => !t.isEmpty

/-- The mutable variables of `prepareString`. -/
structure PrepareState where
  stringMarkersStack : List Str
  currentString : Str

/-- The body of the `forEach` of `prepareString` (lines 13-39) for one token and the token
after it. -/
def prepareStep (nextToken : Option Str) (st : PrepareState) (token : Str) : PrepareState :=
  if isStringMarker token then
    if !st.stringMarkersStack.isEmpty && st.stringMarkersStack.getLast? == some token then
      { stringMarkersStack := st.stringMarkersStack.dropLast,
        currentString := st.currentString ++ token ++
          (if nextIsTruthy nextToken && !nextIsStringMarker nextToken then [' '] else []) }
    else
      { stringMarkersStack := st.stringMarkersStack ++ [token],
        currentString := st.currentString ++ token ++ [] }
  else
    { st with currentString := st.currentString ++ token ++
        (if nextIsStringMarker nextToken then [] else [' ']) }

/-- The `forEach` of `prepareString`: every token is visited with its successor. -/
def prepareLoop : List Str → PrepareState → PrepareState
  | [], st => st
  | token :: rest, st => prepareLoop rest (prepareStep rest.head? st token)

/-- The function `prepareString` (lines 8-42). -/
def prepareString (stringTokens : List Str) : Str :=
  (prepareLoop stringTokens { stringMarkersStack := [], currentString := [] }).currentString

/-! ## `tokenizeLine` -/

/-- The test `reservedChars.includes(char)`. -/
def isReservedChar (c : Char) : Bool :=
  c == ';' || c == '{' || c == '}' || c == dquote || c == squote

/-- The flag `lastCharOfWord` (lines 59-62): the next character is a space, is missing, or is
a reserved character. -/
def lastCharOfWord : Option Char → Bool
  | none => true
  | some n => n == ' ' || isReservedChar n

/-- The mutable variables of the first loop of `tokenizeLine`. -/
structure ScanState where
  tokens : List Str
  currentToken : Str

/-- The body of the first `forEach` of `tokenizeLine` (lines 58-78) for one character and
the character after it. -/
def scanStep (next : Option Char) (st : ScanState) (char : Char) : ScanState :=
  let st1 : ScanState :=
    if isReservedChar char then { st with tokens := st.tokens ++ [[char]] }
    else if !isWhitespace char then { st with currentToken := st.currentToken ++ [char] }
    else st
  if lastCharOfWord next && 0 < st1.currentToken.length then
    { tokens := st1.tokens ++ [st1.currentToken], currentToken := [] }
  else st1

/-- The first `forEach` of `tokenizeLine`: every character is visited with its successor. -/
def scanLoop : List Char → ScanState → ScanState
  | [], st => st
  | char :: rest, st => scanLoop rest (scanStep rest.head? st char)

/-- The shape of a token of the first loop: one reserved character, or a non-empty word
without reserved characters and without whitespace. -/
def ScanShape (t : Str) : Prop :=
  (∃ c, t = [c] ∧ isReservedChar c = true) ∨
    (t ≠ [] ∧ ∀ c ∈ t, isReservedChar c = false ∧ isWhitespace c = false)

/-- A bare word: not empty, and without whitespace, reserved character or `#`. -/
def BareWord (w : Str) : Prop :=
  w ≠ [] ∧ ∀ c ∈ w, isWhitespace c = false ∧ isReservedChar c = false ∧ c ≠ '#'

/-- The mutable variables of the second loop of `tokenizeLine`. -/
structure NormState where
  normalizedStringTokens : List Str
  currentStringMarker : Option Str
  currentNSToken : List Str

/-- The body of the second `forEach` of `tokenizeLine` (lines 87-110) for one token. -/
def normStep (st : NormState) (token : Str) : NormState :=
  let ns := st.currentNSToken ++ [token]
  let st1 : NormState :=
    if isStringMarker token then
      if st.currentStringMarker == some token then
        { normalizedStringTokens := st.normalizedStringTokens ++ [prepareString ns],
          currentStringMarker := none,
          currentNSToken := [] }
      else if st.currentStringMarker.isNone then
        { st with currentStringMarker := some token, currentNSToken := ns }
      else { st with currentNSToken := ns }
    else { st with currentNSToken := ns }
  match st1.currentStringMarker, st1.currentNSToken with
  | none, first :: _ =>
      { st1 with normalizedStringTokens := st1.normalizedStringTokens ++ [first],
                 currentNSToken := [] }
  | _, _ => st1

/-- The three shapes of a token of `tokenize`: one of `;`, `{`, `}`; a bare word without
whitespace and without reserved character; a string of two characters at least that starts
and ends with the same quote character. -/
def TokenShape (t : Str) : Prop :=
  (t = [';'] ∨ t = ['{'] ∨ t = ['}']) ∨
  (t ≠ [] ∧ ∀ c ∈ t, isWhitespace c = false ∧ isReservedChar c = false) ∨
  (∃ m : Char, (m = dquote ∨ m = squote) ∧ 2 ≤ t.length ∧ t.head? = some m ∧
    t.getLast? = some m)

/-- A token as `tokenize` returns it: not empty, without `#` and newline, of one of the three
shapes, and not a lone quote character. -/
def GoodToken (t : Str) : Prop :=
  t ≠ [] ∧ (∀ c ∈ t, c ≠ '#' ∧ c ≠ '\n') ∧ TokenShape t ∧ t ≠ [dquote] ∧ t ≠ [squote]

/-- The invariant of the second loop of `tokenizeLine`: the tokens written are good; outside
a quoted run the buffer is empty; inside a run the marker is a quote and the first token of
the buffer; the buffered tokens hold no `#` and no newline. -/
def NormInvariant (st : NormState) : Prop :=
  (∀ t ∈ st.normalizedStringTokens, GoodToken t) ∧
  (st.currentStringMarker = none → st.currentNSToken = []) ∧
  (∀ mk, st.currentStringMarker = some mk →
    isStringMarker mk = true ∧ ∃ rest, st.currentNSToken = mk :: rest) ∧
  (∀ t ∈ st.currentNSToken, ∀ c ∈ t, c ≠ '#' ∧ c ≠ '\n')

/-- The function `tokenizeLine` (lines 48-115). -/
def tokenizeLine (line : Str) : List Str :=
  let tokens := (scanLoop line { tokens := [], currentToken := [] }).tokens
  (tokens.foldl normStep
    { normalizedStringTokens := [], currentStringMarker := none,
      currentNSToken := [] }).normalizedStringTokens

/-! ## `tokenize` and `parse` -/

/-- The call `content.split(/\n/)`; `cur` is the line read so far. -/
def splitLinesAux (cur : Str) : Str → List Str
  | [] => [cur]
  | c :: cs => if c = '\n' then cur :: splitLinesAux [] cs else splitLinesAux (cur ++ [c]) cs

/-- The call `content.split(/\n/)`. -/
def splitLines (content : Str) : List Str := splitLinesAux [] content

/-- The expression `line.split("#")[0]`: the line up to its first `#`. -/
def stripComment (line : Str) : Str := line.takeWhile (fun c => c != '#')

/-- The call `line.replace(/\s\s+/g, " ")`: every maximal run of two or more whitespace
characters becomes one space. The flag tells that the scan is inside such a run. -/
def collapseAux : Bool → Str → Str
  | _, [] => []
  | true, c :: cs => if isWhitespace c then collapseAux true cs else c :: collapseAux false cs
  | false, c :: cs =>
      if isWhitespace c then
        match cs with
        | d :: _ => if isWhitespace d then ' ' :: collapseAux true cs else c :: collapseAux false cs
        | [] => [c]
      else c :: collapseAux false cs

/-- The call `line.replace(/\s\s+/g, " ")`. -/
def collapseSpaces (line : Str) : Str := collapseAux false line

/-- One line through lines 125-129: comment removed, whitespace runs collapsed, trimmed. -/
def normalizeLine (line : Str) : Str := trim (collapseSpaces (stripComment line))

/-- The function `tokenize` (lines 121-140). -/
def tokenize (content : Str) : List Str :=
  let contentLines := splitLines content
  let normalizedSpacedLines := contentLines.map normalizeLine
  let fullFilledLines := normalizedSpacedLines.filter (fun line => !line.isEmpty)
  let tokenizedLines := fullFilledLines.map tokenizeLine
  tokenizedLines.foldl (fun a n => a ++ n) []

/-- The function `parse` (lines 222-229), the export of the module: the value of the call
wherever the engine lets it return (see `parseBounded` for the limits of the engine). -/
def parse (content : Str) : List ConfigEntry :=
  buildSyntaxTree (tokenize content)

/-! ## The limits of the engine

The functions above return a value on every input. A JavaScript engine runs the source with
a call stack of finite size and accepts a call only up to some number of arguments; beyond
either limit the call ends in a `RangeError`. The source meets these limits at three places:
the recursive call of `buildSyntaxTree` (line 181), nested once per level of blocks, and the
two calls that spread a whole array into their arguments, `a.concat(...n)` (line 137) and
`block.push(...parsedBlock)` (line 182). The limits are not in the source; they are the
parameters `frames`, the number of nested activations of `buildSyntaxTree` that the stack
holds, and `maxArgs`, the largest number of arguments of a call. A `RangeError` is the
result `none`. Memory and the length of a string are taken as unbounded. -/

/-- The array `tokenizedLines` of `tokenize` (line 135): the tokens of every non-empty
normalised line. -/
def tokenizedLines (content : Str) : List (List Str) :=
  (((splitLines content).map normalizeLine).filter (fun line => !line.isEmpty)).map
    tokenizeLine

/-- The reduction `tokenizedLines.reduce((a, n) => a.concat(...n), [])` (line 137) on an
engine that takes `maxArgs` arguments at most: the call `a.concat(...n)` has one argument
for each token of the line `n`. -/
def concatLinesBounded (maxArgs : Nat) : List Str → List (List Str) → Option (List Str)
  | a, [] => some a
  | a, n :: rest =>
      if maxArgs < n.length then none else concatLinesBounded maxArgs (a ++ n) rest

/-- The function `tokenize` on an engine that takes `maxArgs` arguments at most. -/
def tokenizeBounded (maxArgs : Nat) (content : Str) : Option (List Str) :=
  concatLinesBounded maxArgs [] (tokenizedLines content)

/-- The body of the `forEach` of `buildSyntaxTree` (lines 164-211) on an engine that takes
`maxArgs` arguments at most; `build` is the recursive call of line 181, which may itself end
in a `RangeError`, and `block.push(...parsedBlock)` of line 182 has one argument for each
entry of the parsed block. -/
def buildStepBounded (maxArgs : Nat) (build : List Str → Option (List ConfigEntry))
    (st : BuildState) (token : Str) : Option BuildState :=
  match st.currentStatement with
  | none =>
      some { st with currentStatement := some (ConfigEntry.mk token [] []) }
  | some cur =>
      if st.captureStack then
        if token = ['{'] then
          some { st with captureBlocksQty := st.captureBlocksQty + 1,
                         blockStack := st.blockStack ++ [token] }
        else if token = ['}'] then
          if st.captureBlocksQty - 1 = 0 then
            match build st.blockStack with
            | none => none
            | some parsedBlock =>
                if maxArgs < parsedBlock.length then none
                else
                  some
                    { syntaxTree := st.syntaxTree ++
                        [ConfigEntry.mk cur.directive cur.arguments (cur.block ++ parsedBlock)],
                      currentStatement := none,
                      blockStack := [],
                      captureStack := false,
                      captureBlocksQty := st.captureBlocksQty - 1 }
          else
            some { st with captureBlocksQty := st.captureBlocksQty - 1,
                           blockStack := st.blockStack ++ [token] }
        else
          some { st with blockStack := st.blockStack ++ [token] }
      else
        if token = ['{'] then
          some { st with captureBlocksQty := st.captureBlocksQty + 1, captureStack := true }
        else if token = [';'] then
          some { st with syntaxTree := st.syntaxTree ++ [cur], currentStatement := none }
        else
          let toAddArg := coerceArg token
          let entry := ConfigEntry.mk cur.directive (cur.arguments ++ [toAddArg]) cur.block
          some { st with currentStatement := some entry }

/-- The `forEach` of `buildSyntaxTree` when its body can end in a `RangeError`: the loop
stops at the first one. -/
def buildLoopBounded (step : BuildState → Str → Option BuildState) :
    BuildState → List Str → Option BuildState
  | st, [] => some st
  | st, token :: rest =>
      match step st token with
      | none => none
      | some st1 => buildLoopBounded step st1 rest

/-- The function `buildSyntaxTree` on an engine whose stack holds `frames` nested activations
of it and that takes `maxArgs` arguments at most: without a frame left the call ends in a
`RangeError`, and the recursive call has one frame less. -/
def buildSyntaxTreeBounded (maxArgs : Nat) : Nat → List Str → Option (List ConfigEntry)
  | 0, _ => none
  | frames + 1, tokenList =>
      match buildLoopBounded
          (buildStepBounded maxArgs (buildSyntaxTreeBounded maxArgs frames))
          BuildState.init tokenList with
      | none => none
      | some st => some st.syntaxTree

/-- The function `parse` on an engine whose stack holds `frames` nested activations of
`buildSyntaxTree` and that takes `maxArgs` arguments at most. -/
def parseBounded (maxArgs frames : Nat) (content : Str) : Option (List ConfigEntry) :=
  match tokenizeBounded maxArgs content with
  | none => none
  | some tokens => buildSyntaxTreeBounded maxArgs frames tokens

/-- The tokens of `k` nested blocks `a { a { ... } }`. -/
def nestedBlocks : Nat → List Str
  | 0 => []
  | k + 1 => [['a'], ['{']] ++ nestedBlocks k ++ [['}']]

/-- The text of `k` nested blocks on one line, without whitespace: `k` times `a{`, then
`k` times `}`. -/
def nestedText (k : Nat) : Str :=
  (List.replicate k ['a', '{']).flatten ++ List.replicate k '}'

/-! ## Lemmas: equality of entries -/

mutual
theorem ConfigEntry.eq_of_beq : ∀ (a b : ConfigEntry), ConfigEntry.beq a b = true → a = b
  | ⟨d1, a1, b1⟩, ⟨d2, a2, b2⟩, h => by
    simp only [ConfigEntry.beq, Bool.and_eq_true, beq_iff_eq] at h
    obtain ⟨⟨h1, h2⟩, h3⟩ := h
    rw [h1, h2, ConfigEntry.eq_of_beqList b1 b2 h3]
theorem ConfigEntry.eq_of_beqList :
    ∀ (as bs : List ConfigEntry), ConfigEntry.beqList as bs = true → as = bs
  | [], [], _ => rfl
  | x :: xs, y :: ys, h => by
    simp only [ConfigEntry.beqList, Bool.and_eq_true] at h
    rw [ConfigEntry.eq_of_beq x y h.1, ConfigEntry.eq_of_beqList xs ys h.2]
  | [], _ :: _, h => by simp [ConfigEntry.beqList] at h
  | _ :: _, [], h => by simp [ConfigEntry.beqList] at h
end

/-! ## Lemmas: the loop of `buildSyntaxTree` -/

theorem buildStep_congr (f g : List Str → List ConfigEntry) (st : BuildState) (token : Str)
    (h : f st.blockStack = g st.blockStack) : buildStep f st token = buildStep g st token := by
  unfold buildStep
  rw [h]

theorem buildStep_blockStack_length (f : List Str → List ConfigEntry) (st : BuildState)
    (token : Str) : (buildStep f st token).blockStack.length ≤ st.blockStack.length + 1 := by
  unfold buildStep
  split
  · simp
  · split_ifs <;> simp

theorem foldl_buildStep_congr (f g : List Str → List ConfigEntry) (bound : Nat)
    (hfg : ∀ l : List Str, l.length < bound → f l = g l) :
    ∀ (tokens : List Str) (st : BuildState), st.blockStack.length + tokens.length ≤ bound →
      tokens.foldl (buildStep f) st = tokens.foldl (buildStep g) st := by
  intro tokens
  induction tokens with
  | nil => intro st _; rfl
  | cons t rest ih =>
    intro st hlen
    simp only [List.length_cons] at hlen
    simp only [List.foldl_cons]
    rw [buildStep_congr f g st t (hfg _ (by omega))]
    apply ih
    have := buildStep_blockStack_length g st t
    omega

theorem buildSyntaxTreeFuel_stable :
    ∀ (n m : Nat) (tokens : List Str), tokens.length ≤ n → tokens.length ≤ m →
      buildSyntaxTreeFuel n tokens = buildSyntaxTreeFuel m tokens := by
  intro n
  induction n with
  | zero =>
    intro m tokens h0 _
    have : tokens = [] := List.length_eq_zero.mp (by omega)
    subst this
    cases m <;> rfl
  | succ n ih =>
    intro m tokens hn hm
    cases tokens with
    | nil => cases m <;> rfl
    | cons t rest =>
      cases m with
      | zero => simp at hm
      | succ m =>
        simp only [buildSyntaxTreeFuel]
        rw [foldl_buildStep_congr (buildSyntaxTreeFuel n) (buildSyntaxTreeFuel m)
          (t :: rest).length ?_ (t :: rest) BuildState.init (by simp [BuildState.init])]
        intro l hl
        simp only [List.length_cons] at hl hn hm
        exact ih m l (by omega) (by omega)

/-- The defining equation of `buildSyntaxTree` in the source: the fold of the loop body over
the tokens, the recursive call being `buildSyntaxTree` itself. -/
theorem buildSyntaxTree_unfold (tokens : List Str) :
    buildSyntaxTree tokens =
      (tokens.foldl (buildStep buildSyntaxTree) BuildState.init).syntaxTree := by
  cases tokens with
  | nil => rfl
  | cons t rest =>
    simp only [buildSyntaxTree, List.length_cons, buildSyntaxTreeFuel]
    rw [foldl_buildStep_congr (buildSyntaxTreeFuel rest.length) buildSyntaxTree
      (t :: rest).length ?_ (t :: rest) BuildState.init (by simp [BuildState.init])]
    intro l hl
    simp only [List.length_cons] at hl
    exact buildSyntaxTreeFuel_stable _ _ l (by omega) (by omega)

theorem buildStep_prepend (f : List Str → List ConfigEntry) (pre : List ConfigEntry)
    (st : BuildState) (token : Str) :
    buildStep f (st.prepend pre) token = (buildStep f st token).prepend pre := by
  unfold buildStep BuildState.prepend
  cases st.currentStatement with
  | none => simp
  | some cur => simp only []; split_ifs <;> simp

theorem foldl_buildStep_prepend (f : List Str → List ConfigEntry) (pre : List ConfigEntry) :
    ∀ (tokens : List Str) (st : BuildState),
      tokens.foldl (buildStep f) (st.prepend pre) = (tokens.foldl (buildStep f) st).prepend pre := by
  intro tokens
  induction tokens with
  | nil => intro st; rfl
  | cons t rest ih => intro st; simp only [List.foldl_cons, buildStep_prepend, ih]

/-- Tokens that are neither `{` nor `;` all become arguments of the open entry. -/
theorem foldl_buildStep_args (f : List Str → List ConfigEntry) :
    ∀ (args : List Str), (∀ a ∈ args, a ≠ ['{'] ∧ a ≠ [';']) →
    ∀ (tree : List ConfigEntry) (cur : ConfigEntry) (bs : List Str) (q : Int),
      args.foldl (buildStep f)
        { syntaxTree := tree, currentStatement := some cur, blockStack := bs,
          captureStack := false, captureBlocksQty := q } =
        { syntaxTree := tree,
          currentStatement :=
            some (ConfigEntry.mk cur.directive (cur.arguments ++ args.map coerceArg) cur.block),
          blockStack := bs, captureStack := false, captureBlocksQty := q } := by
  intro args
  induction args with
  | nil => intro _ tree cur bs q; cases cur; simp
  | cons a rest ih =>
    intro h tree cur bs q
    have ha := h a (by simp)
    simp only [List.foldl_cons]
    have hstep : buildStep f
        { syntaxTree := tree, currentStatement := some cur, blockStack := bs,
          captureStack := false, captureBlocksQty := q } a =
        { syntaxTree := tree,
          currentStatement :=
            some (ConfigEntry.mk cur.directive (cur.arguments ++ [coerceArg a]) cur.block),
          blockStack := bs, captureStack := false, captureBlocksQty := q } := by
      simp [buildStep, ha.1, ha.2]
    rw [hstep, ih (fun x hx => h x (by simp [hx]))]
    simp

/-- While a block is captured and the depth stays positive, every token is buffered. -/
theorem foldl_buildStep_capture (f : List Str → List ConfigEntry) :
    ∀ (body : List Str) (k : Nat),
      (∀ n, n ≤ body.length →
        (body.take n).count ['}'] + 1 ≤ (body.take n).count ['{'] + k) →
    ∀ (tree : List ConfigEntry) (cur : ConfigEntry) (bs : List Str),
      body.foldl (buildStep f)
        { syntaxTree := tree, currentStatement := some cur, blockStack := bs,
          captureStack := true, captureBlocksQty := (k : Int) } =
        { syntaxTree := tree, currentStatement := some cur, blockStack := bs ++ body,
          captureStack := true,
          captureBlocksQty := (k : Int) + body.count ['{'] - body.count ['}'] } := by
  intro body
  induction body with
  | nil => intro k _ tree cur bs; simp
  | cons t rest ih =>
    intro k h tree cur bs
    simp only [List.foldl_cons]
    have h1 := h 1 (by simp)
    by_cases ho : t = ['{']
    · subst ho
      have hstep : buildStep f
          { syntaxTree := tree, currentStatement := some cur, blockStack := bs,
            captureStack := true, captureBlocksQty := (k : Int) } ['{'] =
          { syntaxTree := tree, currentStatement := some cur, blockStack := bs ++ [['{']],
            captureStack := true, captureBlocksQty := ((k + 1 : Nat) : Int) } := by
        simp [buildStep]
      rw [hstep, ih (k + 1)]
      · simp; omega
      · intro n hn
        have := h (n + 1) (by simp; omega)
        simp at this
        omega
    · by_cases hc : t = ['}']
      · subst hc
        simp at h1
        obtain ⟨k', rfl⟩ : ∃ k', k = k' + 2 := ⟨k - 2, by omega⟩
        have hstep : buildStep f
            { syntaxTree := tree, currentStatement := some cur, blockStack := bs,
              captureStack := true, captureBlocksQty := ((k' + 2 : Nat) : Int) } ['}'] =
            { syntaxTree := tree, currentStatement := some cur, blockStack := bs ++ [['}']],
              captureStack := true, captureBlocksQty := ((k' + 1 : Nat) : Int) } := by
          have h2 : ((k' + 2 : Nat) : Int) - 1 ≠ 0 := by omega
          have h3 : ((k' + 2 : Nat) : Int) - 1 = ((k' + 1 : Nat) : Int) := by omega
          simp only [buildStep, if_neg h2, h3]
          simp
          omega
        rw [hstep, ih (k' + 1)]
        · simp; omega
        · intro n hn
          have := h (n + 1) (by simp; omega)
          simp at this
          omega
      · have hstep : buildStep f
            { syntaxTree := tree, currentStatement := some cur, blockStack := bs,
              captureStack := true, captureBlocksQty := (k : Int) } t =
            { syntaxTree := tree, currentStatement := some cur, blockStack := bs ++ [t],
              captureStack := true, captureBlocksQty := (k : Int) } := by
          simp [buildStep, ho, hc]
        rw [hstep, ih k]
        · have ho' : ¬ (['{'] = t) := fun e => ho e.symm
          have hc' : ¬ (['}'] = t) := fun e => hc e.symm
          simp [List.count_cons, ho', hc']
        · intro n hn
          have := h (n + 1) (by simp; omega)
          have ho' : ¬ (['{'] = t) := fun e => ho e.symm
          have hc' : ¬ (['}'] = t) := fun e => hc e.symm
          simp [List.count_cons, ho', hc'] at this
          omega

theorem foldl_buildStep_init_tree (f : List Str → List ConfigEntry) (pre : List ConfigEntry)
    (tokens : List Str) :
    (tokens.foldl (buildStep f)
      { syntaxTree := pre, currentStatement := none, blockStack := [],
        captureStack := false, captureBlocksQty := 0 }).syntaxTree =
      pre ++ (tokens.foldl (buildStep f) BuildState.init).syntaxTree := by
  have h := foldl_buildStep_prepend f pre tokens BuildState.init
  simp only [BuildState.prepend, BuildState.init, List.append_nil] at h
  rw [h]
  rfl

/-- A statement closed by `;`: directive, arguments, then the rest of the tokens. -/
theorem buildSyntaxTree_semicolon (d : Str) (args rest : List Str)
    (hargs : ∀ a ∈ args, a ≠ ['{'] ∧ a ≠ [';']) :
    buildSyntaxTree ([d] ++ args ++ [[';']] ++ rest) =
      ConfigEntry.mk d (args.map coerceArg) [] :: buildSyntaxTree rest := by
  rw [buildSyntaxTree_unfold, buildSyntaxTree_unfold rest]
  simp only [List.foldl_append, List.foldl_cons, List.foldl_nil]
  have h0 : buildStep buildSyntaxTree BuildState.init d =
      { syntaxTree := [], currentStatement := some (ConfigEntry.mk d [] []), blockStack := [],
        captureStack := false, captureBlocksQty := 0 } := rfl
  rw [h0, foldl_buildStep_args buildSyntaxTree args hargs]
  have h1 : buildStep buildSyntaxTree
      { syntaxTree := [],
        currentStatement := some (ConfigEntry.mk d ([] ++ args.map coerceArg) []),
        blockStack := [], captureStack := false, captureBlocksQty := 0 } [';'] =
      { syntaxTree := [ConfigEntry.mk d (args.map coerceArg) []], currentStatement := none,
        blockStack := [], captureStack := false, captureBlocksQty := 0 } := by
    simp [buildStep]
  rw [h1, foldl_buildStep_init_tree]
  rfl

/-- A statement closed by a block: directive, arguments, `{`, a body with balanced braces,
`}`, then the rest of the tokens. -/
theorem buildSyntaxTree_block (d : Str) (args body rest : List Str)
    (hargs : ∀ a ∈ args, a ≠ ['{'] ∧ a ≠ [';'])
    (hbal : ∀ n, n ≤ body.length → (body.take n).count ['}'] ≤ (body.take n).count ['{'])
    (htotal : body.count ['{'] = body.count ['}']) :
    buildSyntaxTree ([d] ++ args ++ [['{']] ++ body ++ [['}']] ++ rest) =
      ConfigEntry.mk d (args.map coerceArg) (buildSyntaxTree body) :: buildSyntaxTree rest := by
  rw [buildSyntaxTree_unfold, buildSyntaxTree_unfold rest]
  simp only [List.foldl_append, List.foldl_cons, List.foldl_nil]
  have h0 : buildStep buildSyntaxTree BuildState.init d =
      { syntaxTree := [], currentStatement := some (ConfigEntry.mk d [] []), blockStack := [],
        captureStack := false, captureBlocksQty := 0 } := rfl
  rw [h0, foldl_buildStep_args buildSyntaxTree args hargs]
  have h1 : buildStep buildSyntaxTree
      { syntaxTree := [],
        currentStatement := some (ConfigEntry.mk d ([] ++ args.map coerceArg) []),
        blockStack := [], captureStack := false, captureBlocksQty := 0 } ['{'] =
      { syntaxTree := [],
        currentStatement := some (ConfigEntry.mk d (args.map coerceArg) []),
        blockStack := [], captureStack := true, captureBlocksQty := ((1 : Nat) : Int) } := by
    simp [buildStep]
  rw [h1, foldl_buildStep_capture buildSyntaxTree body 1
    (fun n hn => Nat.add_le_add_right (hbal n hn) 1)]
  have h2 : buildStep buildSyntaxTree
      { syntaxTree := [],
        currentStatement := some (ConfigEntry.mk d (args.map coerceArg) []),
        blockStack := [] ++ body, captureStack := true,
        captureBlocksQty := ((1 : Nat) : Int) + body.count ['{'] - body.count ['}'] } ['}'] =
      { syntaxTree := [ConfigEntry.mk d (args.map coerceArg) (buildSyntaxTree body)],
        currentStatement := none,
        blockStack := [], captureStack := false, captureBlocksQty := 0 } := by
    simp [buildStep, htotal]
  rw [h2, foldl_buildStep_init_tree]
  rfl

/-- An entry whose statement is not closed when the tokens end is not in the result. -/
theorem buildSyntaxTree_unterminated (d : Str) (args : List Str)
    (hargs : ∀ a ∈ args, a ≠ ['{'] ∧ a ≠ [';']) :
    buildSyntaxTree ([d] ++ args) = [] := by
  rw [buildSyntaxTree_unfold]
  simp only [List.foldl_append, List.foldl_cons, List.foldl_nil]
  have h0 : buildStep buildSyntaxTree BuildState.init d =
      { syntaxTree := [], currentStatement := some (ConfigEntry.mk d [] []), blockStack := [],
        captureStack := false, captureBlocksQty := 0 } := rfl
  rw [h0, foldl_buildStep_args buildSyntaxTree args hargs]

/-- An entry whose block is not closed when the tokens end is not in the result. -/
theorem buildSyntaxTree_unclosed (d : Str) (args body : List Str)
    (hargs : ∀ a ∈ args, a ≠ ['{'] ∧ a ≠ [';'])
    (hbal : ∀ n, n ≤ body.length → (body.take n).count ['}'] ≤ (body.take n).count ['{']) :
    buildSyntaxTree ([d] ++ args ++ [['{']] ++ body) = [] := by
  rw [buildSyntaxTree_unfold]
  simp only [List.foldl_append, List.foldl_cons, List.foldl_nil]
  have h0 : buildStep buildSyntaxTree BuildState.init d =
      { syntaxTree := [], currentStatement := some (ConfigEntry.mk d [] []), blockStack := [],
        captureStack := false, captureBlocksQty := 0 } := rfl
  rw [h0, foldl_buildStep_args buildSyntaxTree args hargs]
  have h1 : buildStep buildSyntaxTree
      { syntaxTree := [],
        currentStatement := some (ConfigEntry.mk d ([] ++ args.map coerceArg) []),
        blockStack := [], captureStack := false, captureBlocksQty := 0 } ['{'] =
      { syntaxTree := [],
        currentStatement := some (ConfigEntry.mk d (args.map coerceArg) []),
        blockStack := [], captureStack := true, captureBlocksQty := ((1 : Nat) : Int) } := by
    simp [buildStep]
  rw [h1, foldl_buildStep_capture buildSyntaxTree body 1
    (fun n hn => Nat.add_le_add_right (hbal n hn) 1)]

/-! ## Coercion of an argument token -/

theorem dropWhile_eq_self_of_head {p : Char → Bool} :
    ∀ (s : Str), (∀ c, s.head? = some c → p c = false) → s.dropWhile p = s
  | [], _ => rfl
  | c :: cs, h => by simp [List.dropWhile_cons, h c rfl]

theorem trim_eq_self (s : Str) (hhead : ∀ c, s.head? = some c → isWhitespace c = false)
    (hlast : ∀ c, s.getLast? = some c → isWhitespace c = false) : trim s = s := by
  unfold trim
  rw [dropWhile_eq_self_of_head s hhead, dropWhile_eq_self_of_head s.reverse, List.reverse_reverse]
  intro c hc
  rw [List.head?_reverse] at hc
  exact hlast c hc

theorem takeWhile_eq_self_of_all {p : Char → Bool} :
    ∀ (s : Str), (∀ c ∈ s, p c = true) → s.takeWhile p = s
  | [], _ => rfl
  | c :: cs, h => by
    simp only [List.takeWhile_cons, h c (by simp), if_true]
    rw [takeWhile_eq_self_of_all cs (fun x hx => h x (by simp [hx]))]

theorem dropWhile_eq_nil_of_all {p : Char → Bool} :
    ∀ (s : Str), (∀ c ∈ s, p c = true) → s.dropWhile p = []
  | [], _ => rfl
  | c :: cs, h => by
    simp only [List.dropWhile_cons, h c (by simp), if_true]
    exact dropWhile_eq_nil_of_all cs (fun x hx => h x (by simp [hx]))

theorem isWhitespace_of_isDecDigit (c : Char) (h : isDecDigit c = true) :
    isWhitespace c = false := by
  simp only [isDecDigit, Bool.and_eq_true, decide_eq_true_eq] at h
  simp only [isWhitespace]
  have h1 := h.1
  have h2 := h.2
  simp only [Bool.or_eq_false_iff, Bool.and_eq_false_iff, beq_eq_false_iff_ne, ne_eq,
    decide_eq_false_iff_not]
  refine ⟨⟨⟨⟨⟨⟨⟨⟨⟨⟨⟨⟨⟨⟨?_, ?_⟩, ?_⟩, ?_⟩, ?_⟩, ?_⟩, ?_⟩, ?_⟩, ?_⟩, ?_⟩, ?_⟩, ?_⟩, ?_⟩, ?_⟩, ?_⟩ <;>
    omega

theorem digitsValue_append (ds : Str) (c : Char) :
    digitsValue (ds ++ [c]) = 10 * digitsValue ds + (c.toNat - 48) := by
  simp [digitsValue, List.foldl_append]

/-- The base-10 value read by `parseInt` is the positional value of the digits. -/
theorem digitsValue_eq_ofDigits (ds : Str) :
    digitsValue ds = Nat.ofDigits 10 (ds.reverse.map (fun c => c.toNat - 48)) := by
  induction ds using List.reverseRecOn with
  | nil => rfl
  | append_singleton ds c ih =>
    rw [digitsValue_append, ih]
    simp [Nat.ofDigits_cons]
    omega

theorem dropSign_cons_of_ne (c : Char) (cs : Str) (hp : c ≠ '+') (hm : c ≠ '-') :
    dropSign (c :: cs) = c :: cs := by
  unfold dropSign
  split
  · rename_i h; simp at h; exact absurd h.1 hp
  · rename_i h; simp at h; exact absurd h.1 hm
  · rfl

theorem hasMinusSign_cons_of_ne (c : Char) (cs : Str) (hm : c ≠ '-') :
    hasMinusSign (c :: cs) = false := by
  unfold hasMinusSign
  split
  · rename_i h; simp at h; exact absurd h.1 hm
  · rfl

theorem isDecDigit_ne_sign (c : Char) (h : isDecDigit c = true) : c ≠ '+' ∧ c ≠ '-' := by
  constructor <;> (rintro rfl; revert h; decide)

theorem isStrUnsignedDecimalLiteral_digits (ds : Str) (hne : ds ≠ [])
    (hd : ∀ c ∈ ds, isDecDigit c = true) : isStrUnsignedDecimalLiteral ds = true := by
  unfold isStrUnsignedDecimalLiteral
  rw [takeWhile_eq_self_of_all ds hd, dropWhile_eq_nil_of_all ds hd]
  cases ds with
  | nil => exact absurd rfl hne
  | cons c cs => simp [isExponentPartOpt]

/-- A token made of an optional `-` and decimal digits is numeric for `Number`. -/
theorem isStringNumericLiteral_integer (neg : Bool) (ds : Str) (hne : ds ≠ [])
    (hd : ∀ c ∈ ds, isDecDigit c = true) :
    isStringNumericLiteral ((if neg then ['-'] else []) ++ ds) = true := by
  have hlast : ∀ c, ((if neg then ['-'] else []) ++ ds).getLast? = some c →
      isWhitespace c = false := by
    intro c hc
    rw [List.getLast?_append_of_ne_nil _ hne] at hc
    exact isWhitespace_of_isDecDigit c (hd c (List.mem_of_getLast?_eq_some hc))
  obtain ⟨c, cs, rfl⟩ := List.exists_cons_of_ne_nil hne
  have hc := hd c (by simp)
  unfold isStringNumericLiteral
  cases neg with
  | true =>
    have ht : trim (['-'] ++ c :: cs) = '-' :: c :: cs :=
      trim_eq_self _ (by intro x hx; simp at hx; subst hx; decide) (by simpa using hlast)
    simp only [if_true, ht]
    have : dropSign ('-' :: c :: cs) = c :: cs := rfl
    rw [this, isStrUnsignedDecimalLiteral_digits _ hne hd]
    simp
  | false =>
    have ht : trim ([] ++ c :: cs) = c :: cs :=
      trim_eq_self _ (by intro x hx; simp at hx; subst hx; exact isWhitespace_of_isDecDigit _ hc)
        (by simpa using hlast)
    simp only [Bool.false_eq_true, if_false, ht]
    rw [dropSign_cons_of_ne c cs (isDecDigit_ne_sign c hc).1 (isDecDigit_ne_sign c hc).2,
      isStrUnsignedDecimalLiteral_digits _ hne hd]
    simp

/-- The call `parseInt(token, 10)` on an optional `-` and decimal digits. -/
theorem parseInt10_integer (neg : Bool) (ds : Str) (hne : ds ≠ [])
    (hd : ∀ c ∈ ds, isDecDigit c = true) :
    parseInt10 ((if neg then ['-'] else []) ++ ds) = toDouble neg (digitsValue ds) := by
  obtain ⟨c, cs, rfl⟩ := List.exists_cons_of_ne_nil hne
  have hc := hd c (by simp)
  unfold parseInt10
  cases neg with
  | true =>
    have h1 : (['-'] ++ c :: cs).dropWhile isWhitespace = '-' :: c :: cs :=
      dropWhile_eq_self_of_head _ (by intro x hx; simp at hx; subst hx; decide)
    simp only [if_true, h1]
    have : dropSign ('-' :: c :: cs) = c :: cs := rfl
    rw [this, takeWhile_eq_self_of_all _ hd]
    simp [hasMinusSign]
  | false =>
    have h1 : ([] ++ c :: cs).dropWhile isWhitespace = c :: cs :=
      dropWhile_eq_self_of_head _
        (by intro x hx; simp at hx; subst hx; exact isWhitespace_of_isDecDigit _ hc)
    simp only [Bool.false_eq_true, if_false, h1]
    rw [dropSign_cons_of_ne c cs (isDecDigit_ne_sign c hc).1 (isDecDigit_ne_sign c hc).2,
      takeWhile_eq_self_of_all _ hd]
    rw [hasMinusSign_cons_of_ne c cs (isDecDigit_ne_sign c hc).2]
    simp

/-- The argument stored for an optional `-` and decimal digits of value below `2 ^ 53`. -/
theorem coerceArg_integer (neg : Bool) (ds : Str) (hne : ds ≠ [])
    (hd : ∀ c ∈ ds, isDecDigit c = true) (hmag : digitsValue ds < 2 ^ 53) :
    coerceArg ((if neg then ['-'] else []) ++ ds) =
      ArgValue.num (JSNumber.finite neg (digitsValue ds)) := by
  unfold coerceArg numberIsNaN
  rw [isStringNumericLiteral_integer neg ds hne hd, parseInt10_integer neg ds hne hd]
  unfold toDouble
  rw [if_pos hmag]
  rfl

/-! ## Lemmas: lines, comments and whitespace in `tokenize` -/

theorem foldl_append_eq_flatten (ls : List (List Str)) :
    ∀ (init : List Str), ls.foldl (fun a n => a ++ n) init = init ++ ls.flatten := by
  induction ls with
  | nil => intro init; simp
  | cons l rest ih => intro init; simp [ih]

/-- The tokens of a text, computed from its lines. -/
theorem tokenize_eq (content : Str) :
    tokenize content =
      ((((splitLines content).map normalizeLine).filter (fun line => !line.isEmpty)).map
        tokenizeLine).flatten := by
  simp [tokenize, foldl_append_eq_flatten]

theorem splitLinesAux_append_newline (a b : Str) :
    ∀ (cur : Str), splitLinesAux cur (a ++ '\n' :: b) = splitLinesAux cur a ++ splitLinesAux [] b := by
  induction a with
  | nil => intro cur; simp [splitLinesAux]
  | cons c cs ih =>
    intro cur
    by_cases h : c = '\n'
    · simp [splitLinesAux, h, ih]
    · simp [splitLinesAux, h, ih]

theorem splitLinesAux_of_no_newline (s : Str) (h : ∀ c ∈ s, c ≠ '\n') :
    ∀ (cur : Str), splitLinesAux cur s = [cur ++ s] := by
  induction s with
  | nil => intro cur; simp [splitLinesAux]
  | cons c cs ih =>
    intro cur
    have hc : c ≠ '\n' := h c (by simp)
    simp [splitLinesAux, hc, ih (fun x hx => h x (by simp [hx]))]

theorem stripComment_append_hash (s t : Str) :
    stripComment (s ++ '#' :: t) = stripComment s := by
  induction s with
  | nil => simp [stripComment]
  | cons c cs ih =>
    unfold stripComment at ih ⊢
    by_cases h : c = '#'
    · simp [h]
    · simp [List.takeWhile_cons, h, ih]

theorem map_stripComment_splitLinesAux_append_hash (l c : Str) (hc : ∀ x ∈ c, x ≠ '\n') :
    ∀ (cur : Str), (splitLinesAux cur (l ++ '#' :: c)).map stripComment =
      (splitLinesAux cur l).map stripComment := by
  induction l with
  | nil =>
    intro cur
    have h : ∀ x ∈ '#' :: c, x ≠ '\n' := by
      intro x hx
      rcases List.mem_cons.mp hx with rfl | hx
      · decide
      · exact hc x hx
    rw [List.nil_append, splitLinesAux_of_no_newline _ h]
    simp [splitLinesAux, stripComment_append_hash]
  | cons x xs ih =>
    intro cur
    by_cases h : x = '\n'
    · simp [splitLinesAux, h, ih]
    · simp [splitLinesAux, h, ih]

theorem collapseAux_all_whitespace :
    ∀ (l : Str) (b : Bool), (∀ c ∈ l, isWhitespace c = true) →
      ∀ c ∈ collapseAux b l, isWhitespace c = true := by
  intro l
  induction l with
  | nil => intro b _ c hc; simp [collapseAux] at hc
  | cons x xs ih =>
    intro b h c hc
    have hx : isWhitespace x = true := h x (by simp)
    have hxs : ∀ c ∈ xs, isWhitespace c = true := fun y hy => h y (by simp [hy])
    cases b with
    | true =>
      simp only [collapseAux, hx, if_true] at hc
      exact ih true hxs c hc
    | false =>
      cases xs with
      | nil =>
        simp only [collapseAux, hx, if_true, List.mem_singleton] at hc
        rw [hc]; exact hx
      | cons y ys =>
        have hy : isWhitespace y = true := h y (by simp)
        simp only [collapseAux, hx, hy, if_true, List.mem_cons] at hc
        rcases hc with rfl | hc
        · decide
        · exact ih true hxs c (by simpa [collapseAux, hy] using hc)

/-- A line whose text before the first `#` is all whitespace normalises to the empty line. -/
theorem normalizeLine_eq_nil (line : Str) (h : ∀ c ∈ stripComment line, isWhitespace c = true) :
    normalizeLine line = [] := by
  unfold normalizeLine trim collapseSpaces
  rw [dropWhile_eq_nil_of_all _ (collapseAux_all_whitespace _ false h)]
  rfl

/-- The tokens of two texts joined by a newline. -/
theorem tokenize_append_newline (a b : Str) :
    tokenize (a ++ '\n' :: b) = tokenize a ++ tokenize b := by
  simp only [tokenize_eq, splitLines, splitLinesAux_append_newline, List.map_append,
    List.filter_append, List.flatten_append]

/-- The tokens of a text do not depend on what follows a `#` on its last line. -/
theorem tokenize_append_comment (l c : Str) (hc : ∀ x ∈ c, x ≠ '\n') :
    tokenize (l ++ '#' :: c) = tokenize l := by
  have h := map_stripComment_splitLinesAux_append_hash l c hc []
  have hn : normalizeLine = (fun s => trim (collapseSpaces s)) ∘ stripComment := rfl
  simp only [tokenize_eq, splitLines, hn, ← List.map_map, h]

/-- A line without tokens: empty, whitespace only, or a comment after whitespace. -/
theorem tokenize_blank_line (line : Str) (hnl : ∀ c ∈ line, c ≠ '\n')
    (h : ∀ c ∈ stripComment line, isWhitespace c = true) : tokenize line = [] := by
  rw [tokenize_eq, splitLines, splitLinesAux_of_no_newline line hnl]
  simp [normalizeLine_eq_nil line h]

/-! ## Lemmas: the character scan of `tokenizeLine` -/

theorem isWhitespace_of_isReservedChar (c : Char) (h : isReservedChar c = true) :
    isWhitespace c = false := by
  simp only [isReservedChar, Bool.or_eq_true, beq_iff_eq] at h
  rcases h with (((rfl | rfl) | rfl) | rfl) | rfl <;> decide

theorem scanStep_reserved (next : Option Char) (st : ScanState) (c : Char)
    (hr : isReservedChar c = true) :
    scanStep next st c =
      if lastCharOfWord next && 0 < st.currentToken.length then
        { tokens := st.tokens ++ [[c]] ++ [st.currentToken], currentToken := [] }
      else { tokens := st.tokens ++ [[c]], currentToken := st.currentToken } := by
  simp [scanStep, hr]

theorem scanStep_plain (next : Option Char) (st : ScanState) (c : Char)
    (hr : isReservedChar c = false) (hw : isWhitespace c = false) :
    scanStep next st c =
      if lastCharOfWord next then
        { tokens := st.tokens ++ [st.currentToken ++ [c]], currentToken := [] }
      else { tokens := st.tokens, currentToken := st.currentToken ++ [c] } := by
  simp [scanStep, hr, hw]

theorem scanStep_whitespace (next : Option Char) (st : ScanState) (c : Char)
    (hr : isReservedChar c = false) (hw : isWhitespace c = true) :
    scanStep next st c =
      if lastCharOfWord next && 0 < st.currentToken.length then
        { tokens := st.tokens ++ [st.currentToken], currentToken := [] }
      else st := by
  simp [scanStep, hr, hw]

/-- After a step whose next character ends a word, no word is pending. -/
theorem scanStep_currentToken (next : Option Char) (st : ScanState) (c : Char)
    (h : lastCharOfWord next = true) : (scanStep next st c).currentToken = [] := by
  cases hr : isReservedChar c with
  | true =>
    rw [scanStep_reserved next st c hr]
    cases hcur : st.currentToken <;> simp [h, hcur]
  | false =>
    cases hw : isWhitespace c with
    | true =>
      rw [scanStep_whitespace next st c hr hw]
      cases hcur : st.currentToken <;> simp [h, hcur]
    | false =>
      rw [scanStep_plain next st c hr hw]
      simp [h]

/-- One step of the scan adds the character, unless it is whitespace, to the text of the
tokens and the pending word. -/
theorem scanStep_flatten (next : Option Char) (st : ScanState) (c : Char)
    (h : lastCharOfWord (some c) = true → st.currentToken = []) :
    (scanStep next st c).tokens.flatten ++ (scanStep next st c).currentToken =
      st.tokens.flatten ++ st.currentToken ++ (if isWhitespace c then [] else [c]) := by
  cases hr : isReservedChar c with
  | true =>
    have hcur : st.currentToken = [] := h (by simp [lastCharOfWord, hr])
    rw [scanStep_reserved next st c hr]
    simp [hcur, isWhitespace_of_isReservedChar c hr]
  | false =>
    cases hw : isWhitespace c with
    | true =>
      rw [scanStep_whitespace next st c hr hw]
      split_ifs <;> simp_all
    | false =>
      rw [scanStep_plain next st c hr hw]
      split_ifs <;> simp_all

/-- The text of the tokens of the scan is the line without its whitespace, and no word is
pending at the end. -/
theorem scanLoop_flatten :
    ∀ (cs : Str) (st : ScanState), (lastCharOfWord cs.head? = true → st.currentToken = []) →
      (scanLoop cs st).currentToken = [] ∧
      (scanLoop cs st).tokens.flatten =
        st.tokens.flatten ++ st.currentToken ++ cs.filter (fun c => !isWhitespace c) := by
  intro cs
  induction cs with
  | nil =>
    intro st h
    have hcur := h rfl
    simp [scanLoop, hcur]
  | cons c rest ih =>
    intro st h
    have hstep := scanStep_flatten rest.head? st c (by simpa using h)
    obtain ⟨h1, h2⟩ := ih (scanStep rest.head? st c) (scanStep_currentToken rest.head? st c)
    refine ⟨h1, ?_⟩
    simp only [scanLoop]
    rw [h2, hstep]
    cases hw : isWhitespace c <;> simp [hw]

theorem scanStep_shape (next : Option Char) (st : ScanState) (c : Char)
    (htok : ∀ t ∈ st.tokens, ScanShape t)
    (hcur : ∀ x ∈ st.currentToken, isReservedChar x = false ∧ isWhitespace x = false) :
    (∀ t ∈ (scanStep next st c).tokens, ScanShape t) ∧
      (∀ x ∈ (scanStep next st c).currentToken,
        isReservedChar x = false ∧ isWhitespace x = false) := by
  have hflush : 0 < st.currentToken.length → ScanShape st.currentToken :=
    fun hpos => Or.inr ⟨List.ne_nil_of_length_pos hpos, hcur⟩
  cases hr : isReservedChar c with
  | true =>
    have hc : ScanShape [c] := Or.inl ⟨c, rfl, hr⟩
    rw [scanStep_reserved next st c hr]
    split_ifs with hf
    · simp only [Bool.and_eq_true, decide_eq_true_eq] at hf
      refine ⟨?_, by simp⟩
      intro t ht
      simp only [List.mem_append, List.mem_singleton] at ht
      rcases ht with (ht | rfl) | rfl
      · exact htok t ht
      · exact hc
      · exact hflush hf.2
    · refine ⟨?_, hcur⟩
      intro t ht
      simp only [List.mem_append, List.mem_singleton] at ht
      rcases ht with ht | rfl
      · exact htok t ht
      · exact hc
  | false =>
    cases hw : isWhitespace c with
    | true =>
      rw [scanStep_whitespace next st c hr hw]
      split_ifs with hf
      · simp only [Bool.and_eq_true, decide_eq_true_eq] at hf
        refine ⟨?_, by simp⟩
        intro t ht
        simp only [List.mem_append, List.mem_singleton] at ht
        rcases ht with ht | rfl
        · exact htok t ht
        · exact hflush hf.2
      · exact ⟨htok, hcur⟩
    | false =>
      have hcur' : ∀ x ∈ st.currentToken ++ [c],
          isReservedChar x = false ∧ isWhitespace x = false := by
        intro x hx
        simp only [List.mem_append, List.mem_singleton] at hx
        rcases hx with hx | rfl
        · exact hcur x hx
        · exact ⟨hr, hw⟩
      rw [scanStep_plain next st c hr hw]
      split_ifs with hf
      · refine ⟨?_, by simp⟩
        intro t ht
        simp only [List.mem_append, List.mem_singleton] at ht
        rcases ht with ht | rfl
        · exact htok t ht
        · exact Or.inr ⟨by simp, hcur'⟩
      · exact ⟨htok, hcur'⟩

/-- Every token of the scan is one reserved character or a word without reserved characters
and without whitespace. -/
theorem scanLoop_shape :
    ∀ (cs : Str) (st : ScanState), (∀ t ∈ st.tokens, ScanShape t) →
      (∀ x ∈ st.currentToken, isReservedChar x = false ∧ isWhitespace x = false) →
      ∀ t ∈ (scanLoop cs st).tokens, ScanShape t := by
  intro cs
  induction cs with
  | nil => intro st htok _; simpa [scanLoop] using htok
  | cons c rest ih =>
    intro st htok hcur
    obtain ⟨h1, h2⟩ := scanStep_shape rest.head? st c htok hcur
    simpa [scanLoop] using ih _ h1 h2

/-! ## Lemmas: the string pass of `tokenizeLine` -/

theorem isStringMarker_iff (t : Str) :
    isStringMarker t = true ↔ t = [squote] ∨ t = [dquote] := by
  simp [isStringMarker]

/-- Outside a quoted run, a token that is no quote is passed through. -/
theorem normStep_plain (st : NormState) (t : Str) (hm : isStringMarker t = false)
    (h1 : st.currentStringMarker = none) (h2 : st.currentNSToken = []) :
    normStep st t =
      { normalizedStringTokens := st.normalizedStringTokens ++ [t],
        currentStringMarker := none, currentNSToken := [] } := by
  simp [normStep, hm, h1, h2]

theorem foldl_normStep_plain :
    ∀ (tokens : List Str) (out : List Str), (∀ t ∈ tokens, isStringMarker t = false) →
      tokens.foldl normStep
        { normalizedStringTokens := out, currentStringMarker := none, currentNSToken := [] } =
        { normalizedStringTokens := out ++ tokens, currentStringMarker := none,
          currentNSToken := [] } := by
  intro tokens
  induction tokens with
  | nil => intro out _; simp
  | cons t rest ih =>
    intro out h
    simp only [List.foldl_cons]
    rw [normStep_plain _ t (h t (by simp)) rfl rfl, ih _ (fun x hx => h x (by simp [hx]))]
    simp

/-- The tokens of the first loop of `tokenizeLine`. -/
theorem scanLoop_init_flatten (line : Str) :
    (scanLoop line { tokens := [], currentToken := [] }).tokens.flatten =
      line.filter (fun c => !isWhitespace c) := by
  have h := (scanLoop_flatten line { tokens := [], currentToken := [] } (fun _ => rfl)).2
  simpa using h

/-- On a line without quote characters the string pass changes nothing. -/
theorem tokenizeLine_of_no_quote (line : Str) (hq : ∀ c ∈ line, c ≠ dquote ∧ c ≠ squote) :
    tokenizeLine line = (scanLoop line { tokens := [], currentToken := [] }).tokens := by
  unfold tokenizeLine
  simp only []
  rw [foldl_normStep_plain]
  · simp
  · intro t ht
    by_contra hm
    have hm' : isStringMarker t = true := by simpa using hm
    have hmem : ∀ c ∈ t, c ∈ line := by
      intro c hc
      have : c ∈ (scanLoop line { tokens := [], currentToken := [] }).tokens.flatten :=
        List.mem_flatten.mpr ⟨t, ht, hc⟩
      rw [scanLoop_init_flatten] at this
      exact (List.mem_filter.mp this).1
    rcases (isStringMarker_iff t).mp hm' with rfl | rfl
    · exact (hq squote (hmem squote (by simp))).2 rfl
    · exact (hq dquote (hmem dquote (by simp))).1 rfl

/-- In a list of tokens of the scan, the tokens that hold a reserved character are the
reserved characters of the text, one token each. -/
theorem filter_any_reserved_of_shape :
    ∀ (tokens : List Str), (∀ t ∈ tokens, ScanShape t) →
      tokens.filter (fun t => t.any isReservedChar) =
        (tokens.flatten.filter isReservedChar).map (fun c => [c]) := by
  intro tokens
  induction tokens with
  | nil => intro _; rfl
  | cons t rest ih =>
    intro h
    have ih' := ih (fun x hx => h x (by simp [hx]))
    rcases h t (by simp) with ⟨c, rfl, hc⟩ | ⟨_, hplain⟩
    · simp [List.filter_cons, hc, ih']
    · have h1 : t.any isReservedChar = false := by
        simp only [List.any_eq_false]
        intro x hx
        simp [(hplain x hx).1]
      have h2 : t.filter isReservedChar = [] := by
        simp only [List.filter_eq_nil_iff]
        intro x hx
        simp [(hplain x hx).1]
      simp [List.filter_cons, h1, h2, ih']

/-! ## Lemmas: a line of words separated by single spaces -/

theorem intercalate_cons_cons (sep w w2 : Str) (ws : List Str) :
    List.intercalate sep (w :: w2 :: ws) = w ++ sep ++ List.intercalate sep (w2 :: ws) := by
  simp [List.intercalate]

theorem intercalate_singleton (sep w : Str) : List.intercalate sep [w] = w := by
  simp [List.intercalate]

theorem BareWord.ne_nil {w : Str} (h : BareWord w) : w ≠ [] := h.1

theorem BareWord.not_whitespace {w : Str} (h : BareWord w) :
    ∀ c ∈ w, isWhitespace c = false := fun c hc => (h.2 c hc).1

theorem BareWord.not_reserved {w : Str} (h : BareWord w) :
    ∀ c ∈ w, isReservedChar c = false := fun c hc => (h.2 c hc).2.1

theorem BareWord.not_marker {w : Str} (h : BareWord w) : isStringMarker w = false := by
  cases hm : isStringMarker w with
  | false => rfl
  | true =>
    rcases (isStringMarker_iff w).mp hm with rfl | rfl
    · exact absurd (h.not_reserved squote (by simp)) (by decide)
    · exact absurd (h.not_reserved dquote (by simp)) (by decide)

/-- The first character of a word followed by anything is no whitespace. -/
theorem BareWord.head_append {w : Str} (h : BareWord w) (rest : Str) :
    ∃ c tl, w ++ rest = c :: tl ∧ isWhitespace c = false ∧ isReservedChar c = false := by
  obtain ⟨c, cs, rfl⟩ := List.exists_cons_of_ne_nil h.ne_nil
  exact ⟨c, cs ++ rest, rfl, h.not_whitespace c (by simp), h.not_reserved c (by simp)⟩

/-! ### `collapseSpaces` -/

theorem collapseAux_false_cons (c : Char) (cs : Str) (hc : isWhitespace c = false) :
    collapseAux false (c :: cs) = c :: collapseAux false cs := by
  simp [collapseAux, hc]

theorem collapseAux_false_append (w rest : Str) (hw : ∀ c ∈ w, isWhitespace c = false) :
    collapseAux false (w ++ rest) = w ++ collapseAux false rest := by
  induction w with
  | nil => rfl
  | cons c cs ih =>
    rw [List.cons_append, collapseAux_false_cons c _ (hw c (by simp)),
      ih (fun x hx => hw x (by simp [hx]))]
    rfl

/-- A single character in front of a character that is no whitespace is kept. -/
theorem collapseAux_false_single (x c : Char) (cs : Str) (hc : isWhitespace c = false) :
    collapseAux false (x :: c :: cs) = x :: collapseAux false (c :: cs) := by
  cases hx : isWhitespace x <;> simp [collapseAux, hx, hc]

theorem collapseAux_false_words (ws : List Str) (hws : ∀ w ∈ ws, BareWord w) (z : Str) :
    collapseAux false (List.intercalate [' '] ws ++ z) =
      List.intercalate [' '] ws ++ collapseAux false z := by
  induction ws with
  | nil => rfl
  | cons w rest ih =>
    have hw := hws w (by simp)
    have hrest : ∀ x ∈ rest, BareWord x := fun x hx => hws x (by simp [hx])
    cases rest with
    | nil =>
      rw [intercalate_singleton, collapseAux_false_append w z hw.not_whitespace]
    | cons w2 rest2 =>
      have ih' := ih hrest
      have hw2 := hws w2 (by simp)
      rw [intercalate_cons_cons]
      simp only [List.append_assoc]
      rw [collapseAux_false_append w _ hw.not_whitespace]
      congr 1
      simp only [List.singleton_append]
      obtain ⟨c, tl, htl, hc, _⟩ : ∃ c tl, List.intercalate [' '] (w2 :: rest2) ++ z = c :: tl ∧
          isWhitespace c = false ∧ isReservedChar c = false := by
        cases rest2 with
        | nil => rw [intercalate_singleton]; exact hw2.head_append z
        | cons w3 rest3 =>
          rw [intercalate_cons_cons]
          simp only [List.append_assoc]
          exact hw2.head_append _
      rw [htl, collapseAux_false_single ' ' c tl hc, ← htl, ih']

/-! ### The first loop of `tokenizeLine` -/

theorem scanLoop_cons (c : Char) (rest : Str) (st : ScanState) :
    scanLoop (c :: rest) st = scanLoop rest (scanStep rest.head? st c) := rfl

/-- A word in front of a character that ends a word becomes a token. -/
theorem scanLoop_word (w : Str) (hne : w ≠ [])
    (hw : ∀ c ∈ w, isWhitespace c = false ∧ isReservedChar c = false) (rest : Str)
    (hrest : lastCharOfWord rest.head? = true) :
    ∀ (st : ScanState), scanLoop (w ++ rest) st =
      scanLoop rest { tokens := st.tokens ++ [st.currentToken ++ w], currentToken := [] } := by
  induction w with
  | nil => exact absurd rfl hne
  | cons c cs ih =>
    intro st
    have hc := hw c (by simp)
    cases cs with
    | nil =>
      rw [List.cons_append, List.nil_append, scanLoop_cons, scanStep_plain _ st c hc.2 hc.1,
        hrest]
      simp
    | cons c2 cs2 =>
      have hc2 := hw c2 (by simp)
      have hlast : lastCharOfWord (some c2) = false := by
        have hsp : c2 ≠ ' ' := by
          rintro rfl
          exact absurd hc2.1 (by decide)
        simp [lastCharOfWord, hc2.2, hsp]
      have ih' := ih (by simp) (fun x hx => hw x (by simp [hx]))
      have hh : ((c2 :: cs2) ++ rest).head? = some c2 := rfl
      rw [List.cons_append, scanLoop_cons, hh, scanStep_plain _ st c hc.2 hc.1, hlast]
      simp only [Bool.false_eq_true, if_false]
      rw [ih']
      simp

/-- A space after a finished token is skipped. -/
theorem scanLoop_space (rest : Str) (st : ScanState) (hcur : st.currentToken = []) :
    scanLoop (' ' :: rest) st = scanLoop rest st := by
  rw [scanLoop_cons, scanStep_whitespace _ st ' ' (by decide) (by decide)]
  simp [hcur]

/-- A reserved character after a finished token is a token. -/
theorem scanLoop_reserved (r : Char) (hr : isReservedChar r = true) (rest : Str)
    (st : ScanState) (hcur : st.currentToken = []) :
    scanLoop (r :: rest) st =
      scanLoop rest { tokens := st.tokens ++ [[r]], currentToken := [] } := by
  rw [scanLoop_cons, scanStep_reserved _ st r hr]
  simp [hcur]

theorem scanLoop_words (ws : List Str) (hws : ∀ w ∈ ws, BareWord w) (z : Str)
    (hz : lastCharOfWord z.head? = true) :
    ∀ (toks : List Str),
      scanLoop (List.intercalate [' '] ws ++ z) { tokens := toks, currentToken := [] } =
        scanLoop z { tokens := toks ++ ws, currentToken := [] } := by
  induction ws with
  | nil => intro toks; simp [List.intercalate]
  | cons w rest ih =>
    intro toks
    have hw := hws w (by simp)
    have hw' : ∀ c ∈ w, isWhitespace c = false ∧ isReservedChar c = false :=
      fun c hc => ⟨hw.not_whitespace c hc, hw.not_reserved c hc⟩
    have hrest : ∀ x ∈ rest, BareWord x := fun x hx => hws x (by simp [hx])
    cases rest with
    | nil =>
      rw [intercalate_singleton, scanLoop_word w hw.ne_nil hw' z hz]
      simp
    | cons w2 rest2 =>
      rw [intercalate_cons_cons]
      simp only [List.append_assoc, List.singleton_append, List.cons_append]
      rw [scanLoop_word w hw.ne_nil hw' _ (by simp [lastCharOfWord]),
        scanLoop_space _ _ rfl]
      simp only [List.nil_append]
      rw [ih hrest]
      simp

/-! ### The string pass of `tokenizeLine` on a quoted run -/

/-- A quote outside a quoted run opens one. -/
theorem normStep_open (st : NormState) (t : Str) (hm : isStringMarker t = true)
    (h1 : st.currentStringMarker = none) (h2 : st.currentNSToken = []) :
    normStep st t =
      { normalizedStringTokens := st.normalizedStringTokens,
        currentStringMarker := some t, currentNSToken := [t] } := by
  simp [normStep, hm, h1, h2]

/-- Inside a quoted run, a token other than the opening quote is buffered. -/
theorem normStep_inside (st : NormState) (t mk : Str) (hne : t ≠ mk)
    (h1 : st.currentStringMarker = some mk) :
    normStep st t =
      { normalizedStringTokens := st.normalizedStringTokens,
        currentStringMarker := some mk, currentNSToken := st.currentNSToken ++ [t] } := by
  have hne' : ¬ (mk = t) := fun e => hne e.symm
  cases hm : isStringMarker t <;> simp [normStep, hm, h1, hne']

/-- Inside a quoted run, the opening quote closes the run. -/
theorem normStep_close (st : NormState) (mk : Str) (hm : isStringMarker mk = true)
    (h1 : st.currentStringMarker = some mk) :
    normStep st mk =
      { normalizedStringTokens :=
          st.normalizedStringTokens ++ [prepareString (st.currentNSToken ++ [mk])],
        currentStringMarker := none, currentNSToken := [] } := by
  simp [normStep, hm, h1]

theorem foldl_normStep_inside (mk : Str) :
    ∀ (tokens : List Str) (out ns : List Str), (∀ t ∈ tokens, t ≠ mk) →
      tokens.foldl normStep
        { normalizedStringTokens := out, currentStringMarker := some mk, currentNSToken := ns } =
        { normalizedStringTokens := out, currentStringMarker := some mk,
          currentNSToken := ns ++ tokens } := by
  intro tokens
  induction tokens with
  | nil => intro out ns _; simp
  | cons t rest ih =>
    intro out ns h
    simp only [List.foldl_cons]
    rw [normStep_inside _ t mk (h t (by simp)) rfl, ih _ _ (fun x hx => h x (by simp [hx]))]
    simp

/-! ### `prepareString` on a quoted run of words -/

theorem prepareLoop_cons (t : Str) (rest : List Str) (st : PrepareState) :
    prepareLoop (t :: rest) st = prepareLoop rest (prepareStep rest.head? st t) := rfl

/-- A token that is no quote is appended, with a space unless a quote follows. -/
theorem prepareStep_plain (next : Option Str) (st : PrepareState) (t : Str)
    (hm : isStringMarker t = false) :
    prepareStep next st t =
      { stringMarkersStack := st.stringMarkersStack,
        currentString := st.currentString ++ t ++
          (if nextIsStringMarker next then [] else [' ']) } := by
  simp [prepareStep, hm]

/-- A quote that is not on top of the stack is pushed and appended. -/
theorem prepareStep_push (next : Option Str) (st : PrepareState) (t : Str)
    (hm : isStringMarker t = true) (htop : st.stringMarkersStack.getLast? ≠ some t) :
    prepareStep next st t =
      { stringMarkersStack := st.stringMarkersStack ++ [t],
        currentString := st.currentString ++ t } := by
  simp [prepareStep, hm, htop]

/-- A quote that is on top of the stack is popped and appended, with a space when a token
that is no quote follows. -/
theorem prepareStep_pop (next : Option Str) (st : PrepareState) (t : Str)
    (hm : isStringMarker t = true) (htop : st.stringMarkersStack.getLast? = some t) :
    prepareStep next st t =
      { stringMarkersStack := st.stringMarkersStack.dropLast,
        currentString := st.currentString ++ t ++
          (if nextIsTruthy next && !nextIsStringMarker next then [' '] else []) } := by
  have hne : st.stringMarkersStack.isEmpty = false := by
    cases hs : st.stringMarkersStack with
    | nil => rw [hs] at htop; simp at htop
    | cons _ _ => rfl
  simp [prepareStep, hm, htop, hne]

/-- Words in front of a quote are joined by single spaces, with no space before the quote. -/
theorem prepareLoop_words (ws : List Str) (hws : ∀ w ∈ ws, BareWord w) (mk : Str)
    (hm : isStringMarker mk = true) (rest : List Str) :
    ∀ (stack : List Str) (cur : Str),
      prepareLoop (ws ++ mk :: rest) { stringMarkersStack := stack, currentString := cur } =
        prepareLoop (mk :: rest)
          { stringMarkersStack := stack,
            currentString := cur ++ List.intercalate [' '] ws } := by
  induction ws with
  | nil => intro stack cur; simp [List.intercalate]
  | cons w more ih =>
    intro stack cur
    have hw := hws w (by simp)
    have hmore : ∀ x ∈ more, BareWord x := fun x hx => hws x (by simp [hx])
    rw [List.cons_append, prepareLoop_cons, prepareStep_plain _ _ w hw.not_marker]
    cases more with
    | nil =>
      simp [nextIsStringMarker, hm, intercalate_singleton]
    | cons w2 more2 =>
      have hw2 := hws w2 (by simp)
      rw [ih hmore, intercalate_cons_cons]
      simp [nextIsStringMarker, hw2.not_marker]

/-- A quoted run of words is joined to the text between its quotes. -/
theorem prepareString_words (m : Char) (hm : m = dquote ∨ m = squote) (ws : List Str)
    (hws : ∀ w ∈ ws, BareWord w) :
    prepareString ([[m]] ++ ws ++ [[m]]) = [m] ++ List.intercalate [' '] ws ++ [m] := by
  have hmk : isStringMarker [m] = true := by
    rcases hm with rfl | rfl <;> decide
  unfold prepareString
  rw [List.append_assoc, List.singleton_append, prepareLoop_cons,
    prepareStep_push _ _ [m] hmk (by simp), prepareLoop_words ws hws [m] hmk [],
    prepareLoop_cons, prepareStep_pop _ _ [m] hmk (by simp)]
  simp [prepareLoop, nextIsTruthy]

/-! ### The whole pipeline on one normalised line -/

theorem mem_intercalate (sep : Str) (ws : List Str) (c : Char)
    (h : c ∈ List.intercalate sep ws) : c ∈ sep ∨ ∃ w ∈ ws, c ∈ w := by
  induction ws with
  | nil => simp [List.intercalate] at h
  | cons w rest ih =>
    cases rest with
    | nil =>
      rw [intercalate_singleton] at h
      exact Or.inr ⟨w, by simp, h⟩
    | cons w2 rest2 =>
      rw [intercalate_cons_cons] at h
      simp only [List.mem_append] at h
      rcases h with (h | h) | h
      · exact Or.inr ⟨w, by simp, h⟩
      · exact Or.inl h
      · rcases ih h with h | ⟨x, hx, hcx⟩
        · exact Or.inl h
        · exact Or.inr ⟨x, by simp [hx], hcx⟩

/-- A text of one line that normalisation leaves unchanged is tokenised as that line. -/
theorem tokenize_single_line (line : Str) (hnl : ∀ c ∈ line, c ≠ '\n')
    (hnorm : normalizeLine line = line) (hne : line ≠ []) :
    tokenize line = tokenizeLine line := by
  rw [tokenize_eq, splitLines, splitLinesAux_of_no_newline line hnl]
  cases line with
  | nil => exact absurd rfl hne
  | cons c cs => simp [hnorm]

/-- A token between two quotes is not numeric for `Number`. -/
theorem coerceArg_quoted (m : Char) (hm : m = dquote ∨ m = squote) (body : Str) :
    coerceArg ([m] ++ body ++ [m]) = ArgValue.str ([m] ++ body ++ [m]) := by
  show coerceArg (m :: (body ++ [m])) = ArgValue.str (m :: (body ++ [m]))
  have hws : isWhitespace m = false := by rcases hm with rfl | rfl <;> decide
  have ht : trim (m :: (body ++ [m])) = m :: (body ++ [m]) := by
    apply trim_eq_self
    · intro x hx
      simp only [List.head?_cons, Option.some.injEq] at hx
      subst hx
      exact hws
    · intro x hx
      rw [show m :: (body ++ [m]) = (m :: body) ++ [m] from rfl,
        List.getLast?_append_of_ne_nil _ (by simp)] at hx
      simp only [List.getLast?_singleton, Option.some.injEq] at hx
      subst hx
      exact hws
  have h0 : isNonDecimalIntegerLiteral (m :: (body ++ [m])) = false := by
    unfold isNonDecimalIntegerLiteral
    split
    · rename_i h
      simp only [List.cons.injEq] at h
      rcases hm with rfl | rfl <;> exact absurd h.1 (by decide)
    · rfl
  have h1 : dropSign (m :: (body ++ [m])) = m :: (body ++ [m]) :=
    dropSign_cons_of_ne m _ (by rcases hm with rfl | rfl <;> decide)
      (by rcases hm with rfl | rfl <;> decide)
  have h2 : isStrUnsignedDecimalLiteral (m :: (body ++ [m])) = false := by
    have hdig : isDecDigit m = false := by rcases hm with rfl | rfl <;> decide
    have hI : m ≠ 'I' := by rcases hm with rfl | rfl <;> decide
    have hdot : m ≠ '.' := by rcases hm with rfl | rfl <;> decide
    unfold isStrUnsignedDecimalLiteral
    simp only [List.takeWhile_cons, List.dropWhile_cons, hdig, Bool.false_eq_true, if_false]
    have hinf : (m :: (body ++ [m]) == "Infinity".toList) = false := by
      apply beq_false_of_ne
      intro h
      simp only [String.toList, List.cons.injEq] at h
      exact hI h.1
    rw [hinf]
    split
    · rename_i h
      simp only [List.cons.injEq] at h
      exact absurd h.1 hdot
    · simp
  unfold coerceArg numberIsNaN isStringNumericLiteral
  simp [ht, h0, h1, h2]

/-- The tokens of the line `d m w1 ... wn m;`. -/
theorem tokenizeLine_quoted_words (d : Str) (m : Char) (ws : List Str) (hd : BareWord d)
    (hm : m = dquote ∨ m = squote) (hws : ∀ w ∈ ws, BareWord w) :
    tokenizeLine (d ++ [' '] ++ [m] ++ List.intercalate [' '] ws ++ [m] ++ [';']) =
      [d, [m] ++ List.intercalate [' '] ws ++ [m], [';']] := by
  have hmk : isStringMarker [m] = true := by rcases hm with rfl | rfl <;> decide
  have hmr : isReservedChar m = true := by rcases hm with rfl | rfl <;> decide
  have hd' : ∀ c ∈ d, isWhitespace c = false ∧ isReservedChar c = false :=
    fun c hc => ⟨hd.not_whitespace c hc, hd.not_reserved c hc⟩
  have hscan : (scanLoop (d ++ [' '] ++ [m] ++ List.intercalate [' '] ws ++ [m] ++ [';'])
      { tokens := [], currentToken := [] }).tokens = [d, [m]] ++ ws ++ [[m], [';']] := by
    simp only [List.append_assoc, List.singleton_append, List.cons_append, List.nil_append]
    rw [scanLoop_word d hd.ne_nil hd' _ (by simp [lastCharOfWord]), scanLoop_space _ _ rfl,
      scanLoop_reserved m hmr _ _ rfl,
      scanLoop_words ws hws _ (by simp [lastCharOfWord, hmr]),
      scanLoop_reserved m hmr _ _ rfl, scanLoop_reserved ';' (by decide) _ _ rfl]
    simp [scanLoop]
  have hne : ∀ w ∈ ws, w ≠ [m] := by
    intro w hw e
    have := (hws w hw).not_marker
    rw [e, hmk] at this
    exact absurd this (by simp)
  have e1 : normStep
      { normalizedStringTokens := [], currentStringMarker := none, currentNSToken := [] } d =
      { normalizedStringTokens := [d], currentStringMarker := none, currentNSToken := [] } :=
    normStep_plain _ d hd.not_marker rfl rfl
  have e2 : normStep
      { normalizedStringTokens := [d], currentStringMarker := none, currentNSToken := [] } [m] =
      { normalizedStringTokens := [d], currentStringMarker := some [m],
        currentNSToken := [[m]] } :=
    normStep_open _ [m] hmk rfl rfl
  have e3 := foldl_normStep_inside [m] ws [d] [[m]] hne
  have e4 : normStep
      { normalizedStringTokens := [d], currentStringMarker := some [m],
        currentNSToken := [[m]] ++ ws } [m] =
      { normalizedStringTokens := [d] ++ [prepareString ([[m]] ++ ws ++ [[m]])],
        currentStringMarker := none, currentNSToken := [] } :=
    normStep_close _ [m] hmk rfl
  have e5 : normStep
      { normalizedStringTokens := [d] ++ [prepareString ([[m]] ++ ws ++ [[m]])],
        currentStringMarker := none, currentNSToken := [] } [';'] =
      { normalizedStringTokens := [d] ++ [prepareString ([[m]] ++ ws ++ [[m]])] ++ [[';']],
        currentStringMarker := none, currentNSToken := [] } :=
    normStep_plain _ [';'] (by decide) rfl rfl
  unfold tokenizeLine
  simp only [hscan, List.foldl_append, List.foldl_cons, List.foldl_nil]
  rw [e1, e2, e3, e4, e5, prepareString_words m hm ws hws]
  rfl

/-- Normalisation leaves the line `d m w1 ... wn m;` unchanged. -/
theorem normalizeLine_quoted_words (d : Str) (m : Char) (ws : List Str) (hd : BareWord d)
    (hm : m = dquote ∨ m = squote) (hws : ∀ w ∈ ws, BareWord w) :
    normalizeLine (d ++ [' '] ++ [m] ++ List.intercalate [' '] ws ++ [m] ++ [';']) =
      d ++ [' '] ++ [m] ++ List.intercalate [' '] ws ++ [m] ++ [';'] := by
  have hmw : isWhitespace m = false := by rcases hm with rfl | rfl <;> decide
  have hmh : m ≠ '#' := by rcases hm with rfl | rfl <;> decide
  have hinner : ∀ c ∈ List.intercalate [' '] ws, c ≠ '#' := by
    intro c hc
    rcases mem_intercalate [' '] ws c hc with hc | ⟨w, hw, hcw⟩
    · simp only [List.mem_singleton] at hc
      subst hc
      decide
    · exact ((hws w hw).2 c hcw).2.2
  have hstrip : stripComment (d ++ [' '] ++ [m] ++ List.intercalate [' '] ws ++ [m] ++ [';']) =
      d ++ [' '] ++ [m] ++ List.intercalate [' '] ws ++ [m] ++ [';'] := by
    unfold stripComment
    apply takeWhile_eq_self_of_all
    intro c hc
    simp only [List.mem_append, List.mem_singleton] at hc
    simp only [bne_iff_ne, ne_eq]
    rcases hc with ((((hc | rfl) | rfl) | hc) | rfl) | rfl
    · exact (hd.2 c hc).2.2
    · decide
    · exact hmh
    · exact hinner c hc
    · exact hmh
    · decide
  have hcollapse : collapseSpaces
      (d ++ [' '] ++ [m] ++ List.intercalate [' '] ws ++ [m] ++ [';']) =
      d ++ [' '] ++ [m] ++ List.intercalate [' '] ws ++ [m] ++ [';'] := by
    unfold collapseSpaces
    simp only [List.append_assoc, List.singleton_append, List.cons_append, List.nil_append]
    rw [collapseAux_false_append d _ hd.not_whitespace, collapseAux_false_single ' ' m _ hmw,
      collapseAux_false_cons m _ hmw, collapseAux_false_words ws hws,
      collapseAux_false_cons m _ hmw, collapseAux_false_cons ';' _ (by decide)]
    rfl
  unfold normalizeLine
  rw [hstrip, hcollapse]
  apply trim_eq_self
  · intro c hc
    obtain ⟨x, tl, hx, hxw, _⟩ := hd.head_append
      ([' '] ++ [m] ++ List.intercalate [' '] ws ++ [m] ++ [';'])
    simp only [List.append_assoc] at hc hx
    rw [hx] at hc
    simp only [List.head?_cons, Option.some.injEq] at hc
    subst hc
    exact hxw
  · intro c hc
    rw [List.getLast?_append_of_ne_nil _ (by simp)] at hc
    simp only [List.getLast?_singleton, Option.some.injEq] at hc
    subst hc
    decide

/-! ## Lemmas: the loop invariant of `buildSyntaxTree` -/

/-- A condition on all starts of a list extended by one token. -/
theorem forall_take_concat (bs : List Str) (x : Str) (P : List Str → Prop)
    (h : ∀ n, n ≤ bs.length → P (bs.take n)) (hx : P (bs ++ [x])) :
    ∀ n, n ≤ (bs ++ [x]).length → P ((bs ++ [x]).take n) := by
  intro n hn
  by_cases hle : n ≤ bs.length
  · rw [List.take_append_of_le_length hle]
    exact h n hle
  · have : n = (bs ++ [x]).length := by
      simp only [List.length_append, List.length_singleton] at hn ⊢
      omega
    rw [this, List.take_length]
    exact hx

theorem buildInvariant_init : BuildInvariant BuildState.init := by
  simp [BuildInvariant, BuildState.init]

/-- The loop body keeps the invariant, whatever the recursive call returns. -/
theorem buildStep_invariant (f : List Str → List ConfigEntry) (st : BuildState) (token : Str)
    (h : BuildInvariant st) : BuildInvariant (buildStep f st token) := by
  obtain ⟨hcap, hfree⟩ := h
  unfold buildStep
  cases hcur : st.currentStatement with
  | none =>
    cases hc : st.captureStack with
    | true => have := (hcap hc).1; rw [hcur] at this; simp at this
    | false =>
      have := hfree hc
      simp [BuildInvariant, hc, this.1, this.2]
  | some cur =>
    cases hc : st.captureStack with
    | false =>
      have hf := hfree hc
      simp only [Bool.false_eq_true, if_false]
      split_ifs with h1 h2
      · simp [BuildInvariant, hf.1, hf.2]
      · simp [BuildInvariant, hc, hf.1, hf.2]
      · simp [BuildInvariant, hc, hf.1, hf.2]
    | true =>
      obtain ⟨_, hq, hcount, hpre⟩ := hcap hc
      have hwhole : st.blockStack.count ['}'] ≤ st.blockStack.count ['{'] := by
        have := hpre st.blockStack.length (le_refl _)
        rwa [List.take_length] at this
      simp only [if_true]
      split_ifs with h1 h2 h3
      · subst h1
        refine ⟨fun _ => ⟨by simp, by simp; omega, ?_, ?_⟩, fun hfalse => by simp [hc] at hfalse⟩
        · simp [List.count_append]
          omega
        · apply forall_take_concat st.blockStack ['{']
            (fun l => l.count ['}'] ≤ l.count ['{']) hpre
          simp [List.count_append]
          omega
      · simp [BuildInvariant, h3]
      · subst h2
        refine ⟨fun _ => ⟨by simp, by simp; omega, ?_, ?_⟩, fun hfalse => by simp [hc] at hfalse⟩
        · simp [List.count_append]
          omega
        · apply forall_take_concat st.blockStack ['}']
            (fun l => l.count ['}'] ≤ l.count ['{']) hpre
          simp [List.count_append]
          omega
      · have e1 : ¬ (['{'] = token) := fun e => h1 e.symm
        have e2 : ¬ (['}'] = token) := fun e => h2 e.symm
        refine ⟨fun _ => ⟨by simp, by simpa using hq, ?_, ?_⟩, fun hfalse => by simp [hc] at hfalse⟩
        · simp [List.count_append, List.count_cons, e1, e2]
          omega
        · apply forall_take_concat st.blockStack token
            (fun l => l.count ['}'] ≤ l.count ['{']) hpre
          simp [List.count_append, List.count_cons, e1, e2]
          exact hwhole

theorem foldl_buildStep_invariant (f : List Str → List ConfigEntry) :
    ∀ (tokens : List Str) (st : BuildState), BuildInvariant st →
      BuildInvariant (tokens.foldl (buildStep f) st) := by
  intro tokens
  induction tokens with
  | nil => intro st h; exact h
  | cons t rest ih => intro st h; exact ih _ (buildStep_invariant f st t h)

theorem buildStateAfter_invariant (tokens : List Str) (n : Nat) :
    BuildInvariant (buildStateAfter tokens n) :=
  foldl_buildStep_invariant buildSyntaxTree _ _ buildInvariant_init

/-! ## Lemmas: the size of the buffer of `buildSyntaxTree` -/

theorem buildStep_bufferBound (f : List Str → List ConfigEntry) (st : BuildState) (token : Str)
    (k : Nat) (h : BufferBound st k) : BufferBound (buildStep f st token) (k + 1) := by
  obtain ⟨hcap, hfree⟩ := h
  unfold buildStep
  cases hcur : st.currentStatement with
  | none =>
    cases hc : st.captureStack with
    | true =>
      have := hcap hc
      simp only [BufferBound, hc, true_implies, Bool.true_eq_false, false_implies, and_true]
      omega
    | false =>
      have := hfree hc
      simp [BufferBound, hc, this.1]
  | some cur =>
    cases hc : st.captureStack with
    | false =>
      have hf := hfree hc
      have hk : 1 ≤ k := hf.2 (by simp [hcur])
      simp only [Bool.false_eq_true, if_false]
      split_ifs with h1 h2
      · simp [BufferBound, hf.1]
        omega
      · simp [BufferBound, hc, hf.1]
      · simp [BufferBound, hc, hf.1]
    | true =>
      have hb := hcap hc
      simp only [if_true]
      split_ifs with h1 h2 h3
      · simp [BufferBound, hc]
        omega
      · simp [BufferBound]
      · simp [BufferBound, hc]
        omega
      · simp [BufferBound, hc]
        omega

theorem foldl_buildStep_bufferBound (f : List Str → List ConfigEntry) :
    ∀ (tokens : List Str) (st : BuildState) (k : Nat), BufferBound st k →
      BufferBound (tokens.foldl (buildStep f) st) (k + tokens.length) := by
  intro tokens
  induction tokens with
  | nil => intro st k h; exact h
  | cons t rest ih =>
    intro st k h
    have := ih _ _ (buildStep_bufferBound f st t k h)
    simp only [List.foldl_cons, List.length_cons]
    rwa [Nat.add_assoc, Nat.add_comm 1] at this

/-- While a block is captured after `n` tokens, the buffer is shorter than `n` by two at
least. -/
theorem buildStateAfter_bufferBound (tokens : List Str) (n : Nat)
    (hcap : (buildStateAfter tokens n).captureStack = true) :
    (buildStateAfter tokens n).blockStack.length + 2 ≤ n := by
  have h := foldl_buildStep_bufferBound buildSyntaxTree (tokens.take n) BuildState.init 0
    (by simp [BufferBound, BuildState.init])
  have h1 : (buildStateAfter tokens n).blockStack.length + 2 ≤ 0 + (tokens.take n).length :=
    h.1 hcap
  have h2 : (tokens.take n).length ≤ n := by simp
  omega

/-! ## Lemmas: token lists without an opening brace -/

theorem buildStep_noBlock (f : List Str → List ConfigEntry) (st : BuildState) (token : Str)
    (ht : token ≠ ['{']) (h : NoBlockState st) : NoBlockState (buildStep f st token) := by
  obtain ⟨hc, htree, hcur⟩ := h
  unfold buildStep
  cases hst : st.currentStatement with
  | none =>
    refine ⟨hc, htree, ?_⟩
    intro cur hcur'
    simp only [Option.some.injEq] at hcur'
    rw [← hcur']
  | some cur =>
    have hb := hcur cur hst
    simp only [hc, Bool.false_eq_true, if_false, if_neg ht]
    split_ifs with h2
    · refine ⟨rfl, ?_, by simp⟩
      intro e he
      simp only [List.mem_append, List.mem_singleton] at he
      rcases he with he | rfl
      · exact htree e he
      · exact hb
    · refine ⟨rfl, htree, ?_⟩
      intro cur' hcur'
      simp only [Option.some.injEq] at hcur'
      rw [← hcur']
      exact hb

theorem foldl_buildStep_noBlock (f : List Str → List ConfigEntry) :
    ∀ (tokens : List Str) (st : BuildState), (∀ t ∈ tokens, t ≠ ['{']) → NoBlockState st →
      NoBlockState (tokens.foldl (buildStep f) st) := by
  intro tokens
  induction tokens with
  | nil => intro st _ h; exact h
  | cons t rest ih =>
    intro st ht h
    exact ih _ (fun x hx => ht x (by simp [hx])) (buildStep_noBlock f st t (ht t (by simp)) h)

/-- Without a `{` among the tokens, every entry of the result has an empty block. -/
theorem buildSyntaxTree_block_eq_nil (tokens : List Str) (ht : ∀ t ∈ tokens, t ≠ ['{']) :
    ∀ e ∈ buildSyntaxTree tokens, e.block = [] := by
  rw [buildSyntaxTree_unfold]
  exact (foldl_buildStep_noBlock buildSyntaxTree tokens BuildState.init ht
    ⟨rfl, by simp [BuildState.init], by simp [BuildState.init]⟩).2.1

/-! ## Lemmas: `prepareString` on tokens that are no quotes -/

/-- Tokens that are no quotes, in front of a quote, are joined by single spaces, with no
space before the quote. -/
theorem prepareLoop_tokens (ws : List Str) (hws : ∀ w ∈ ws, isStringMarker w = false)
    (mk : Str) (hm : isStringMarker mk = true) (rest : List Str) :
    ∀ (stack : List Str) (cur : Str),
      prepareLoop (ws ++ mk :: rest) { stringMarkersStack := stack, currentString := cur } =
        prepareLoop (mk :: rest)
          { stringMarkersStack := stack,
            currentString := cur ++ List.intercalate [' '] ws } := by
  induction ws with
  | nil => intro stack cur; simp [List.intercalate]
  | cons w more ih =>
    intro stack cur
    have hw := hws w (by simp)
    have hmore : ∀ x ∈ more, isStringMarker x = false := fun x hx => hws x (by simp [hx])
    rw [List.cons_append, prepareLoop_cons, prepareStep_plain _ _ w hw]
    cases more with
    | nil =>
      simp [nextIsStringMarker, hm, intercalate_singleton]
    | cons w2 more2 =>
      have hw2 := hws w2 (by simp)
      rw [ih hmore, intercalate_cons_cons]
      simp [nextIsStringMarker, hw2]

/-- The quote-join of a run with one nested quoted segment. -/
theorem prepareString_nested (m n : Char) (hm : m = dquote ∨ m = squote)
    (hn : n = dquote ∨ n = squote) (hmn : m ≠ n) (u v w : List Str)
    (hu : ∀ t ∈ u, isStringMarker t = false) (hv : ∀ t ∈ v, isStringMarker t = false)
    (hw : ∀ t ∈ w, isStringMarker t = false) (hw0 : w ≠ []) (hwne : ∀ t ∈ w, t ≠ []) :
    prepareString ([[m]] ++ u ++ [[n]] ++ v ++ [[n]] ++ w ++ [[m]]) =
      [m] ++ List.intercalate [' '] u ++ [n] ++ List.intercalate [' '] v ++ [n] ++ [' '] ++
        List.intercalate [' '] w ++ [m] := by
  have hmk : isStringMarker [m] = true := by rcases hm with rfl | rfl <;> decide
  have hnk : isStringMarker [n] = true := by rcases hn with rfl | rfl <;> decide
  have hmn' : ([m] : Str) ≠ [n] := by simpa using hmn
  obtain ⟨w1, wr, rfl⟩ := List.exists_cons_of_ne_nil hw0
  have hw1 : isStringMarker w1 = false := hw w1 (by simp)
  have hw1ne : w1 ≠ [] := hwne w1 (by simp)
  have hnext : (nextIsTruthy (some w1) && !nextIsStringMarker (some w1)) = true := by
    cases w1 with
    | nil => exact absurd rfl hw1ne
    | cons c cs => simp [nextIsTruthy, nextIsStringMarker, hw1]
  unfold prepareString
  simp only [List.append_assoc, List.singleton_append, List.cons_append, List.nil_append]
  rw [prepareLoop_cons, prepareStep_push _ _ [m] hmk (by simp),
    prepareLoop_tokens u hu [n] hnk, prepareLoop_cons,
    prepareStep_push _ _ [n] hnk (by simpa using hmn'),
    prepareLoop_tokens v hv [n] hnk, prepareLoop_cons,
    prepareStep_pop _ _ [n] hnk (by simp)]
  have hh : (w1 :: (wr ++ [[m]])).head? = some w1 := rfl
  rw [hh, hnext]
  have := prepareLoop_tokens (w1 :: wr) hw [m] hmk []
  simp only [List.cons_append] at this
  rw [this, prepareLoop_cons, prepareStep_pop _ _ [m] hmk (by simp)]
  simp [prepareLoop, nextIsTruthy]

/-! ## Lemmas: a reserved character inside a quoted string -/

/-- The tokens of the line `d m a r b m;` with a reserved character `r` between the words
`a` and `b` of a quoted string. -/
theorem tokenizeLine_quoted_reserved (d a b : Str) (m r : Char) (hd : BareWord d)
    (ha : BareWord a) (hb : BareWord b) (hm : m = dquote ∨ m = squote)
    (hr : r = ';' ∨ r = '{' ∨ r = '}') :
    tokenizeLine (d ++ [' '] ++ [m] ++ a ++ [r] ++ b ++ [m] ++ [';']) =
      [d, [m] ++ a ++ [' '] ++ [r] ++ [' '] ++ b ++ [m], [';']] := by
  have hmk : isStringMarker [m] = true := by rcases hm with rfl | rfl <;> decide
  have hmr : isReservedChar m = true := by rcases hm with rfl | rfl <;> decide
  have hrr : isReservedChar r = true := by rcases hr with rfl | rfl | rfl <;> decide
  have hrk : isStringMarker [r] = false := by rcases hr with rfl | rfl | rfl <;> decide
  have hplain : ∀ w : Str, BareWord w →
      ∀ c ∈ w, isWhitespace c = false ∧ isReservedChar c = false :=
    fun w hw c hc => ⟨hw.not_whitespace c hc, hw.not_reserved c hc⟩
  have hscan : (scanLoop (d ++ [' '] ++ [m] ++ a ++ [r] ++ b ++ [m] ++ [';'])
      { tokens := [], currentToken := [] }).tokens = [d, [m], a, [r], b, [m], [';']] := by
    simp only [List.append_assoc, List.singleton_append, List.cons_append, List.nil_append]
    rw [scanLoop_word d hd.ne_nil (hplain d hd) _ (by simp [lastCharOfWord]),
      scanLoop_space _ _ rfl, scanLoop_reserved m hmr _ _ rfl,
      scanLoop_word a ha.ne_nil (hplain a ha) _ (by simp [lastCharOfWord, hrr]),
      scanLoop_reserved r hrr _ _ rfl,
      scanLoop_word b hb.ne_nil (hplain b hb) _ (by simp [lastCharOfWord, hmr]),
      scanLoop_reserved m hmr _ _ rfl, scanLoop_reserved ';' (by decide) _ _ rfl]
    simp [scanLoop]
  have hinner : ∀ t ∈ [a, [r], b], isStringMarker t = false := by
    intro t ht
    simp only [List.mem_cons, List.mem_singleton, List.not_mem_nil, or_false] at ht
    rcases ht with rfl | rfl | rfl
    · exact ha.not_marker
    · exact hrk
    · exact hb.not_marker
  have hne : ∀ t ∈ [a, [r], b], t ≠ [m] := by
    intro t ht e
    have := hinner t ht
    rw [e, hmk] at this
    exact absurd this (by simp)
  have e1 : normStep
      { normalizedStringTokens := [], currentStringMarker := none, currentNSToken := [] } d =
      { normalizedStringTokens := [d], currentStringMarker := none, currentNSToken := [] } :=
    normStep_plain _ d hd.not_marker rfl rfl
  have e2 : normStep
      { normalizedStringTokens := [d], currentStringMarker := none, currentNSToken := [] } [m] =
      { normalizedStringTokens := [d], currentStringMarker := some [m],
        currentNSToken := [[m]] } :=
    normStep_open _ [m] hmk rfl rfl
  have e3 : normStep (normStep (normStep
      { normalizedStringTokens := [d], currentStringMarker := some [m],
        currentNSToken := [[m]] } a) [r]) b =
      { normalizedStringTokens := [d], currentStringMarker := some [m],
        currentNSToken := [[m]] ++ [a, [r], b] } :=
    foldl_normStep_inside [m] [a, [r], b] [d] [[m]] hne
  have e4 : normStep
      { normalizedStringTokens := [d], currentStringMarker := some [m],
        currentNSToken := [[m]] ++ [a, [r], b] } [m] =
      { normalizedStringTokens := [d] ++ [prepareString ([[m]] ++ [a, [r], b] ++ [[m]])],
        currentStringMarker := none, currentNSToken := [] } :=
    normStep_close _ [m] hmk rfl
  have e5 : normStep
      { normalizedStringTokens := [d] ++ [prepareString ([[m]] ++ [a, [r], b] ++ [[m]])],
        currentStringMarker := none, currentNSToken := [] } [';'] =
      { normalizedStringTokens :=
          [d] ++ [prepareString ([[m]] ++ [a, [r], b] ++ [[m]])] ++ [[';']],
        currentStringMarker := none, currentNSToken := [] } :=
    normStep_plain _ [';'] (by decide) rfl rfl
  have hprep : prepareString ([[m]] ++ [a, [r], b] ++ [[m]]) =
      [m] ++ a ++ [' '] ++ [r] ++ [' '] ++ b ++ [m] := by
    unfold prepareString
    rw [List.append_assoc, List.singleton_append, prepareLoop_cons,
      prepareStep_push _ _ [m] hmk (by simp), prepareLoop_tokens [a, [r], b] hinner [m] hmk [],
      prepareLoop_cons, prepareStep_pop _ _ [m] hmk (by simp)]
    simp [prepareLoop, nextIsTruthy, List.intercalate]
  unfold tokenizeLine
  simp only [hscan]
  simp only [List.foldl_cons, List.foldl_nil]
  rw [e1, e2, e3, e4, e5, hprep]
  rfl

/-- Normalisation leaves the line `d m a r b m;` unchanged. -/
theorem normalizeLine_quoted_reserved (d a b : Str) (m r : Char) (hd : BareWord d)
    (ha : BareWord a) (hb : BareWord b) (hm : m = dquote ∨ m = squote)
    (hr : r = ';' ∨ r = '{' ∨ r = '}') :
    normalizeLine (d ++ [' '] ++ [m] ++ a ++ [r] ++ b ++ [m] ++ [';']) =
      d ++ [' '] ++ [m] ++ a ++ [r] ++ b ++ [m] ++ [';'] := by
  have hmw : isWhitespace m = false := by rcases hm with rfl | rfl <;> decide
  have hmh : m ≠ '#' := by rcases hm with rfl | rfl <;> decide
  have hrw : isWhitespace r = false := by rcases hr with rfl | rfl | rfl <;> decide
  have hrh : r ≠ '#' := by rcases hr with rfl | rfl | rfl <;> decide
  have hstrip : stripComment (d ++ [' '] ++ [m] ++ a ++ [r] ++ b ++ [m] ++ [';']) =
      d ++ [' '] ++ [m] ++ a ++ [r] ++ b ++ [m] ++ [';'] := by
    unfold stripComment
    apply takeWhile_eq_self_of_all
    intro c hc
    simp only [List.mem_append, List.mem_singleton] at hc
    simp only [bne_iff_ne, ne_eq]
    rcases hc with ((((((hc | rfl) | rfl) | hc) | rfl) | hc) | rfl) | rfl
    · exact (hd.2 c hc).2.2
    · decide
    · exact hmh
    · exact (ha.2 c hc).2.2
    · exact hrh
    · exact (hb.2 c hc).2.2
    · exact hmh
    · decide
  have hcollapse : collapseSpaces (d ++ [' '] ++ [m] ++ a ++ [r] ++ b ++ [m] ++ [';']) =
      d ++ [' '] ++ [m] ++ a ++ [r] ++ b ++ [m] ++ [';'] := by
    unfold collapseSpaces
    simp only [List.append_assoc, List.singleton_append, List.cons_append, List.nil_append]
    rw [collapseAux_false_append d _ hd.not_whitespace, collapseAux_false_single ' ' m _ hmw,
      collapseAux_false_cons m _ hmw, collapseAux_false_append a _ ha.not_whitespace,
      collapseAux_false_cons r _ hrw, collapseAux_false_append b _ hb.not_whitespace,
      collapseAux_false_cons m _ hmw, collapseAux_false_cons ';' _ (by decide)]
    rfl
  unfold normalizeLine
  rw [hstrip, hcollapse]
  apply trim_eq_self
  · intro c hc
    obtain ⟨x, tl, hx, hxw, _⟩ := hd.head_append ([' '] ++ [m] ++ a ++ [r] ++ b ++ [m] ++ [';'])
    simp only [List.append_assoc] at hc hx
    rw [hx] at hc
    simp only [List.head?_cons, Option.some.injEq] at hc
    subst hc
    exact hxw
  · intro c hc
    rw [List.getLast?_append_of_ne_nil _ (by simp)] at hc
    simp only [List.getLast?_singleton, Option.some.injEq] at hc
    subst hc
    decide

/-! ## Lemmas: the line `a {}; b;` -/

/-- The tokens of the text `a {}; b;`. -/
theorem tokenize_block_semicolon (a b : Str) (ha : BareWord a) (hb : BareWord b) :
    tokenize (a ++ [' ', '{', '}', ';', ' '] ++ b ++ [';']) =
      [a, ['{'], ['}'], [';'], b, [';']] := by
  have hplain : ∀ w : Str, BareWord w →
      ∀ c ∈ w, isWhitespace c = false ∧ isReservedChar c = false :=
    fun w hw c hc => ⟨hw.not_whitespace c hc, hw.not_reserved c hc⟩
  have hmem : ∀ c ∈ a ++ [' ', '{', '}', ';', ' '] ++ b ++ [';'],
      (c ∈ a ∨ c ∈ b) ∨ c = ' ' ∨ c = '{' ∨ c = '}' ∨ c = ';' := by
    intro c hc
    simp only [List.mem_append, List.mem_cons, List.mem_singleton, List.not_mem_nil,
      or_false] at hc
    tauto
  have hprop : ∀ c ∈ a ++ [' ', '{', '}', ';', ' '] ++ b ++ [';'],
      c ≠ '\n' ∧ c ≠ '#' ∧ c ≠ dquote ∧ c ≠ squote := by
    intro c hc
    have hword : ∀ w : Str, BareWord w → c ∈ w →
        c ≠ '\n' ∧ c ≠ '#' ∧ c ≠ dquote ∧ c ≠ squote := by
      intro w hw hcw
      obtain ⟨h1, h2, h3⟩ := hw.2 c hcw
      refine ⟨?_, h3, ?_, ?_⟩ <;> (rintro rfl; revert h1 h2; decide)
    rcases hmem c hc with (h | h) | rfl | rfl | rfl | rfl
    · exact hword a ha h
    · exact hword b hb h
    all_goals decide
  have hnorm : normalizeLine (a ++ [' ', '{', '}', ';', ' '] ++ b ++ [';']) =
      a ++ [' ', '{', '}', ';', ' '] ++ b ++ [';'] := by
    have hstrip : stripComment (a ++ [' ', '{', '}', ';', ' '] ++ b ++ [';']) =
        a ++ [' ', '{', '}', ';', ' '] ++ b ++ [';'] := by
      unfold stripComment
      apply takeWhile_eq_self_of_all
      intro c hc
      simpa using (hprop c hc).2.1
    have hcollapse : collapseSpaces (a ++ [' ', '{', '}', ';', ' '] ++ b ++ [';']) =
        a ++ [' ', '{', '}', ';', ' '] ++ b ++ [';'] := by
      obtain ⟨x, tl, hx, hxw, _⟩ := hb.head_append [';']
      unfold collapseSpaces
      simp only [List.append_assoc, List.cons_append, List.nil_append]
      rw [collapseAux_false_append a _ ha.not_whitespace,
        collapseAux_false_single ' ' '{' _ (by decide),
        collapseAux_false_cons '{' _ (by decide), collapseAux_false_cons '}' _ (by decide),
        collapseAux_false_cons ';' _ (by decide), hx,
        collapseAux_false_single ' ' x _ hxw, ← hx,
        collapseAux_false_append b _ hb.not_whitespace,
        collapseAux_false_cons ';' _ (by decide)]
      rfl
    unfold normalizeLine
    rw [hstrip, hcollapse]
    apply trim_eq_self
    · intro c hc
      obtain ⟨x, tl, hx, hxw, _⟩ := ha.head_append ([' ', '{', '}', ';', ' '] ++ b ++ [';'])
      simp only [List.append_assoc] at hc hx
      rw [hx] at hc
      simp only [List.head?_cons, Option.some.injEq] at hc
      subst hc
      exact hxw
    · intro c hc
      rw [List.getLast?_append_of_ne_nil _ (by simp)] at hc
      simp only [List.getLast?_singleton, Option.some.injEq] at hc
      subst hc
      decide
  rw [tokenize_single_line _ (fun c hc => (hprop c hc).1) hnorm (by simp),
    tokenizeLine_of_no_quote _ (fun c hc => ⟨(hprop c hc).2.2.1, (hprop c hc).2.2.2⟩)]
  simp only [List.append_assoc, List.cons_append, List.nil_append]
  rw [scanLoop_word a ha.ne_nil (hplain a ha) _ (by simp [lastCharOfWord]),
    scanLoop_space _ _ rfl, scanLoop_reserved '{' (by decide) _ _ rfl,
    scanLoop_reserved '}' (by decide) _ _ rfl, scanLoop_reserved ';' (by decide) _ _ rfl,
    scanLoop_space _ _ rfl,
    scanLoop_word b hb.ne_nil (hplain b hb) _ (by simp [lastCharOfWord, isReservedChar]),
    scanLoop_reserved ';' (by decide) _ _ rfl]
  simp [scanLoop]

/-- The entries of the tokens `a { } ; b ;`, for a token `b` that is neither `{` nor `;`. -/
theorem buildSyntaxTree_block_semicolon (a b : Str) (hbrace : b ≠ ['{'])
    (hsemi : b ≠ [';']) :
    buildSyntaxTree [a, ['{'], ['}'], [';'], b, [';']] =
      [ConfigEntry.mk a [] [], ConfigEntry.mk [';'] [coerceArg b] []] := by
  have h1 := buildSyntaxTree_block a [] [] [[';'], b, [';']] (by simp) (by simp) rfl
  have h2 := buildSyntaxTree_semicolon [';'] [b] []
    (by intro x hx; rw [List.mem_singleton] at hx; subst hx; exact ⟨hbrace, hsemi⟩)
  simp only [List.singleton_append, List.cons_append, List.nil_append, List.map_nil,
    List.append_nil, List.map_cons] at h1 h2
  rw [h1, h2]
  rfl

theorem BareWord.ne_reserved {w : Str} (h : BareWord w) (r : Char)
    (hr : isReservedChar r = true) : w ≠ [r] := by
  rintro rfl
  have := h.not_reserved r (by simp)
  rw [hr] at this
  exact absurd this (by simp)

/-! ## Lemmas: the character scan on a text cut at a reserved character -/

/-- The step of the scan uses the next character only through `lastCharOfWord`. -/
theorem scanStep_congr_next (n1 n2 : Option Char) (st : ScanState) (c : Char)
    (h : lastCharOfWord n1 = lastCharOfWord n2) : scanStep n1 st c = scanStep n2 st c := by
  unfold scanStep
  rw [h]

/-- In front of a character that ends a word, a text is scanned as if the line ended
there. -/
theorem scanLoop_append (rest : Str) (hrest : lastCharOfWord rest.head? = true) :
    ∀ (a : Str) (st : ScanState), scanLoop (a ++ rest) st = scanLoop rest (scanLoop a st) := by
  intro a
  induction a with
  | nil => intro st; rfl
  | cons c cs ih =>
    intro st
    have hnext : lastCharOfWord (cs ++ rest).head? = lastCharOfWord cs.head? := by
      cases cs with
      | nil => simpa [lastCharOfWord] using hrest
      | cons c2 cs2 => rfl
    rw [List.cons_append, scanLoop_cons, scanLoop_cons, ih,
      scanStep_congr_next _ _ st c hnext]

/-- Tokens already found stay in front of the tokens of the rest of the scan. -/
theorem scanStep_tokens_append (next : Option Char) (pre toks : List Str) (cur : Str)
    (c : Char) :
    scanStep next { tokens := pre ++ toks, currentToken := cur } c =
      { tokens := pre ++ (scanStep next { tokens := toks, currentToken := cur } c).tokens,
        currentToken := (scanStep next { tokens := toks, currentToken := cur } c).currentToken } := by
  unfold scanStep
  simp only []
  split_ifs <;> simp

theorem scanLoop_tokens_append (pre : List Str) :
    ∀ (cs : Str) (toks : List Str) (cur : Str),
      scanLoop cs { tokens := pre ++ toks, currentToken := cur } =
        { tokens := pre ++ (scanLoop cs { tokens := toks, currentToken := cur }).tokens,
          currentToken := (scanLoop cs { tokens := toks, currentToken := cur }).currentToken } := by
  intro cs
  induction cs with
  | nil => intro toks cur; rfl
  | cons c rest ih =>
    intro toks cur
    rw [scanLoop_cons, scanLoop_cons, scanStep_tokens_append, ih]

/-- The characters of the tokens of a scan are characters of the line. -/
theorem mem_of_mem_scanLoop_tokens (line : Str) (t : Str)
    (ht : t ∈ (scanLoop line { tokens := [], currentToken := [] }).tokens) :
    ∀ c ∈ t, c ∈ line := by
  intro c hc
  have : c ∈ (scanLoop line { tokens := [], currentToken := [] }).tokens.flatten :=
    List.mem_flatten.mpr ⟨t, ht, hc⟩
  rw [scanLoop_init_flatten] at this
  exact (List.mem_filter.mp this).1

/-- A line without the quote character `m` has no token `m`. -/
theorem scanLoop_tokens_ne_marker (line : Str) (m : Char) (hm : ∀ c ∈ line, c ≠ m) :
    ∀ t ∈ (scanLoop line { tokens := [], currentToken := [] }).tokens, t ≠ [m] := by
  rintro t ht rfl
  exact hm m (mem_of_mem_scanLoop_tokens line [m] ht m (by simp)) rfl

/-- The tokens of the scan of `p m r`, for a reserved character `m`: the tokens of `p`, the
token `m`, the tokens of `r`. -/
theorem scanLoop_cut (p r : Str) (m : Char) (hm : isReservedChar m = true) :
    (scanLoop (p ++ m :: r) { tokens := [], currentToken := [] }).tokens =
      (scanLoop p { tokens := [], currentToken := [] }).tokens ++ [[m]] ++
        (scanLoop r { tokens := [], currentToken := [] }).tokens ∧
    (scanLoop (p ++ m :: r) { tokens := [], currentToken := [] }).currentToken = [] := by
  have hp := (scanLoop_flatten p { tokens := [], currentToken := [] } (fun _ => rfl)).1
  have hall := (scanLoop_flatten (p ++ m :: r) { tokens := [], currentToken := [] }
    (fun _ => rfl)).1
  refine ⟨?_, hall⟩
  rw [scanLoop_append (m :: r) (by simp [lastCharOfWord, hm]) p,
    scanLoop_reserved m hm r _ hp]
  have h := scanLoop_tokens_append
    ((scanLoop p { tokens := [], currentToken := [] }).tokens ++ [[m]]) r [] []
  simp only [List.append_nil] at h
  rw [h]

/-! ## Lemmas: the shape of a joined quoted run -/

/-- Every step of `prepareString` appends the token and at most one space. -/
theorem prepareStep_currentString (next : Option Str) (st : PrepareState) (t : Str) :
    ∃ sp : Str, (sp = [] ∨ sp = [' ']) ∧
      (prepareStep next st t).currentString = st.currentString ++ t ++ sp := by
  unfold prepareStep
  split_ifs
  · exact ⟨[' '], Or.inr rfl, rfl⟩
  · exact ⟨[], Or.inl rfl, rfl⟩
  · exact ⟨[], Or.inl rfl, rfl⟩
  · exact ⟨[], Or.inl rfl, rfl⟩
  · exact ⟨[' '], Or.inr rfl, rfl⟩

/-- A quote that is the last token is appended without a space. -/
theorem prepareStep_none_marker (st : PrepareState) (t : Str) (hm : isStringMarker t = true) :
    (prepareStep none st t).currentString = st.currentString ++ t := by
  unfold prepareStep
  simp only [hm, nextIsTruthy, if_true, Bool.false_and, Bool.false_eq_true, if_false,
    List.append_nil]
  split_ifs <;> rfl

/-- The loop of `prepareString` up to its last token: the text so far is extended by
characters of the tokens and spaces. -/
theorem prepareLoop_last (x : Str) :
    ∀ (mid : List Str) (st : PrepareState),
      ∃ (st1 : PrepareState) (s : Str),
        prepareLoop (mid ++ [x]) st = prepareStep none st1 x ∧
        st1.currentString = st.currentString ++ s ∧
        ∀ c ∈ s, c = ' ' ∨ ∃ t ∈ mid, c ∈ t := by
  intro mid
  induction mid with
  | nil =>
    intro st
    exact ⟨st, [], rfl, by simp, by simp⟩
  | cons t rest ih =>
    intro st
    obtain ⟨sp, hsp, hcur⟩ := prepareStep_currentString (rest ++ [x]).head? st t
    obtain ⟨st1, s, h1, h2, h3⟩ := ih (prepareStep (rest ++ [x]).head? st t)
    refine ⟨st1, t ++ sp ++ s, ?_, ?_, ?_⟩
    · rw [List.cons_append, prepareLoop_cons, h1]
    · rw [h2, hcur]
      simp only [List.append_assoc]
    · intro c hc
      simp only [List.mem_append] at hc
      rcases hc with (hc | hc) | hc
      · exact Or.inr ⟨t, by simp, hc⟩
      · rcases hsp with rfl | rfl
        · simp at hc
        · simp only [List.mem_singleton] at hc
          exact Or.inl hc
      · rcases h3 c hc with h | ⟨t2, ht2, hc2⟩
        · exact Or.inl h
        · exact Or.inr ⟨t2, by simp [ht2], hc2⟩

/-- The join of a run that starts and ends with the quote `mk`: the quote, characters of the
inner tokens and spaces, the quote. -/
theorem prepareString_quoted_shape (mk : Str) (hm : isStringMarker mk = true)
    (mid : List Str) :
    ∃ s : Str, prepareString ([mk] ++ mid ++ [mk]) = mk ++ s ++ mk ∧
      ∀ c ∈ s, c = ' ' ∨ ∃ t ∈ mid, c ∈ t := by
  obtain ⟨st1, s, h1, h2, h3⟩ := prepareLoop_last mk mid
    (prepareStep (mid ++ [mk]).head? { stringMarkersStack := [], currentString := [] } mk)
  refine ⟨s, ?_, h3⟩
  unfold prepareString
  rw [List.append_assoc, List.singleton_append, prepareLoop_cons, h1,
    prepareStep_none_marker st1 mk hm, h2, prepareStep_push _ _ mk hm (by simp)]
  simp

/-! ## Lemmas: the string pass on a run and on an open quote -/

/-- A line without quote characters has no quote token. -/
theorem scanLoop_tokens_not_marker (line : Str) (hq : ∀ c ∈ line, c ≠ dquote ∧ c ≠ squote) :
    ∀ t ∈ (scanLoop line { tokens := [], currentToken := [] }).tokens,
      isStringMarker t = false := by
  intro t ht
  cases hm : isStringMarker t with
  | false => rfl
  | true =>
    rcases (isStringMarker_iff t).mp hm with rfl | rfl
    · exact absurd rfl (scanLoop_tokens_ne_marker line squote (fun c hc => (hq c hc).2) _ ht)
    · exact absurd rfl (scanLoop_tokens_ne_marker line dquote (fun c hc => (hq c hc).1) _ ht)

/-- An opening quote without its closing quote: the quote and all that follows it on the
line give no token. -/
theorem tokenizeLine_unclosed (p r : Str) (m : Char) (hm : m = dquote ∨ m = squote)
    (hp : ∀ c ∈ p, c ≠ dquote ∧ c ≠ squote) (hr : ∀ c ∈ r, c ≠ m) :
    tokenizeLine (p ++ m :: r) = tokenizeLine p := by
  have hmk : isStringMarker [m] = true := by rcases hm with rfl | rfl <;> decide
  have hmr : isReservedChar m = true := by rcases hm with rfl | rfl <;> decide
  rw [tokenizeLine_of_no_quote p hp]
  unfold tokenizeLine
  simp only [(scanLoop_cut p r m hmr).1, List.foldl_append, List.foldl_cons, List.foldl_nil]
  have e1 : normStep
      { normalizedStringTokens :=
          [] ++ (scanLoop p { tokens := [], currentToken := [] }).tokens,
        currentStringMarker := none, currentNSToken := [] } [m] =
      { normalizedStringTokens :=
          [] ++ (scanLoop p { tokens := [], currentToken := [] }).tokens,
        currentStringMarker := some [m], currentNSToken := [[m]] } :=
    normStep_open _ [m] hmk rfl rfl
  rw [foldl_normStep_plain _ _ (scanLoop_tokens_not_marker p hp), e1,
    foldl_normStep_inside [m] _ _ _ (scanLoop_tokens_ne_marker r m hr)]
  simp

/-- A quoted run: the line `m t m`, where `t` does not hold the quote `m`, gives the one
token joined from the quote, the tokens of `t` and the quote. -/
theorem tokenizeLine_quoted_run (t : Str) (m : Char) (hm : m = dquote ∨ m = squote)
    (ht : ∀ c ∈ t, c ≠ m) :
    tokenizeLine (m :: (t ++ [m])) =
      [prepareString ([[m]] ++ (scanLoop t { tokens := [], currentToken := [] }).tokens ++
        [[m]])] := by
  have hmk : isStringMarker [m] = true := by rcases hm with rfl | rfl <;> decide
  have hmr : isReservedChar m = true := by rcases hm with rfl | rfl <;> decide
  have h1 := (scanLoop_cut [] (t ++ [m]) m hmr).1
  have h2 := (scanLoop_cut t [] m hmr).1
  simp only [List.nil_append] at h1
  have hscan : (scanLoop (m :: (t ++ [m])) { tokens := [], currentToken := [] }).tokens =
      [[m]] ++ (scanLoop t { tokens := [], currentToken := [] }).tokens ++ [[m]] := by
    rw [h1, h2]
    simp [scanLoop]
  unfold tokenizeLine
  simp only [hscan, List.foldl_append, List.foldl_cons, List.foldl_nil]
  have e1 : normStep
      { normalizedStringTokens := [], currentStringMarker := none, currentNSToken := [] } [m] =
      { normalizedStringTokens := [], currentStringMarker := some [m],
        currentNSToken := [[m]] } :=
    normStep_open _ [m] hmk rfl rfl
  rw [e1, foldl_normStep_inside [m] _ _ _ (scanLoop_tokens_ne_marker t m ht),
    normStep_close _ [m] hmk rfl]
  simp

/-! ## Lemmas: the characters of a normalised line -/

theorem mem_collapseAux :
    ∀ (l : Str) (b : Bool) (c : Char), c ∈ collapseAux b l → c ∈ l ∨ c = ' ' := by
  intro l
  induction l with
  | nil => intro b c hc; simp [collapseAux] at hc
  | cons x xs ih =>
    intro b c hc
    have hstep : ∀ b2, c ∈ x :: collapseAux b2 xs → c ∈ x :: xs ∨ c = ' ' := by
      intro b2 h
      rcases List.mem_cons.mp h with rfl | h
      · exact Or.inl (by simp)
      · rcases ih b2 c h with h | h
        · exact Or.inl (by simp [h])
        · exact Or.inr h
    have hskip : ∀ b2, c ∈ collapseAux b2 xs → c ∈ x :: xs ∨ c = ' ' := by
      intro b2 h
      rcases ih b2 c h with h | h
      · exact Or.inl (by simp [h])
      · exact Or.inr h
    cases b with
    | true =>
      cases hx : isWhitespace x with
      | true => simp only [collapseAux, hx, if_true] at hc; exact hskip true hc
      | false =>
        simp only [collapseAux, hx, Bool.false_eq_true, if_false] at hc
        exact hstep false hc
    | false =>
      cases hx : isWhitespace x with
      | false =>
        rw [collapseAux_false_cons x xs hx] at hc
        exact hstep false hc
      | true =>
        cases xs with
        | nil =>
          simp only [collapseAux, hx, if_true] at hc
          exact Or.inl hc
        | cons y ys =>
          cases hy : isWhitespace y with
          | true =>
            simp only [collapseAux, hx, hy, if_true, List.mem_cons] at hc
            rcases hc with rfl | hc
            · exact Or.inr rfl
            · exact hskip true (by simpa [collapseAux, hy] using hc)
          | false =>
            rw [collapseAux_false_single x y ys hy] at hc
            exact hstep false hc

theorem mem_trim (l : Str) (c : Char) (hc : c ∈ trim l) : c ∈ l := by
  unfold trim at hc
  rw [List.mem_reverse] at hc
  have h1 := (List.dropWhile_sublist isWhitespace).subset hc
  rw [List.mem_reverse] at h1
  exact (List.dropWhile_sublist isWhitespace).subset h1

theorem mem_stripComment (l : Str) (c : Char) (hc : c ∈ stripComment l) :
    c ∈ l ∧ c ≠ '#' := by
  unfold stripComment at hc
  refine ⟨(List.takeWhile_sublist _).subset hc, ?_⟩
  have := List.mem_takeWhile_imp hc
  simpa using this

/-- A character of a normalised line is a character of the line other than `#`, or the
space. -/
theorem mem_normalizeLine (l : Str) (c : Char) (hc : c ∈ normalizeLine l) :
    (c ∈ l ∧ c ≠ '#') ∨ c = ' ' := by
  unfold normalizeLine collapseSpaces at hc
  rcases mem_collapseAux _ false c (mem_trim _ c hc) with h | h
  · exact Or.inl (mem_stripComment l c h)
  · exact Or.inr h

theorem mem_splitLinesAux :
    ∀ (s cur : Str) (l : Str), l ∈ splitLinesAux cur s → ∀ c ∈ l, c ∈ cur ∨ c ≠ '\n' := by
  intro s
  induction s with
  | nil =>
    intro cur l hl c hc
    simp only [splitLinesAux, List.mem_singleton] at hl
    subst hl
    exact Or.inl hc
  | cons x xs ih =>
    intro cur l hl c hc
    by_cases hx : x = '\n'
    · simp only [splitLinesAux, hx, if_true, List.mem_cons] at hl
      rcases hl with rfl | hl
      · exact Or.inl hc
      · rcases ih [] l hl c hc with h | h
        · simp at h
        · exact Or.inr h
    · simp only [splitLinesAux, hx, if_false] at hl
      rcases ih (cur ++ [x]) l hl c hc with h | h
      · simp only [List.mem_append, List.mem_singleton] at h
        rcases h with h | rfl
        · exact Or.inl h
        · exact Or.inr hx
      · exact Or.inr h

/-- No line that `tokenize` hands to `tokenizeLine` holds a `#` or a newline. -/
theorem mem_normalized_lines (content : Str) (line : Str)
    (hl : line ∈ (splitLines content).map normalizeLine) :
    ∀ c ∈ line, c ≠ '#' ∧ c ≠ '\n' := by
  obtain ⟨raw, hraw, rfl⟩ := List.mem_map.mp hl
  intro c hc
  rcases mem_normalizeLine raw c hc with ⟨h1, h2⟩ | rfl
  · refine ⟨h2, ?_⟩
    rcases mem_splitLinesAux content [] raw hraw c h1 with h | h
    · simp at h
    · exact h
  · exact ⟨by decide, by decide⟩

/-- Collapsing whitespace in front of a last character that is no whitespace keeps that
character last. -/
theorem collapseAux_append_last (m : Char) (hm : isWhitespace m = false) :
    ∀ (t : Str) (b : Bool), ∃ t2 : Str, collapseAux b (t ++ [m]) = t2 ++ [m] ∧
      ∀ c ∈ t2, c ∈ t ∨ c = ' ' := by
  intro t
  induction t with
  | nil =>
    intro b
    refine ⟨[], ?_, by simp⟩
    cases b <;> simp [collapseAux, hm]
  | cons x xs ih =>
    intro b
    have hkeep : ∀ b2, ∃ t2 : Str, x :: collapseAux b2 (xs ++ [m]) = t2 ++ [m] ∧
        ∀ c ∈ t2, c ∈ x :: xs ∨ c = ' ' := by
      intro b2
      obtain ⟨t2, h1, h2⟩ := ih b2
      refine ⟨x :: t2, by rw [h1]; rfl, ?_⟩
      intro c hc
      rcases List.mem_cons.mp hc with rfl | hc
      · exact Or.inl (by simp)
      · rcases h2 c hc with h | h
        · exact Or.inl (by simp [h])
        · exact Or.inr h
    have hdrop : ∀ b2, ∃ t2 : Str, collapseAux b2 (xs ++ [m]) = t2 ++ [m] ∧
        ∀ c ∈ t2, c ∈ x :: xs ∨ c = ' ' := by
      intro b2
      obtain ⟨t2, h1, h2⟩ := ih b2
      refine ⟨t2, h1, ?_⟩
      intro c hc
      rcases h2 c hc with h | h
      · exact Or.inl (by simp [h])
      · exact Or.inr h
    have hspace : ∃ t2 : Str, ' ' :: collapseAux true (xs ++ [m]) = t2 ++ [m] ∧
        ∀ c ∈ t2, c ∈ x :: xs ∨ c = ' ' := by
      obtain ⟨t2, h1, h2⟩ := hdrop true
      refine ⟨' ' :: t2, by rw [h1]; rfl, ?_⟩
      intro c hc
      rcases List.mem_cons.mp hc with rfl | hc
      · exact Or.inr rfl
      · exact h2 c hc
    obtain ⟨y, ys, hy⟩ : ∃ y ys, xs ++ [m] = y :: ys := by
      cases xs with
      | nil => exact ⟨m, [], rfl⟩
      | cons y ys => exact ⟨y, ys ++ [m], rfl⟩
    rw [List.cons_append]
    cases b with
    | true =>
      cases hx : isWhitespace x with
      | true => simpa [collapseAux, hx] using hdrop true
      | false => simpa [collapseAux, hx] using hkeep false
    | false =>
      cases hx : isWhitespace x with
      | false => rw [collapseAux_false_cons x _ hx]; exact hkeep false
      | true =>
        cases hyw : isWhitespace y with
        | true =>
          have e : collapseAux false (x :: (xs ++ [m])) = ' ' :: collapseAux true (xs ++ [m]) := by
            rw [hy]
            simp [collapseAux, hx, hyw]
          rw [e]
          exact hspace
        | false =>
          have e : collapseAux false (x :: (xs ++ [m])) = x :: collapseAux false (xs ++ [m]) := by
            rw [hy]
            exact collapseAux_false_single x y ys hyw
          rw [e]
          exact hkeep false

/-- The tokens of a text of one line. -/
theorem tokenize_of_no_newline (line : Str) (hnl : ∀ c ∈ line, c ≠ '\n')
    (hne : normalizeLine line ≠ []) :
    tokenize line = tokenizeLine (normalizeLine line) := by
  rw [tokenize_eq, splitLines, splitLinesAux_of_no_newline line hnl]
  cases h : normalizeLine line with
  | nil => exact absurd h hne
  | cons c cs => simp [h]

/-- Normalisation of a quoted run `m t m` without `#`: a quoted run `m t2 m` whose
characters are those of `t` or spaces. -/
theorem normalizeLine_quoted_run (t : Str) (m : Char) (hm : m = dquote ∨ m = squote)
    (hhash : ∀ c ∈ t, c ≠ '#') :
    ∃ t2 : Str, normalizeLine (m :: (t ++ [m])) = m :: (t2 ++ [m]) ∧
      ∀ c ∈ t2, c ∈ t ∨ c = ' ' := by
  have hmw : isWhitespace m = false := by rcases hm with rfl | rfl <;> decide
  have hmh : m ≠ '#' := by rcases hm with rfl | rfl <;> decide
  obtain ⟨t2, h1, h2⟩ := collapseAux_append_last m hmw t false
  refine ⟨t2, ?_, h2⟩
  have hstrip : stripComment (m :: (t ++ [m])) = m :: (t ++ [m]) := by
    unfold stripComment
    apply takeWhile_eq_self_of_all
    intro c hc
    simp only [List.mem_cons, List.mem_append, List.mem_singleton, List.not_mem_nil,
      or_false] at hc
    simp only [bne_iff_ne, ne_eq, decide_eq_true_eq]
    rcases hc with rfl | hc | rfl
    · exact hmh
    · exact hhash c hc
    · exact hmh
  unfold normalizeLine collapseSpaces
  rw [hstrip, collapseAux_false_cons m _ hmw, h1]
  apply trim_eq_self
  · intro c hc
    simp only [List.head?_cons, Option.some.injEq] at hc
    subst hc
    exact hmw
  · intro c hc
    rw [show m :: (t2 ++ [m]) = (m :: t2) ++ [m] from rfl,
      List.getLast?_append_of_ne_nil _ (by simp)] at hc
    simp only [List.getLast?_singleton, Option.some.injEq] at hc
    subst hc
    exact hmw

/-! ## Lemmas: every token of `tokenize` is good -/

/-- A token of the scan that is no quote is a good token. -/
theorem goodToken_of_scanShape (t : Str) (hs : ScanShape t) (hm : isStringMarker t = false)
    (hc : ∀ c ∈ t, c ≠ '#' ∧ c ≠ '\n') : GoodToken t := by
  have hnd : t ≠ [dquote] := by
    rintro rfl
    exact absurd hm (by decide)
  have hns : t ≠ [squote] := by
    rintro rfl
    exact absurd hm (by decide)
  rcases hs with ⟨c, rfl, hr⟩ | ⟨hne, hplain⟩
  · refine ⟨by simp, hc, Or.inl ?_, hnd, hns⟩
    simp only [isReservedChar, Bool.or_eq_true, beq_iff_eq] at hr
    rcases hr with (((rfl | rfl) | rfl) | rfl) | rfl
    · exact Or.inl rfl
    · exact Or.inr (Or.inl rfl)
    · exact Or.inr (Or.inr rfl)
    · exact absurd rfl hnd
    · exact absurd rfl hns
  · exact ⟨hne, hc, Or.inr (Or.inl ⟨hne, fun c hcm => ⟨(hplain c hcm).2, (hplain c hcm).1⟩⟩),
      hnd, hns⟩

/-- The join of a closed quoted run is a good token. -/
theorem goodToken_prepareString (mk : Str) (hm : isStringMarker mk = true) (mid : List Str)
    (hmid : ∀ t ∈ mid, ∀ c ∈ t, c ≠ '#' ∧ c ≠ '\n') :
    GoodToken (prepareString ([mk] ++ mid ++ [mk])) := by
  obtain ⟨s, hs, hchars⟩ := prepareString_quoted_shape mk hm mid
  rw [hs]
  have hsc : ∀ c ∈ s, c ≠ '#' ∧ c ≠ '\n' := by
    intro c hc
    rcases hchars c hc with rfl | ⟨t, ht, hct⟩
    · exact ⟨by decide, by decide⟩
    · exact hmid t ht c hct
  have hq : ∃ m : Char, (m = dquote ∨ m = squote) ∧ mk = [m] := by
    rcases (isStringMarker_iff mk).mp hm with rfl | rfl
    · exact ⟨squote, Or.inr rfl, rfl⟩
    · exact ⟨dquote, Or.inl rfl, rfl⟩
  obtain ⟨m, hmq, rfl⟩ := hq
  have hmc : m ≠ '#' ∧ m ≠ '\n' := by rcases hmq with rfl | rfl <;> exact ⟨by decide, by decide⟩
  refine ⟨by simp, ?_, Or.inr (Or.inr ⟨m, hmq, by simp, by simp, ?_⟩), ?_, ?_⟩
  · intro c hc
    simp only [List.mem_append, List.mem_singleton] at hc
    rcases hc with (rfl | hc) | rfl
    · exact hmc
    · exact hsc c hc
    · exact hmc
  · rw [List.getLast?_append_of_ne_nil _ (by simp)]
    rfl
  · intro h
    have := congrArg List.length h
    simp at this
  · intro h
    have := congrArg List.length h
    simp at this

theorem normStep_invariant (st : NormState) (t : Str) (h : NormInvariant st)
    (hs : ScanShape t) (hc : ∀ c ∈ t, c ≠ '#' ∧ c ≠ '\n') : NormInvariant (normStep st t) := by
  obtain ⟨hout, hnone, hsome, hbuf⟩ := h
  cases hmarker : st.currentStringMarker with
  | none =>
    have hns := hnone hmarker
    cases hm : isStringMarker t with
    | true =>
      rw [normStep_open st t hm hmarker hns]
      refine ⟨hout, by simp, ?_, ?_⟩
      · intro mk hmk
        simp only [Option.some.injEq] at hmk
        subst hmk
        exact ⟨hm, [], rfl⟩
      · intro x hx
        simp only [List.mem_singleton] at hx
        subst hx
        exact hc
    | false =>
      rw [normStep_plain st t hm hmarker hns]
      refine ⟨?_, by simp, by simp, by simp⟩
      intro x hx
      simp only [List.mem_append, List.mem_singleton] at hx
      rcases hx with hx | rfl
      · exact hout x hx
      · exact goodToken_of_scanShape x hs hm hc
  | some mk =>
    obtain ⟨hmk, rest, hrest⟩ := hsome mk hmarker
    by_cases hclose : t = mk
    · subst hclose
      rw [normStep_close st t hmk hmarker]
      refine ⟨?_, by simp, by simp, by simp⟩
      intro x hx
      simp only [List.mem_append, List.mem_singleton] at hx
      rcases hx with hx | rfl
      · exact hout x hx
      · rw [hrest]
        exact goodToken_prepareString t hmk rest
          (fun y hy => hbuf y (by rw [hrest]; simp [hy]))
    · rw [normStep_inside st t mk hclose hmarker]
      refine ⟨hout, by simp, ?_, ?_⟩
      · intro mk2 hmk2
        simp only [Option.some.injEq] at hmk2
        subst hmk2
        exact ⟨hmk, rest ++ [t], by rw [hrest]; rfl⟩
      · intro x hx
        simp only [List.mem_append, List.mem_singleton] at hx
        rcases hx with hx | rfl
        · exact hbuf x hx
        · exact hc

theorem foldl_normStep_invariant :
    ∀ (tokens : List Str) (st : NormState), NormInvariant st →
      (∀ t ∈ tokens, ScanShape t ∧ ∀ c ∈ t, c ≠ '#' ∧ c ≠ '\n') →
      NormInvariant (tokens.foldl normStep st) := by
  intro tokens
  induction tokens with
  | nil => intro st h _; exact h
  | cons t rest ih =>
    intro st h ht
    exact ih _ (normStep_invariant st t h (ht t (by simp)).1 (ht t (by simp)).2)
      (fun x hx => ht x (by simp [hx]))

/-- Every token of a line without `#` and newline is good. -/
theorem tokenizeLine_good (line : Str) (hline : ∀ c ∈ line, c ≠ '#' ∧ c ≠ '\n') :
    ∀ t ∈ tokenizeLine line, GoodToken t := by
  have hshape := scanLoop_shape line { tokens := [], currentToken := [] } (by simp) (by simp)
  have hinv := foldl_normStep_invariant
    (scanLoop line { tokens := [], currentToken := [] }).tokens
    { normalizedStringTokens := [], currentStringMarker := none, currentNSToken := [] }
    ⟨by simp, by simp, by simp, by simp⟩
    (fun t ht => ⟨hshape t ht,
      fun c hc => hline c (mem_of_mem_scanLoop_tokens line t ht c hc)⟩)
  exact hinv.1

/-- Every token of `tokenize` is good. -/
theorem tokenize_good (content : Str) : ∀ t ∈ tokenize content, GoodToken t := by
  intro t ht
  rw [tokenize_eq] at ht
  obtain ⟨toks, htoks, htmem⟩ := List.mem_flatten.mp ht
  obtain ⟨line, hline, rfl⟩ := List.mem_map.mp htoks
  have hl := (List.mem_filter.mp hline).1
  exact tokenizeLine_good line (mem_normalized_lines content line hl) t htmem

/-! ## Lemmas: `buildSyntaxTree` within the limits of the engine -/

/-- Where the recursive call returns the value of `f` and the parsed block is within the
argument limit, the bounded loop body is the loop body. -/
theorem buildStepBounded_eq_some (maxArgs : Nat) (build : List Str → Option (List ConfigEntry))
    (f : List Str → List ConfigEntry) (st : BuildState) (token : Str)
    (hrec : st.captureStack = true → token = ['}'] → st.captureBlocksQty - 1 = 0 →
      build st.blockStack = some (f st.blockStack) ∧ (f st.blockStack).length ≤ maxArgs) :
    buildStepBounded maxArgs build st token = some (buildStep f st token) := by
  unfold buildStepBounded buildStep
  cases hcur : st.currentStatement with
  | none => rfl
  | some cur =>
    cases hc : st.captureStack with
    | false => simp only [Bool.false_eq_true, if_false]; split_ifs <;> rfl
    | true =>
      simp only [if_true]
      split_ifs with h1 h2 h3
      · rfl
      · obtain ⟨hb, hlen⟩ := hrec hc h2 h3
        simp only [hb]
        rw [if_neg (by omega)]
      · rfl
      · rfl

/-- A step of the bounded loop body that returns is the step of the loop body, for every
`f` that gives the value of the recursive call. -/
theorem buildStepBounded_some (maxArgs : Nat) (build : List Str → Option (List ConfigEntry))
    (f : List Str → List ConfigEntry) (st st1 : BuildState) (token : Str)
    (hf : ∀ r, build st.blockStack = some r → r = f st.blockStack)
    (h : buildStepBounded maxArgs build st token = some st1) :
    st1 = buildStep f st token := by
  unfold buildStepBounded at h
  unfold buildStep
  cases hcur : st.currentStatement with
  | none => rw [hcur] at h; simpa using h.symm
  | some cur =>
    rw [hcur] at h
    cases hc : st.captureStack with
    | false =>
      simp only [hc, Bool.false_eq_true, if_false] at h ⊢
      split_ifs at h ⊢ <;> simpa using h.symm
    | true =>
      simp only [hc, if_true] at h ⊢
      split_ifs at h ⊢ with h1 h2 h3
      · simpa using h.symm
      · cases hb : build st.blockStack with
        | none => rw [hb] at h; simp at h
        | some r =>
          rw [hb] at h
          simp only [] at h
          split_ifs at h
          rw [← hf r hb]
          simpa using h.symm
      · simpa using h.symm
      · simpa using h.symm

theorem buildLoopBounded_some (maxArgs : Nat) (build : List Str → Option (List ConfigEntry))
    (f : List Str → List ConfigEntry) (hf : ∀ l r, build l = some r → r = f l) :
    ∀ (tokens : List Str) (st st1 : BuildState),
      buildLoopBounded (buildStepBounded maxArgs build) st tokens = some st1 →
      st1 = tokens.foldl (buildStep f) st := by
  intro tokens
  induction tokens with
  | nil => intro st st1 h; simpa [buildLoopBounded] using h.symm
  | cons t rest ih =>
    intro st st1 h
    simp only [buildLoopBounded] at h
    cases hstep : buildStepBounded maxArgs build st t with
    | none => rw [hstep] at h; simp at h
    | some s =>
      rw [hstep] at h
      simp only [] at h
      rw [List.foldl_cons, ← buildStepBounded_some maxArgs build f st s t (hf _) hstep]
      exact ih s st1 h

/-- Wherever the bounded `buildSyntaxTree` returns, it returns the value of
`buildSyntaxTree`. -/
theorem buildSyntaxTreeBounded_some (maxArgs : Nat) :
    ∀ (frames : Nat) (tokens : List Str) (tree : List ConfigEntry),
      buildSyntaxTreeBounded maxArgs frames tokens = some tree →
      tree = buildSyntaxTree tokens := by
  intro frames
  induction frames with
  | zero => intro tokens tree h; simp [buildSyntaxTreeBounded] at h
  | succ frames ih =>
    intro tokens tree h
    simp only [buildSyntaxTreeBounded] at h
    cases hloop : buildLoopBounded
        (buildStepBounded maxArgs (buildSyntaxTreeBounded maxArgs frames))
        BuildState.init tokens with
    | none => rw [hloop] at h; simp at h
    | some st =>
      rw [hloop] at h
      simp only [Option.some.injEq] at h
      rw [← h, buildSyntaxTree_unfold,
        buildLoopBounded_some maxArgs _ buildSyntaxTree (fun l r hr => ih l r hr) tokens _ st
          hloop]

/-- Every step of the loop adds one entry at most to the result. -/
theorem buildStep_syntaxTree_length (f : List Str → List ConfigEntry) (st : BuildState)
    (token : Str) : (buildStep f st token).syntaxTree.length ≤ st.syntaxTree.length + 1 := by
  unfold buildStep
  split
  · simp
  · split_ifs <;> simp

theorem foldl_buildStep_syntaxTree_length (f : List Str → List ConfigEntry) :
    ∀ (tokens : List Str) (st : BuildState),
      (tokens.foldl (buildStep f) st).syntaxTree.length ≤
        st.syntaxTree.length + tokens.length := by
  intro tokens
  induction tokens with
  | nil => intro st; simp
  | cons t rest ih =>
    intro st
    have h1 := ih (buildStep f st t)
    have h2 := buildStep_syntaxTree_length f st t
    simp only [List.foldl_cons, List.length_cons]
    omega

/-- The result has no more entries than the list has tokens. -/
theorem buildSyntaxTree_length_le (tokens : List Str) :
    (buildSyntaxTree tokens).length ≤ tokens.length := by
  rw [buildSyntaxTree_unfold]
  have := foldl_buildStep_syntaxTree_length buildSyntaxTree tokens BuildState.init
  simpa [BuildState.init] using this

/-- The bounded loop returns the state of the loop when every recursive call that it can
make, on a buffer shorter by three than the tokens read and to read, returns the value of
`f` within the argument limit. -/
theorem buildLoopBounded_eq_some (maxArgs : Nat) (build : List Str → Option (List ConfigEntry))
    (f : List Str → List ConfigEntry) :
    ∀ (tokens : List Str) (st : BuildState) (k : Nat), BufferBound st k →
      (∀ l : List Str, l.length + 3 ≤ k + tokens.length →
        build l = some (f l) ∧ (f l).length ≤ maxArgs) →
      buildLoopBounded (buildStepBounded maxArgs build) st tokens =
        some (tokens.foldl (buildStep f) st) := by
  intro tokens
  induction tokens with
  | nil => intro st k _ _; rfl
  | cons t rest ih =>
    intro st k hb hbuild
    simp only [buildLoopBounded, List.foldl_cons]
    rw [buildStepBounded_eq_some maxArgs build f st t
      (fun hc _ _ => hbuild st.blockStack (by
        have := hb.1 hc
        simp only [List.length_cons]
        omega))]
    simp only []
    apply ih (buildStep f st t) (k + 1) (buildStep_bufferBound f st t k hb)
    intro l hl
    apply hbuild l
    simp only [List.length_cons]
    omega

/-- With a frame for every three tokens and one more, and an argument limit of the number
of tokens, `buildSyntaxTree` returns its value. -/
theorem buildSyntaxTreeBounded_eq_some (maxArgs : Nat) :
    ∀ (frames : Nat) (tokens : List Str), tokens.length < 3 * frames →
      tokens.length ≤ maxArgs →
      buildSyntaxTreeBounded maxArgs frames tokens = some (buildSyntaxTree tokens) := by
  intro frames
  induction frames with
  | zero => intro tokens h _; simp at h
  | succ frames ih =>
    intro tokens hlen hargs
    simp only [buildSyntaxTreeBounded]
    rw [buildLoopBounded_eq_some maxArgs _ buildSyntaxTree tokens BuildState.init 0
      (by simp [BufferBound, BuildState.init])
      (fun l hl => by
        have h1 : l.length < 3 * frames := by omega
        have h2 : l.length ≤ maxArgs := by omega
        exact ⟨ih l h1 h2, le_trans (buildSyntaxTree_length_le l) h2⟩)]
    simp only []
    rw [buildSyntaxTree_unfold]

/-! ## Lemmas: nested blocks overflow the call stack -/

theorem buildLoopBounded_append (step : BuildState → Str → Option BuildState) :
    ∀ (xs ys : List Str) (st st1 : BuildState), buildLoopBounded step st xs = some st1 →
      buildLoopBounded step st (xs ++ ys) = buildLoopBounded step st1 ys := by
  intro xs
  induction xs with
  | nil =>
    intro ys st st1 h
    simp only [buildLoopBounded, Option.some.injEq] at h
    rw [h, List.nil_append]
  | cons x rest ih =>
    intro ys st st1 h
    simp only [buildLoopBounded, List.cons_append] at h ⊢
    cases hstep : step st x with
    | none => rw [hstep] at h; simp at h
    | some s =>
      rw [hstep] at h
      exact ih ys s st1 h

theorem nestedBlocks_length (k : Nat) : (nestedBlocks k).length = 3 * k := by
  induction k with
  | zero => rfl
  | succ k ih => simp [nestedBlocks, ih]; omega

theorem nestedBlocks_count (k : Nat) :
    (nestedBlocks k).count ['{'] = k ∧ (nestedBlocks k).count ['}'] = k := by
  induction k with
  | zero => exact ⟨rfl, rfl⟩
  | succ k ih =>
    have h1 : ¬ (['a'] = ['{']) := by decide
    have h2 : ¬ (['a'] = ['}']) := by decide
    have h3 : ¬ (['{'] = ['}']) := by decide
    have h4 : ¬ (['}'] = ['{']) := by decide
    constructor
    · simp [nestedBlocks, List.count_append, List.count_cons, ih.1]
    · simp [nestedBlocks, List.count_append, List.count_cons, ih.2]

/-- No start of the tokens of nested blocks closes more braces than it opens. -/
theorem nestedBlocks_take (k : Nat) :
    ∀ n, n ≤ (nestedBlocks k).length →
      ((nestedBlocks k).take n).count ['}'] ≤ ((nestedBlocks k).take n).count ['{'] := by
  induction k with
  | zero => intro n _; simp [nestedBlocks]
  | succ k ih =>
    intro n _
    have hshape : nestedBlocks (k + 1) = ['a'] :: ['{'] :: (nestedBlocks k ++ [['}']]) := rfl
    rw [hshape]
    match n with
    | 0 => simp
    | 1 =>
      simp only [List.take_succ_cons, List.take_zero]
      decide
    | m + 2 =>
      have e1 : List.count ['}'] (['a'] :: ['{'] :: List.take m (nestedBlocks k ++ [['}']])) =
          List.count ['}'] (List.take m (nestedBlocks k ++ [['}']])) := by
        rw [List.count_cons_of_ne (by decide), List.count_cons_of_ne (by decide)]
      have e2 : List.count ['{'] (['a'] :: ['{'] :: List.take m (nestedBlocks k ++ [['}']])) =
          List.count ['{'] (List.take m (nestedBlocks k ++ [['}']])) + 1 := by
        rw [List.count_cons_of_ne (by decide), List.count_cons_self]
      simp only [List.take_succ_cons]
      rw [e1, e2]
      by_cases hm : m ≤ (nestedBlocks k).length
      · rw [List.take_append_of_le_length hm]
        have := ih m hm
        omega
      · have hall : List.take m (nestedBlocks k ++ [['}']]) = nestedBlocks k ++ [['}']] := by
          apply List.take_of_length_le
          simp only [List.length_append, List.length_singleton]
          omega
        rw [hall]
        simp only [List.count_append, (nestedBlocks_count k).1, (nestedBlocks_count k).2]
        have c1 : List.count ['}'] [['}']] = 1 := by decide
        have c2 : List.count ['{'] [['}']] = 0 := by decide
        omega

/-- The fields of the state after a step inside a captured block that does not close it. -/
theorem buildStep_capture_fields (f : List Str → List ConfigEntry) (st : BuildState)
    (token : Str) (cur : ConfigEntry) (hc : st.captureStack = true)
    (hcur : st.currentStatement = some cur)
    (hclose : token = ['}'] → st.captureBlocksQty - 1 ≠ 0) :
    (buildStep f st token).captureStack = true ∧
      (buildStep f st token).currentStatement = some cur ∧
      (buildStep f st token).syntaxTree = st.syntaxTree ∧
      (buildStep f st token).blockStack = st.blockStack ++ [token] ∧
      (buildStep f st token).captureBlocksQty =
        st.captureBlocksQty + ([token].count ['{'] : Int) - ([token].count ['}'] : Int) := by
  unfold buildStep
  simp only [hcur, hc, if_true]
  by_cases h1 : token = ['{']
  · subst h1
    simp [hc, hcur]
  · by_cases h2 : token = ['}']
    · subst h2
      simp [hc, hcur, hclose rfl]
    · have e1 : ¬ (['{'] = token) := fun e => h1 e.symm
      have e2 : ¬ (['}'] = token) := fun e => h2 e.symm
      simp [h1, h2, hc, hcur, List.count_cons, e1, e2]

/-- Inside a captured block whose depth stays positive the bounded loop makes no recursive
call: it returns the state of the loop. -/
theorem buildLoopBounded_capture (maxArgs : Nat) (build : List Str → Option (List ConfigEntry))
    (f : List Str → List ConfigEntry) :
    ∀ (body : List Str) (k : Nat),
      (∀ n, n ≤ body.length →
        (body.take n).count ['}'] + 1 ≤ (body.take n).count ['{'] + k) →
    ∀ (st : BuildState) (cur : ConfigEntry), st.captureStack = true →
      st.currentStatement = some cur → st.captureBlocksQty = (k : Int) →
      buildLoopBounded (buildStepBounded maxArgs build) st body =
        some (body.foldl (buildStep f) st) := by
  intro body
  induction body with
  | nil => intro k _ st cur _ _ _; rfl
  | cons t rest ih =>
    intro k h st cur hc hcur hq
    have h1 := h 1 (by simp)
    have hclose : t = ['}'] → st.captureBlocksQty - 1 ≠ 0 := by
      intro ht
      subst ht
      have c1 : List.count ['}'] (List.take 1 (['}'] :: rest)) = 1 := by simp
      have c2 : List.count ['{'] (List.take 1 (['}'] :: rest)) = 0 := by
        simp [List.count_cons]
      rw [c1, c2] at h1
      rw [hq]
      omega
    obtain ⟨f1, f2, _, _, f5⟩ := buildStep_capture_fields f st t cur hc hcur hclose
    simp only [buildLoopBounded, List.foldl_cons]
    rw [buildStepBounded_eq_some maxArgs build f st t
      (fun _ ht hz => absurd hz (hclose ht))]
    simp only []
    have hk : ∃ k2 : Nat, (buildStep f st t).captureBlocksQty = (k2 : Int) ∧
        k2 + [t].count ['}'] = k + [t].count ['{'] := by
      refine ⟨k + [t].count ['{'] - [t].count ['}'], ?_, ?_⟩
      · rw [f5, hq]
        have : [t].count ['}'] ≤ k + [t].count ['{'] := by
          have := h 1 (by simp)
          simp only [List.take_succ_cons, List.take_zero] at this
          omega
        omega
      · have := h 1 (by simp)
        simp only [List.take_succ_cons, List.take_zero] at this
        omega
    obtain ⟨k2, hk2, hrel⟩ := hk
    apply ih k2 _ (buildStep f st t) cur f1 f2 hk2
    intro n hn
    have := h (n + 1) (by simp; omega)
    simp only [List.take_succ_cons] at this
    have c1 : List.count ['}'] (t :: List.take n rest) =
        List.count ['}'] (List.take n rest) + [t].count ['}'] := by
      rw [show t :: List.take n rest = [t] ++ List.take n rest from rfl, List.count_append]
      omega
    have c2 : List.count ['{'] (t :: List.take n rest) =
        List.count ['{'] (List.take n rest) + [t].count ['{'] := by
      rw [show t :: List.take n rest = [t] ++ List.take n rest from rfl, List.count_append]
      omega
    omega

/-- On a stack of `frames` frames, `frames` nested blocks end in a `RangeError`: the
innermost call has no frame left. -/
theorem buildSyntaxTreeBounded_nestedBlocks (maxArgs : Nat) :
    ∀ frames : Nat, buildSyntaxTreeBounded maxArgs frames (nestedBlocks frames) = none := by
  intro frames
  induction frames with
  | zero => rfl
  | succ frames ih =>
    have hshape : nestedBlocks (frames + 1) =
        ([['a'], ['{']] ++ nestedBlocks frames) ++ [['}']] := rfl
    have hpre : buildLoopBounded
        (buildStepBounded maxArgs (buildSyntaxTreeBounded maxArgs frames)) BuildState.init
        ([['a'], ['{']] ++ nestedBlocks frames) =
        some ((nestedBlocks frames).foldl (buildStep buildSyntaxTree)
          { syntaxTree := [], currentStatement := some (ConfigEntry.mk ['a'] [] []),
            blockStack := [], captureStack := true, captureBlocksQty := ((1 : Nat) : Int) }) := by
      have h2 : buildLoopBounded
          (buildStepBounded maxArgs (buildSyntaxTreeBounded maxArgs frames)) BuildState.init
          [['a'], ['{']] =
          some { syntaxTree := [], currentStatement := some (ConfigEntry.mk ['a'] [] []),
                 blockStack := [], captureStack := true,
                 captureBlocksQty := ((1 : Nat) : Int) } := by
        simp [buildLoopBounded, buildStepBounded, BuildState.init]
      rw [buildLoopBounded_append _ _ _ _ _ h2]
      exact buildLoopBounded_capture maxArgs _ buildSyntaxTree (nestedBlocks frames) 1
        (fun n hn => Nat.add_le_add_right (nestedBlocks_take frames n hn) 1) _ _ rfl rfl rfl
    simp only [buildSyntaxTreeBounded]
    rw [hshape, buildLoopBounded_append _ _ _ _ _ hpre,
      foldl_buildStep_capture buildSyntaxTree (nestedBlocks frames) 1
        (fun n hn => Nat.add_le_add_right (nestedBlocks_take frames n hn) 1)]
    simp [buildLoopBounded, buildStepBounded, (nestedBlocks_count frames).1,
      (nestedBlocks_count frames).2, ih]

/-! ## Lemmas: `tokenize` and `parse` within the limits of the engine -/

theorem tokenize_eq_flatten (content : Str) :
    tokenize content = (tokenizedLines content).flatten :=
  tokenize_eq content

theorem concatLinesBounded_some (maxArgs : Nat) :
    ∀ (ls : List (List Str)) (a r : List Str), concatLinesBounded maxArgs a ls = some r →
      r = a ++ ls.flatten := by
  intro ls
  induction ls with
  | nil => intro a r h; simpa [concatLinesBounded] using h.symm
  | cons n rest ih =>
    intro a r h
    simp only [concatLinesBounded] at h
    split_ifs at h
    rw [ih _ _ h]
    simp

theorem concatLinesBounded_eq_some (maxArgs : Nat) :
    ∀ (ls : List (List Str)) (a : List Str), (∀ n ∈ ls, n.length ≤ maxArgs) →
      concatLinesBounded maxArgs a ls = some (a ++ ls.flatten) := by
  intro ls
  induction ls with
  | nil => intro a _; simp [concatLinesBounded]
  | cons n rest ih =>
    intro a h
    have hn : ¬ maxArgs < n.length := by
      have := h n (by simp)
      omega
    simp only [concatLinesBounded, if_neg hn]
    rw [ih _ (fun x hx => h x (by simp [hx]))]
    simp

theorem length_le_length_flatten (ls : List (List Str)) (n : List Str) (hn : n ∈ ls) :
    n.length ≤ ls.flatten.length := by
  induction ls with
  | nil => simp at hn
  | cons x rest ih =>
    simp only [List.flatten_cons, List.length_append]
    rcases List.mem_cons.mp hn with rfl | h
    · omega
    · have := ih h
      omega

/-- Wherever the bounded `tokenize` returns, it returns the value of `tokenize`. -/
theorem tokenizeBounded_some (maxArgs : Nat) (content : Str) (tokens : List Str)
    (h : tokenizeBounded maxArgs content = some tokens) : tokens = tokenize content := by
  rw [tokenize_eq_flatten, concatLinesBounded_some maxArgs _ _ _ h]
  simp

/-- With an argument limit of the number of tokens, `tokenize` returns its value. -/
theorem tokenizeBounded_eq_some (maxArgs : Nat) (content : Str)
    (h : (tokenize content).length ≤ maxArgs) :
    tokenizeBounded maxArgs content = some (tokenize content) := by
  unfold tokenizeBounded
  rw [concatLinesBounded_eq_some maxArgs _ _ (fun n hn => by
    have := length_le_length_flatten _ n hn
    rw [← tokenize_eq_flatten] at this
    omega), tokenize_eq_flatten]
  simp

/-- Wherever the bounded `parse` returns, it returns the value of `parse`. -/
theorem parseBounded_some (maxArgs frames : Nat) (content : Str) (tree : List ConfigEntry)
    (h : parseBounded maxArgs frames content = some tree) : tree = parse content := by
  unfold parseBounded at h
  cases ht : tokenizeBounded maxArgs content with
  | none => rw [ht] at h; simp at h
  | some tokens =>
    rw [ht] at h
    simp only [] at h
    rw [parse, ← tokenizeBounded_some maxArgs content tokens ht]
    exact buildSyntaxTreeBounded_some maxArgs frames tokens tree h

/-- With a frame for every three tokens and one more, and an argument limit of the number
of tokens, `parse` returns its value. -/
theorem parseBounded_eq_some (maxArgs frames : Nat) (content : Str)
    (hframes : (tokenize content).length < 3 * frames)
    (hargs : (tokenize content).length ≤ maxArgs) :
    parseBounded maxArgs frames content = some (parse content) := by
  unfold parseBounded
  rw [tokenizeBounded_eq_some maxArgs content hargs]
  exact buildSyntaxTreeBounded_eq_some maxArgs frames _ hframes hargs

/-! ## Lemmas: the text of nested blocks -/

/-- Normalisation leaves a line without whitespace and `#` unchanged. -/
theorem normalizeLine_of_plain (line : Str)
    (h : ∀ c ∈ line, isWhitespace c = false ∧ c ≠ '#') : normalizeLine line = line := by
  have hstrip : stripComment line = line := by
    unfold stripComment
    apply takeWhile_eq_self_of_all
    intro c hc
    simpa using (h c hc).2
  have hcollapse : collapseSpaces line = line := by
    unfold collapseSpaces
    have := collapseAux_false_append line [] (fun c hc => (h c hc).1)
    simpa [collapseAux] using this
  unfold normalizeLine
  rw [hstrip, hcollapse]
  apply trim_eq_self
  · intro c hc
    exact (h c (List.mem_of_mem_head? hc)).1
  · intro c hc
    exact (h c (List.mem_of_getLast?_eq_some hc)).1

theorem nestedBlocks_eq (k : Nat) :
    nestedBlocks k = (List.replicate k [['a'], ['{']]).flatten ++ List.replicate k ['}'] := by
  induction k with
  | zero => rfl
  | succ k ih =>
    rw [nestedBlocks, ih, List.replicate_succ, List.flatten_cons]
    simp only [List.append_assoc]
    congr 2
    rw [← List.replicate_succ']

theorem scanLoop_opens (rest : Str) :
    ∀ (k : Nat) (toks : List Str),
      scanLoop ((List.replicate k ['a', '{']).flatten ++ rest)
          { tokens := toks, currentToken := [] } =
        scanLoop rest
          { tokens := toks ++ (List.replicate k [['a'], ['{']]).flatten, currentToken := [] } := by
  intro k
  induction k with
  | zero => intro toks; simp
  | succ k ih =>
    intro toks
    have hshape : (List.replicate (k + 1) ['a', '{']).flatten ++ rest =
        ['a'] ++ '{' :: ((List.replicate k ['a', '{']).flatten ++ rest) := by
      simp [List.replicate_succ]
    rw [hshape, scanLoop_word ['a'] (by simp) (by decide) _ (by simp [lastCharOfWord]; decide),
      scanLoop_reserved '{' (by decide) _ _ rfl]
    simp only [List.nil_append]
    rw [ih]
    simp [List.replicate_succ]

theorem scanLoop_closes :
    ∀ (k : Nat) (toks : List Str),
      scanLoop (List.replicate k '}') { tokens := toks, currentToken := [] } =
        { tokens := toks ++ List.replicate k ['}'], currentToken := [] } := by
  intro k
  induction k with
  | zero => intro toks; simp [scanLoop]
  | succ k ih =>
    intro toks
    rw [List.replicate_succ, scanLoop_reserved '}' (by decide) _ _ rfl, ih]
    simp [List.replicate_succ]

theorem mem_nestedText (k : Nat) (c : Char) (hc : c ∈ nestedText k) :
    c = 'a' ∨ c = '{' ∨ c = '}' := by
  unfold nestedText at hc
  simp only [List.mem_append, List.mem_flatten, List.mem_replicate] at hc
  rcases hc with ⟨l, ⟨_, rfl⟩, hcl⟩ | ⟨_, rfl⟩
  · simp only [List.mem_cons, List.mem_singleton, List.not_mem_nil, or_false] at hcl
    rcases hcl with rfl | rfl
    · exact Or.inl rfl
    · exact Or.inr (Or.inl rfl)
  · exact Or.inr (Or.inr rfl)

/-- The tokens of the text of `k` nested blocks. -/
theorem tokenize_nestedText (k : Nat) : tokenize (nestedText k) = nestedBlocks k := by
  cases k with
  | zero => decide
  | succ k =>
    have hprop : ∀ c ∈ nestedText (k + 1),
        isWhitespace c = false ∧ c ≠ '#' ∧ c ≠ '\n' ∧ c ≠ dquote ∧ c ≠ squote := by
      intro c hc
      rcases mem_nestedText (k + 1) c hc with rfl | rfl | rfl <;> decide
    have hne : nestedText (k + 1) ≠ [] := by
      simp [nestedText, List.replicate_succ]
    rw [tokenize_single_line _ (fun c hc => (hprop c hc).2.2.1)
        (normalizeLine_of_plain _ (fun c hc => ⟨(hprop c hc).1, (hprop c hc).2.1⟩)) hne,
      tokenizeLine_of_no_quote _ (fun c hc => ⟨(hprop c hc).2.2.2.1, (hprop c hc).2.2.2.2⟩),
      nestedText, scanLoop_opens, scanLoop_closes, nestedBlocks_eq]
    simp

/-- On a stack of `frames` frames, the text of `frames` nested blocks ends in a
`RangeError`. -/
theorem parseBounded_nestedText (maxArgs frames : Nat) :
    parseBounded maxArgs frames (nestedText frames) = none := by
  unfold parseBounded
  cases ht : tokenizeBounded maxArgs (nestedText frames) with
  | none => rfl
  | some tokens =>
    simp only []
    rw [tokenizeBounded_some maxArgs _ tokens ht, tokenize_nestedText]
    exact buildSyntaxTreeBounded_nestedBlocks maxArgs frames

/-! ## Claims about `buildSyntaxTree` -/

/-- C1: a directive `d`, arguments none of which is `{` or `;`, and a `;` give the entry with
directive `d`, the coerced arguments in order and an empty block, followed by the entries of
the rest of the tokens; `parse("server_name example.com;")` is the one entry with the string
argument `example.com`. -/
theorem c1_statement_entry (d : Str) (args rest : List Str)
    (hargs : ∀ a ∈ args, a ≠ ['{'] ∧ a ≠ [';']) :
    buildSyntaxTree ([d] ++ args ++ [[';']] ++ rest) =
        ConfigEntry.mk d (args.map coerceArg) [] :: buildSyntaxTree rest ∧
      parse "server_name example.com;".toList =
        [ConfigEntry.mk "server_name".toList [ArgValue.str "example.com".toList] []] :=
  ⟨buildSyntaxTree_semicolon d args rest hargs, ConfigEntry.eq_of_beqList _ _ (by decide!)⟩

/-- Witness of C1: the tokens `listen 80 default ; x ;`. -/
theorem c1_statement_entry_witness :
    buildSyntaxTree (["listen".toList] ++ ["80".toList, "default".toList] ++ [[';']] ++
        ["x".toList, [';']]) =
        ConfigEntry.mk "listen".toList (["80".toList, "default".toList].map coerceArg) [] ::
          buildSyntaxTree ["x".toList, [';']] ∧
      parse "server_name example.com;".toList =
        [ConfigEntry.mk "server_name".toList [ArgValue.str "example.com".toList] []] :=
  c1_statement_entry "listen".toList ["80".toList, "default".toList] ["x".toList, [';']]
    (by decide)

/-- C2: a directive `d`, arguments none of which is `{` or `;`, a `{`, a body with balanced
braces and a `}` give the entry with directive `d`, the coerced arguments and the entries of
the body as its block, followed by the entries of the rest of the tokens;
`parse("http { server { listen 80; } }")` is `http` holding `server` holding `listen 80`. -/
theorem c2_block_entry (d : Str) (args body rest : List Str)
    (hargs : ∀ a ∈ args, a ≠ ['{'] ∧ a ≠ [';'])
    (hbal : ∀ n, n ≤ body.length → (body.take n).count ['}'] ≤ (body.take n).count ['{'])
    (htotal : body.count ['{'] = body.count ['}']) :
    buildSyntaxTree ([d] ++ args ++ [['{']] ++ body ++ [['}']] ++ rest) =
        ConfigEntry.mk d (args.map coerceArg) (buildSyntaxTree body) :: buildSyntaxTree rest ∧
      parse "http \x7b server \x7b listen 80; \x7d \x7d".toList =
        [ConfigEntry.mk "http".toList []
          [ConfigEntry.mk "server".toList []
            [ConfigEntry.mk "listen".toList [ArgValue.num (JSNumber.finite false 80)] []]]] :=
  ⟨buildSyntaxTree_block d args body rest hargs hbal htotal,
    ConfigEntry.eq_of_beqList _ _ (by decide!)⟩

/-- Witness of C2: the tokens `location / { if x { return 1 ; } } y ;`. -/
theorem c2_block_entry_witness :
    buildSyntaxTree (["location".toList] ++ ["/".toList] ++ [['{']] ++
        ["if".toList, "x".toList, ['{'], "return".toList, "1".toList, [';'], ['}']] ++
        [['}']] ++ ["y".toList, [';']]) =
        ConfigEntry.mk "location".toList (["/".toList].map coerceArg)
          (buildSyntaxTree
            ["if".toList, "x".toList, ['{'], "return".toList, "1".toList, [';'], ['}']]) ::
          buildSyntaxTree ["y".toList, [';']] ∧
      parse "http \x7b server \x7b listen 80; \x7d \x7d".toList =
        [ConfigEntry.mk "http".toList []
          [ConfigEntry.mk "server".toList []
            [ConfigEntry.mk "listen".toList [ArgValue.num (JSNumber.finite false 80)] []]]] :=
  c2_block_entry "location".toList ["/".toList]
    ["if".toList, "x".toList, ['{'], "return".toList, "1".toList, [';'], ['}']]
    ["y".toList, [';']] (by decide) (by decide) (by decide)

/-- C3, evaluated on the code: the argument tokens `1.5`, `1e3` and `0x10`, none of them a
base-10 integer literal, are stored as the numbers 1, 1 and 0 and not as their text, because
`Number` accepts them and `parseInt` reads their leading digits. -/
theorem c3_non_integer_tokens_become_numbers :
    buildSyntaxTree ["d".toList, "1.5".toList, "1e3".toList, "0x10".toList, [';']] =
        [ConfigEntry.mk "d".toList
          [ArgValue.num (JSNumber.finite false 1), ArgValue.num (JSNumber.finite false 1),
            ArgValue.num (JSNumber.finite false 0)] []] ∧
      parse "d 1.5 1e3 0x10;".toList =
        [ConfigEntry.mk "d".toList
          [ArgValue.num (JSNumber.finite false 1), ArgValue.num (JSNumber.finite false 1),
            ArgValue.num (JSNumber.finite false 0)] []] :=
  ⟨ConfigEntry.eq_of_beqList _ _ (by decide!),
    ConfigEntry.eq_of_beqList _ _ (by decide!)⟩

/-- C4: an argument token made of an optional `-` and one or more decimal digits, of
magnitude below `2 ^ 53`, at any place among the arguments of a statement, is stored as the
number with that sign whose magnitude is the base-10 value of the digits (`-0` for a
negative zero), not as a string; `parse("worker_processes 4;")` has the numeric argument 4. -/
theorem c4_integer_argument (d : Str) (before after rest : List Str) (neg : Bool) (ds : Str)
    (hbefore : ∀ a ∈ before, a ≠ ['{'] ∧ a ≠ [';'])
    (hafter : ∀ a ∈ after, a ≠ ['{'] ∧ a ≠ [';'])
    (hne : ds ≠ []) (hd : ∀ c ∈ ds, isDecDigit c = true)
    (hmag : Nat.ofDigits 10 (ds.reverse.map (fun c => c.toNat - 48)) < 2 ^ 53) :
    buildSyntaxTree
        ([d] ++ (before ++ [(if neg then ['-'] else []) ++ ds] ++ after) ++ [[';']] ++ rest) =
        ConfigEntry.mk d
          (before.map coerceArg ++
            [ArgValue.num (JSNumber.finite neg
              (Nat.ofDigits 10 (ds.reverse.map (fun c => c.toNat - 48))))] ++
            after.map coerceArg) [] :: buildSyntaxTree rest ∧
      parse "worker_processes 4;".toList =
        [ConfigEntry.mk "worker_processes".toList [ArgValue.num (JSNumber.finite false 4)] []] := by
  refine ⟨?_, ConfigEntry.eq_of_beqList _ _ (by decide!)⟩
  rw [← digitsValue_eq_ofDigits] at hmag ⊢
  have htok : (if neg then ['-'] else []) ++ ds ≠ ['{'] ∧
      (if neg then ['-'] else []) ++ ds ≠ [';'] := by
    obtain ⟨c, cs, rfl⟩ := List.exists_cons_of_ne_nil hne
    have hc := hd c (by simp)
    cases neg with
    | true => simp
    | false =>
      constructor <;>
        (intro h
         simp only [Bool.false_eq_true, if_false, List.nil_append, List.cons.injEq] at h
         have h1 := h.1
         subst h1
         revert hc
         decide)
  have hargs : ∀ a ∈ before ++ [(if neg then ['-'] else []) ++ ds] ++ after,
      a ≠ ['{'] ∧ a ≠ [';'] := by
    intro a ha
    simp only [List.mem_append, List.mem_singleton] at ha
    rcases ha with (ha | rfl) | ha
    · exact hbefore a ha
    · exact htok
    · exact hafter a ha
  rw [buildSyntaxTree_semicolon d _ rest hargs]
  simp only [List.map_append, List.map_cons, List.map_nil,
    coerceArg_integer neg ds hne hd hmag]

/-- Witness of C4: the token `-0042` between the arguments `a` and `7` of `d`. -/
theorem c4_integer_argument_witness :
    buildSyntaxTree
        (["d".toList] ++ (["a".toList] ++ [(if true then ['-'] else []) ++ "0042".toList] ++
          ["7".toList]) ++ [[';']] ++ ["e".toList, [';']]) =
        ConfigEntry.mk "d".toList
          (["a".toList].map coerceArg ++
            [ArgValue.num (JSNumber.finite true
              (Nat.ofDigits 10 ("0042".toList.reverse.map (fun c => c.toNat - 48))))] ++
            ["7".toList].map coerceArg) [] :: buildSyntaxTree ["e".toList, [';']] ∧
      parse "worker_processes 4;".toList =
        [ConfigEntry.mk "worker_processes".toList [ArgValue.num (JSNumber.finite false 4)] []] :=
  c4_integer_argument "d".toList ["a".toList] ["7".toList] ["e".toList, [';']] true
    "0042".toList (by decide) (by decide) (by decide) (by decide) (by decide)

/-- C5: an entry that is still open when the tokens end is not in the result: neither a
directive with arguments and no `;`, nor a directive with an opened block in which no prefix
closes more braces than it opens; `parse("server { listen 80;")` is empty. -/
theorem c5_open_entry_dropped (d : Str) (args body : List Str)
    (hargs : ∀ a ∈ args, a ≠ ['{'] ∧ a ≠ [';'])
    (hbal : ∀ n, n ≤ body.length → (body.take n).count ['}'] ≤ (body.take n).count ['{']) :
    buildSyntaxTree ([d] ++ args) = [] ∧
      buildSyntaxTree ([d] ++ args ++ [['{']] ++ body) = [] ∧
      parse "server \x7b listen 80;".toList = [] :=
  ⟨buildSyntaxTree_unterminated d args hargs,
    buildSyntaxTree_unclosed d args body hargs hbal,
    ConfigEntry.eq_of_beqList _ _ (by decide!)⟩

/-- Witness of C5: the body `a ; b { c ;` holds the complete statement `a ;`. -/
theorem c5_open_entry_dropped_witness :
    buildSyntaxTree (["server".toList] ++ ["x".toList]) = [] ∧
      buildSyntaxTree (["server".toList] ++ ["x".toList] ++ [['{']] ++
        ["a".toList, [';'], "b".toList, ['{'], "c".toList, [';']]) = [] ∧
      parse "server \x7b listen 80;".toList = [] :=
  c5_open_entry_dropped "server".toList ["x".toList]
    ["a".toList, [';'], "b".toList, ['{'], "c".toList, [';']] (by decide) (by decide)

/-! ## Claims about `tokenize`, `tokenizeLine` and `parse` -/

/-- C6: the text from a `#` to the end of its line does not influence the result: for every
text `l` and every text `c` without a newline, `parse (l ++ "#" ++ c) = parse l`, whether
or not the `#` stands inside a quoted string; `parse("foo bar; # trailing comment")` is the
entry `foo` with the argument `bar`. -/
theorem c6_comment_ignored (l c : Str) (hc : ∀ x ∈ c, x ≠ '\n') :
    parse (l ++ ['#'] ++ c) = parse l ∧
      parse "foo bar; # trailing comment".toList =
        [ConfigEntry.mk "foo".toList [ArgValue.str "bar".toList] []] := by
  refine ⟨?_, ConfigEntry.eq_of_beqList _ _ (by decide!)⟩
  unfold parse
  rw [List.append_assoc, List.singleton_append, tokenize_append_comment l c hc]

/-- Witness of C6: the `#` stands inside a quoted string on the second line. -/
theorem c6_comment_ignored_witness :
    parse ("x 1;\ny \x22a".toList ++ ['#'] ++ "b\x22; z".toList) = parse "x 1;\ny \x22a".toList ∧
      parse "foo bar; # trailing comment".toList =
        [ConfigEntry.mk "foo".toList [ArgValue.str "bar".toList] []] :=
  c6_comment_ignored "x 1;\ny \x22a".toList "b\x22; z".toList (by decide)

/-- C7: the line `d m w1 ... wn m;`, with a bare word `d`, a quote character `m` and bare
words `w1 ... wn` separated by single spaces, parses to one entry with directive `d`, an
empty block and the single string argument `m w1 ... wn m`, equal to its source text; the
tokens `"`, `some`, `example`, `"` join to `"some example"`, and the `log_format` line of the
specification gives the arguments `main` and the quoted string with its quotes. -/
theorem c7_quoted_words (d : Str) (m : Char) (ws : List Str) (hd : BareWord d)
    (hm : m = dquote ∨ m = squote) (hws : ∀ w ∈ ws, BareWord w) :
    parse (d ++ [' '] ++ [m] ++ List.intercalate [' '] ws ++ [m] ++ [';']) =
        [ConfigEntry.mk d [ArgValue.str ([m] ++ List.intercalate [' '] ws ++ [m])] []] ∧
      prepareString [[dquote], "some".toList, "example".toList, [dquote]] =
        "\x22some example\x22".toList ∧
      parse "log_format main \x22$remote_addr - $remote_user\x22;".toList =
        [ConfigEntry.mk "log_format".toList
          [ArgValue.str "main".toList,
            ArgValue.str "\x22$remote_addr - $remote_user\x22".toList] []] := by
  refine ⟨?_, by decide!, ConfigEntry.eq_of_beqList _ _ (by decide!)⟩
  have hmw : isWhitespace m = false := by rcases hm with rfl | rfl <;> decide
  have hnl : ∀ c ∈ d ++ [' '] ++ [m] ++ List.intercalate [' '] ws ++ [m] ++ [';'],
      c ≠ '\n' := by
    intro c hc
    have hnw : ∀ x : Char, isWhitespace x = false → x ≠ '\n' := by
      rintro x hx rfl
      exact absurd hx (by decide)
    simp only [List.mem_append, List.mem_singleton] at hc
    rcases hc with ((((hc | rfl) | rfl) | hc) | rfl) | rfl
    · exact hnw c (hd.not_whitespace c hc)
    · decide
    · exact hnw c hmw
    · rcases mem_intercalate [' '] ws c hc with hc | ⟨w, hw, hcw⟩
      · simp only [List.mem_singleton] at hc
        subst hc
        decide
      · exact hnw c ((hws w hw).not_whitespace c hcw)
    · exact hnw c hmw
    · decide
  have hargs : ∀ a ∈ [[m] ++ List.intercalate [' '] ws ++ [m]], a ≠ ['{'] ∧ a ≠ [';'] := by
    intro a ha
    rw [List.mem_singleton] at ha
    subst ha
    constructor <;>
      (intro h
       have h1 : m :: (List.intercalate [' '] ws ++ [m]) = _ := h
       simp only [List.cons.injEq] at h1
       rcases hm with rfl | rfl <;> exact absurd h1.1 (by decide))
  unfold parse
  rw [tokenize_single_line _ hnl (normalizeLine_quoted_words d m ws hd hm hws) (by simp),
    tokenizeLine_quoted_words d m ws hd hm hws]
  have h := buildSyntaxTree_semicolon d [[m] ++ List.intercalate [' '] ws ++ [m]] [] hargs
  simp only [List.singleton_append, List.cons_append, List.nil_append, List.map_cons,
    List.map_nil, List.append_nil] at h
  have hco := coerceArg_quoted m hm (List.intercalate [' '] ws)
  simp only [List.singleton_append, List.cons_append, List.nil_append] at hco
  simp only [List.singleton_append, List.cons_append, List.nil_append]
  rw [h, hco]
  rfl

/-- Witness of C7: the line `add_header 'a b=c d';`. -/
theorem c7_quoted_words_witness :
    parse ("add_header".toList ++ [' '] ++ [squote] ++
        List.intercalate [' '] ["a".toList, "b=c".toList, "d".toList] ++ [squote] ++ [';']) =
        [ConfigEntry.mk "add_header".toList
          [ArgValue.str ([squote] ++
            List.intercalate [' '] ["a".toList, "b=c".toList, "d".toList] ++ [squote])] []] ∧
      prepareString [[dquote], "some".toList, "example".toList, [dquote]] =
        "\x22some example\x22".toList ∧
      parse "log_format main \x22$remote_addr - $remote_user\x22;".toList =
        [ConfigEntry.mk "log_format".toList
          [ArgValue.str "main".toList,
            ArgValue.str "\x22$remote_addr - $remote_user\x22".toList] []] :=
  c7_quoted_words "add_header".toList squote ["a".toList, "b=c".toList, "d".toList]
    (by unfold BareWord; decide) (Or.inr rfl) (by unfold BareWord; decide)

/-- C8: the tokens of a text are the tokens of its lines, in order: for all texts `a` and
`b`, `tokenize (a ++ "\n" ++ b) = tokenize a ++ tokenize b`; a line that is empty, holds
only whitespace or holds only a comment has no token, so it can stand between `a` and `b`
without effect; a block written on five lines parses as the same block on one line. -/
theorem c8_lines_concatenate (a b line : Str) (hnl : ∀ c ∈ line, c ≠ '\n')
    (hblank : ∀ c ∈ stripComment line, isWhitespace c = true) :
    tokenize (a ++ ['\n'] ++ b) = tokenize a ++ tokenize b ∧
      tokenize line = [] ∧
      tokenize (a ++ ['\n'] ++ line ++ ['\n'] ++ b) = tokenize a ++ tokenize b ∧
      parse "http \x7b\n  server \x7b\n    listen 80;\n  \x7d\n\x7d\n".toList =
        parse "http \x7b server \x7b listen 80; \x7d \x7d".toList := by
  have h1 : ∀ x y : Str, tokenize (x ++ ['\n'] ++ y) = tokenize x ++ tokenize y := by
    intro x y
    rw [List.append_assoc, List.singleton_append, tokenize_append_newline]
  refine ⟨h1 a b, tokenize_blank_line line hnl hblank, ?_,
    congrArg buildSyntaxTree (by decide!)⟩
  rw [h1, h1, tokenize_blank_line line hnl hblank, List.append_nil]

/-- Witness of C8: a comment line between two statements. -/
theorem c8_lines_concatenate_witness :
    tokenize ("a 1;".toList ++ ['\n'] ++ "b 2;".toList) =
        tokenize "a 1;".toList ++ tokenize "b 2;".toList ∧
      tokenize " \t # only a comment; x".toList = [] ∧
      tokenize ("a 1;".toList ++ ['\n'] ++ " \t # only a comment; x".toList ++ ['\n'] ++
        "b 2;".toList) = tokenize "a 1;".toList ++ tokenize "b 2;".toList ∧
      parse "http \x7b\n  server \x7b\n    listen 80;\n  \x7d\n\x7d\n".toList =
        parse "http \x7b server \x7b listen 80; \x7d \x7d".toList :=
  c8_lines_concatenate "a 1;".toList "b 2;".toList " \t # only a comment; x".toList
    (by decide) (by decide)

/-- C9, evaluated on the code: a single tab between two words does not separate them. The
line `a<TAB>b` gives the one token `ab`, and `parse("a<TAB>b;")` is the entry with directive
`ab` and no argument, while a space in the same place gives the two tokens. -/
theorem c9_tab_does_not_separate :
    tokenize "a\tb".toList = ["ab".toList] ∧
      parse "a\tb;".toList = [ConfigEntry.mk "ab".toList [] []] ∧
      tokenize "a b".toList = ["a".toList, "b".toList] ∧
      parse "a b;".toList = [ConfigEntry.mk "a".toList [ArgValue.str "b".toList] []] :=
  ⟨by decide!, ConfigEntry.eq_of_beqList _ _ (by decide!),
    by decide!, ConfigEntry.eq_of_beqList _ _ (by decide!)⟩

/-- C10: on a line without quote characters the tokens, in order, spell the line without its
whitespace; the tokens that hold a reserved character are exactly the occurrences of `;`,
`{` and `}`, each a token of one character, so a word holds no reserved character; no token
is empty; and `a{b;}` gives `a`, `{`, `b`, `;`, `}`. -/
theorem c10_tokens_of_unquoted_line (line : Str) (hq : ∀ c ∈ line, c ≠ dquote ∧ c ≠ squote) :
    (tokenizeLine line).flatten = line.filter (fun c => !isWhitespace c) ∧
      (tokenizeLine line).filter (fun t => t.any isReservedChar) =
        (line.filter (fun c => c == ';' || c == '{' || c == '}')).map (fun c => [c]) ∧
      (∀ t ∈ tokenizeLine line, t ≠ []) ∧
      tokenizeLine "a\x7bb;\x7d".toList = ["a".toList, ['{'], "b".toList, [';'], ['}']] := by
  have hshape := scanLoop_shape line { tokens := [], currentToken := [] } (by simp) (by simp)
  rw [tokenizeLine_of_no_quote line hq]
  refine ⟨scanLoop_init_flatten line, ?_, ?_, by decide!⟩
  · rw [filter_any_reserved_of_shape _ hshape, scanLoop_init_flatten, List.filter_filter]
    congr 1
    apply List.filter_congr
    intro c hc
    have h1 := (hq c hc).1
    have h2 := (hq c hc).2
    cases hr : isReservedChar c with
    | true =>
      have hr' := hr
      simp only [isReservedChar, Bool.or_eq_true, beq_iff_eq] at hr'
      rcases hr' with (((rfl | rfl) | rfl) | h) | h
      · rfl
      · rfl
      · rfl
      · exact absurd h h1
      · exact absurd h h2
    | false =>
      simp only [isReservedChar, Bool.or_eq_false_iff] at hr
      simp [hr.1.1.1.1, hr.1.1.1.2, hr.1.1.2]
  · intro t ht
    rcases hshape t ht with ⟨c, rfl, _⟩ | ⟨hne, _⟩
    · simp
    · exact hne

/-- Witness of C10: the line `if ($x){return 1;}  }`. -/
theorem c10_tokens_of_unquoted_line_witness :
    (tokenizeLine "if ($x)\x7breturn 1;\x7d  \x7d".toList).flatten =
        "if ($x)\x7breturn 1;\x7d  \x7d".toList.filter (fun c => !isWhitespace c) ∧
      (tokenizeLine "if ($x)\x7breturn 1;\x7d  \x7d".toList).filter
          (fun t => t.any isReservedChar) =
        ("if ($x)\x7breturn 1;\x7d  \x7d".toList.filter
          (fun c => c == ';' || c == '{' || c == '}')).map (fun c => [c]) ∧
      (∀ t ∈ tokenizeLine "if ($x)\x7breturn 1;\x7d  \x7d".toList, t ≠ []) ∧
      tokenizeLine "a\x7bb;\x7d".toList = ["a".toList, ['{'], "b".toList, [';'], ['}']] :=
  c10_tokens_of_unquoted_line "if ($x)\x7breturn 1;\x7d  \x7d".toList (by decide)

/-! ## Claims about quoted runs, stray tokens, the loop invariants and termination -/

/-- C11: only the identical quote character closes a quoted run. For a quote character `m`
and a text `t` without `m`, `#` and newline (it may hold the other quote character,
whitespace and `;`, `{`, `}`), the line `m t m` gives exactly one token, which starts and
ends with `m`; so does the text `m t m` through `tokenize`. -/
theorem c11_only_same_quote_closes (m : Char) (t : Str) (hm : m = dquote ∨ m = squote)
    (ht : ∀ c ∈ t, c ≠ m ∧ c ≠ '#' ∧ c ≠ '\n') :
    (∃ tok : Str, tokenizeLine ([m] ++ t ++ [m]) = [tok] ∧ tok.head? = some m ∧
        tok.getLast? = some m) ∧
      (∃ tok : Str, tokenize ([m] ++ t ++ [m]) = [tok] ∧ tok.head? = some m ∧
        tok.getLast? = some m) := by
  have hmk : isStringMarker [m] = true := by rcases hm with rfl | rfl <;> decide
  have hsp : m ≠ ' ' := by rcases hm with rfl | rfl <;> decide
  have hmnl : m ≠ '\n' := by rcases hm with rfl | rfl <;> decide
  have hrun : ∀ u : Str, (∀ c ∈ u, c ≠ m) →
      ∃ tok : Str, tokenizeLine (m :: (u ++ [m])) = [tok] ∧ tok.head? = some m ∧
        tok.getLast? = some m := by
    intro u hu
    obtain ⟨s, hs, _⟩ := prepareString_quoted_shape [m] hmk
      (scanLoop u { tokens := [], currentToken := [] }).tokens
    refine ⟨[m] ++ s ++ [m], ?_, by simp, ?_⟩
    · rw [tokenizeLine_quoted_run u m hm hu, hs]
    · rw [List.getLast?_append_of_ne_nil _ (by simp)]
      rfl
  have hline : [m] ++ t ++ [m] = m :: (t ++ [m]) := rfl
  rw [hline]
  refine ⟨hrun t (fun c hc => (ht c hc).1), ?_⟩
  obtain ⟨t2, hnorm, hchars⟩ := normalizeLine_quoted_run t m hm (fun c hc => (ht c hc).2.1)
  have hnl : ∀ c ∈ m :: (t ++ [m]), c ≠ '\n' := by
    intro c hc
    simp only [List.mem_cons, List.mem_append, List.mem_singleton, List.not_mem_nil,
      or_false] at hc
    rcases hc with rfl | hc | rfl
    · exact hmnl
    · exact (ht c hc).2.2
    · exact hmnl
  rw [tokenize_of_no_newline _ hnl (by rw [hnorm]; simp), hnorm]
  apply hrun
  intro c hc
  rcases hchars c hc with h | rfl
  · exact (ht c h).1
  · exact fun e => hsp e.symm

/-- Witness of C11: the line `"a 'b; {c' d"`. -/
theorem c11_only_same_quote_closes_witness :
    (∃ tok : Str, tokenizeLine ([dquote] ++ "a \x27b; \x7bc\x27 d".toList ++ [dquote]) = [tok] ∧
        tok.head? = some dquote ∧ tok.getLast? = some dquote) ∧
      (∃ tok : Str, tokenize ([dquote] ++ "a \x27b; \x7bc\x27 d".toList ++ [dquote]) = [tok] ∧
        tok.head? = some dquote ∧ tok.getLast? = some dquote) :=
  c11_only_same_quote_closes dquote "a \x27b; \x7bc\x27 d".toList (Or.inl rfl) (by decide)

/-- C12: for a token list without a `{` token, every entry that `buildSyntaxTree` returns has
an empty block: a statement ended by `;` never gets block entries. -/
theorem c12_block_needs_brace (tokens : List Str) (hno : ∀ t ∈ tokens, t ≠ ['{'])
    (e : ConfigEntry) (he : e ∈ buildSyntaxTree tokens) : e.block = [] :=
  buildSyntaxTree_block_eq_nil tokens hno e he

/-- Witness of C12: the tokens `a 1 ; } b ;` and the second entry of their result. -/
theorem c12_block_needs_brace_witness :
    buildSyntaxTree ["a".toList, "1".toList, [';'], ['}'], "b".toList, [';']] =
        [ConfigEntry.mk "a".toList [ArgValue.num (JSNumber.finite false 1)] [],
          ConfigEntry.mk ['}'] [ArgValue.str "b".toList] []] ∧
      (ConfigEntry.mk ['}'] [ArgValue.str "b".toList] []).block = [] :=
  ⟨ConfigEntry.eq_of_beqList _ _ (by decide!),
    c12_block_needs_brace ["a".toList, "1".toList, [';'], ['}'], "b".toList, [';']]
      (by decide) _
      (by rw [ConfigEntry.eq_of_beqList
            (buildSyntaxTree ["a".toList, "1".toList, [';'], ['}'], "b".toList, [';']])
            [ConfigEntry.mk "a".toList [ArgValue.num (JSNumber.finite false 1)] [],
              ConfigEntry.mk ['}'] [ArgValue.str "b".toList] []] (by decide!)]
          simp)⟩

/-- C13 as stated fails for a numeric word: in `parse("a {}; 80;")` the entry with directive
`;` has the number 80 as its argument, not the word `80`. -/
theorem c13_numeric_word_counterexample :
    parse "a \x7b\x7d; 80;".toList ≠
      [ConfigEntry.mk "a".toList [] [], ConfigEntry.mk [';'] [ArgValue.str "80".toList] []] := by
  have h : parse "a \x7b\x7d; 80;".toList =
      [ConfigEntry.mk "a".toList [] [],
        ConfigEntry.mk [';'] [ArgValue.num (JSNumber.finite false 80)] []] :=
    ConfigEntry.eq_of_beqList _ _ (by decide!)
  rw [h]
  simp

/-- C13, amended: a `;` that arrives while no entry is open becomes the directive of a new
entry. `buildSyntaxTree([";", ";"])` is the one entry with directive `;`; and for all bare
words `a` and `b`, `parse("a {}; b;")` is the entry `a` followed by one entry with directive
`;` and exactly one argument, made from `b` by the argument coercion: the string `b` when
`b` is not numeric for `Number`, the integer when `b` is an optional `-` and decimal digits
of magnitude below `2 ^ 53`. The word `b` opens no entry of its own. -/
theorem c13_semicolon_directive (a b : Str) (ha : BareWord a) (hb : BareWord b) :
    buildSyntaxTree [[';'], [';']] = [ConfigEntry.mk [';'] [] []] ∧
      ∃ v : ArgValue,
        parse (a ++ [' ', '{', '}', ';', ' '] ++ b ++ [';']) =
          [ConfigEntry.mk a [] [], ConfigEntry.mk [';'] [v] []] ∧
        (numberIsNaN b = true → v = ArgValue.str b) ∧
        (∀ (neg : Bool) (ds : Str), b = (if neg then ['-'] else []) ++ ds → ds ≠ [] →
          (∀ c ∈ ds, isDecDigit c = true) →
          Nat.ofDigits 10 (ds.reverse.map (fun c => c.toNat - 48)) < 2 ^ 53 →
          v = ArgValue.num (JSNumber.finite neg
            (Nat.ofDigits 10 (ds.reverse.map (fun c => c.toNat - 48))))) := by
  refine ⟨ConfigEntry.eq_of_beqList _ _ (by decide!), coerceArg b, ?_, ?_, ?_⟩
  · unfold parse
    rw [tokenize_block_semicolon a b ha hb,
      buildSyntaxTree_block_semicolon a b (hb.ne_reserved '{' (by decide))
        (hb.ne_reserved ';' (by decide))]
  · intro h
    simp [coerceArg, h]
  · intro neg ds hbeq hne hd hmag
    rw [← digitsValue_eq_ofDigits] at hmag ⊢
    rw [hbeq]
    exact coerceArg_integer neg ds hne hd hmag

/-- Witness of C13: the text `a {}; b;`. -/
theorem c13_semicolon_directive_witness :
    buildSyntaxTree [[';'], [';']] = [ConfigEntry.mk [';'] [] []] ∧
      ∃ v : ArgValue,
        parse ("a".toList ++ [' ', '{', '}', ';', ' '] ++ "b".toList ++ [';']) =
          [ConfigEntry.mk "a".toList [] [], ConfigEntry.mk [';'] [v] []] ∧
        (numberIsNaN "b".toList = true → v = ArgValue.str "b".toList) ∧
        (∀ (neg : Bool) (ds : Str), "b".toList = (if neg then ['-'] else []) ++ ds → ds ≠ [] →
          (∀ c ∈ ds, isDecDigit c = true) →
          Nat.ofDigits 10 (ds.reverse.map (fun c => c.toNat - 48)) < 2 ^ 53 →
          v = ArgValue.num (JSNumber.finite neg
            (Nat.ofDigits 10 (ds.reverse.map (fun c => c.toNat - 48))))) :=
  c13_semicolon_directive "a".toList "b".toList (by unfold BareWord; decide)
    (by unfold BareWord; decide)

/-- C14: for distinct quote characters `m` and `n`, tokens `u`, `v`, `w` that are no quotes,
`w` not empty and its tokens not empty, `prepareString` of `m u n v n w m` is `m`, the tokens
of `u` joined by single spaces, `n`, the tokens of `v` joined, `n`, one space, the tokens of
`w` joined, `m`: no space stands before a quote and one space follows the closing inner
quote. The line `"a 'b' c"` gives the token `"a'b' c"`. -/
theorem c14_nested_quote_spacing (m n : Char) (hm : m = dquote ∨ m = squote)
    (hn : n = dquote ∨ n = squote) (hmn : m ≠ n) (u v w : List Str)
    (hu : ∀ t ∈ u, isStringMarker t = false) (hv : ∀ t ∈ v, isStringMarker t = false)
    (hw : ∀ t ∈ w, isStringMarker t = false) (hw0 : w ≠ []) (hwne : ∀ t ∈ w, t ≠ []) :
    prepareString ([[m]] ++ u ++ [[n]] ++ v ++ [[n]] ++ w ++ [[m]]) =
        [m] ++ List.intercalate [' '] u ++ [n] ++ List.intercalate [' '] v ++ [n] ++ [' '] ++
          List.intercalate [' '] w ++ [m] ∧
      tokenizeLine "\x22a \x27b\x27 c\x22".toList = ["\x22a\x27b\x27 c\x22".toList] :=
  ⟨prepareString_nested m n hm hn hmn u v w hu hv hw hw0 hwne, by decide!⟩

/-- Witness of C14: the tokens `' a b " c " d e '`. -/
theorem c14_nested_quote_spacing_witness :
    prepareString ([[squote]] ++ ["a".toList, "b".toList] ++ [[dquote]] ++ ["c".toList] ++
        [[dquote]] ++ ["d".toList, "e".toList] ++ [[squote]]) =
        [squote] ++ List.intercalate [' '] ["a".toList, "b".toList] ++ [dquote] ++
          List.intercalate [' '] ["c".toList] ++ [dquote] ++ [' '] ++
          List.intercalate [' '] ["d".toList, "e".toList] ++ [squote] ∧
      tokenizeLine "\x22a \x27b\x27 c\x22".toList = ["\x22a\x27b\x27 c\x22".toList] :=
  c14_nested_quote_spacing squote dquote (Or.inr rfl) (Or.inl rfl) (by decide)
    ["a".toList, "b".toList] ["c".toList] ["d".toList, "e".toList]
    (by decide) (by decide) (by decide) (by decide) (by decide)

/-- C15: an opening quote without a matching close on its line removes itself and all that
follows it on the line from the tokens: for a text `p` without quote characters, a quote
character `m` and a text `r` without `m`, `tokenizeLine (p ++ m ++ r) = tokenizeLine p`. A
quoted string does not go on in the next line: the text of the two lines `x "a` and `b" y;`
has the tokens `x` and `b` only. -/
theorem c15_unclosed_quote_dropped (p r : Str) (m : Char) (hm : m = dquote ∨ m = squote)
    (hp : ∀ c ∈ p, c ≠ dquote ∧ c ≠ squote) (hr : ∀ c ∈ r, c ≠ m) :
    tokenizeLine (p ++ [m] ++ r) = tokenizeLine p ∧
      tokenize "x \x22a\nb\x22 y;".toList = ["x".toList, "b".toList] := by
  refine ⟨?_, by decide!⟩
  rw [List.append_assoc, List.singleton_append]
  exact tokenizeLine_unclosed p r m hm hp hr

/-- Witness of C15: the line `listen 80; 'a "b" c;`. -/
theorem c15_unclosed_quote_dropped_witness :
    tokenizeLine ("listen 80; ".toList ++ [squote] ++ "a \x22b\x22 c;".toList) =
        tokenizeLine "listen 80; ".toList ∧
      tokenize "x \x22a\nb\x22 y;".toList = ["x".toList, "b".toList] :=
  c15_unclosed_quote_dropped "listen 80; ".toList "a \x22b\x22 c;".toList squote (Or.inr rfl)
    (by decide) (by decide)

/-- C16: for bare words `d`, `a`, `b`, a quote character `m` and a reserved character `r`
among `;`, `{`, `}`, the line `d m a r b m;` (no space around `r`) parses to one entry with
directive `d`, an empty block and the single string argument `m a r b m` with one space on
each side of `r`: the reserved character does not end the statement and the string is not
kept verbatim. -/
theorem c16_reserved_inside_quotes (d a b : Str) (m r : Char) (hd : BareWord d)
    (ha : BareWord a) (hb : BareWord b) (hm : m = dquote ∨ m = squote)
    (hr : r = ';' ∨ r = '{' ∨ r = '}') :
    parse (d ++ [' '] ++ [m] ++ a ++ [r] ++ b ++ [m] ++ [';']) =
      [ConfigEntry.mk d
        [ArgValue.str ([m] ++ a ++ [' '] ++ [r] ++ [' '] ++ b ++ [m])] []] := by
  have hmw : isWhitespace m = false := by rcases hm with rfl | rfl <;> decide
  have hrw : isWhitespace r = false := by rcases hr with rfl | rfl | rfl <;> decide
  have hnw : ∀ x : Char, isWhitespace x = false → x ≠ '\n' := by
    rintro x hx rfl
    exact absurd hx (by decide)
  have hnl : ∀ c ∈ d ++ [' '] ++ [m] ++ a ++ [r] ++ b ++ [m] ++ [';'], c ≠ '\n' := by
    intro c hc
    simp only [List.mem_append, List.mem_singleton] at hc
    rcases hc with ((((((hc | rfl) | rfl) | hc) | rfl) | hc) | rfl) | rfl
    · exact hnw c (hd.not_whitespace c hc)
    · decide
    · exact hnw c hmw
    · exact hnw c (ha.not_whitespace c hc)
    · exact hnw c hrw
    · exact hnw c (hb.not_whitespace c hc)
    · exact hnw c hmw
    · decide
  have harg : [m] ++ a ++ [' '] ++ [r] ++ [' '] ++ b ++ [m] =
      [m] ++ (a ++ [' '] ++ [r] ++ [' '] ++ b) ++ [m] := by
    simp only [List.append_assoc]
  have hargs : ∀ x ∈ [[m] ++ (a ++ [' '] ++ [r] ++ [' '] ++ b) ++ [m]],
      x ≠ ['{'] ∧ x ≠ [';'] := by
    intro x hx
    rw [List.mem_singleton] at hx
    subst hx
    constructor <;>
      (intro h
       have h1 : m :: ((a ++ [' '] ++ [r] ++ [' '] ++ b) ++ [m]) = _ := h
       simp only [List.cons.injEq] at h1
       rcases hm with rfl | rfl <;> exact absurd h1.1 (by decide))
  unfold parse
  rw [tokenize_single_line _ hnl (normalizeLine_quoted_reserved d a b m r hd ha hb hm hr)
      (by simp),
    tokenizeLine_quoted_reserved d a b m r hd ha hb hm hr, harg]
  have h := buildSyntaxTree_semicolon d [[m] ++ (a ++ [' '] ++ [r] ++ [' '] ++ b) ++ [m]] []
    hargs
  simp only [List.singleton_append, List.cons_append, List.nil_append, List.map_cons,
    List.map_nil, List.append_nil] at h
  have hco := coerceArg_quoted m hm (a ++ [' '] ++ [r] ++ [' '] ++ b)
  simp only [List.singleton_append, List.cons_append, List.nil_append] at hco
  simp only [List.singleton_append, List.cons_append, List.nil_append]
  rw [h, hco]
  rfl

/-- Witness of C16: the line `return "a;b";`, with its result. -/
theorem c16_reserved_inside_quotes_witness :
    parse ("return".toList ++ [' '] ++ [dquote] ++ "a".toList ++ [';'] ++ "b".toList ++
        [dquote] ++ [';']) =
      [ConfigEntry.mk "return".toList
        [ArgValue.str ([dquote] ++ "a".toList ++ [' '] ++ [';'] ++ [' '] ++ "b".toList ++
          [dquote])] []] :=
  c16_reserved_inside_quotes "return".toList "a".toList "b".toList dquote ';'
    (by unfold BareWord; decide) (by unfold BareWord; decide) (by unfold BareWord; decide)
    (Or.inl rfl) (Or.inl rfl)

/-- C17: every token that `tokenize` returns, for every text, is not empty, holds no `#` and
no newline, and has one of three shapes: exactly one of `;`, `{`, `}`; a word without
whitespace and without reserved character; or a string of two characters at least whose
first and last characters are the same quote character. A lone quote character is never a
token. -/
theorem c17_token_shapes (content : Str) (t : Str) (ht : t ∈ tokenize content) :
    t ≠ [] ∧ (∀ c ∈ t, c ≠ '#' ∧ c ≠ '\n') ∧
      ((t = [';'] ∨ t = ['{'] ∨ t = ['}']) ∨
        (t ≠ [] ∧ ∀ c ∈ t, isWhitespace c = false ∧ isReservedChar c = false) ∨
        (∃ m : Char, (m = dquote ∨ m = squote) ∧ 2 ≤ t.length ∧ t.head? = some m ∧
          t.getLast? = some m)) ∧
      t ≠ [dquote] ∧ t ≠ [squote] :=
  tokenize_good content t ht

/-- Witness of C17: the quoted token of the text `a "b # c` / `d 'e f' {`. -/
theorem c17_token_shapes_witness :
    "\x27e f\x27".toList ≠ [] ∧ (∀ c ∈ "\x27e f\x27".toList, c ≠ '#' ∧ c ≠ '\n') ∧
      (("\x27e f\x27".toList = [';'] ∨ "\x27e f\x27".toList = ['{'] ∨
          "\x27e f\x27".toList = ['}']) ∨
        ("\x27e f\x27".toList ≠ [] ∧
          ∀ c ∈ "\x27e f\x27".toList, isWhitespace c = false ∧ isReservedChar c = false) ∨
        (∃ m : Char, (m = dquote ∨ m = squote) ∧ 2 ≤ "\x27e f\x27".toList.length ∧
          "\x27e f\x27".toList.head? = some m ∧ "\x27e f\x27".toList.getLast? = some m)) ∧
      "\x27e f\x27".toList ≠ [dquote] ∧ "\x27e f\x27".toList ≠ [squote] :=
  c17_token_shapes "a \x22b # c\nd \x27e f\x27 \x7b".toList "\x27e f\x27".toList (by decide!)

/-- C18: the state of the loop of `buildSyntaxTree` after any number of tokens of any token
list satisfies the invariant: while a block is captured an entry is open, the depth is at
least 1, the buffer has `depth - 1` more `{` than `}` and no start of it closes more braces
than it opens; while no block is captured the depth is 0 and the buffer is empty. Hence,
when the next token makes the recursive call (a closing brace that brings the depth to 0),
the buffer handed to it has balanced braces. The result of the function is the result list
of the state after all tokens. -/
theorem c18_loop_invariant (tokens : List Str) (n : Nat) :
    BuildInvariant (buildStateAfter tokens n) ∧
      ((buildStateAfter tokens n).captureStack = true →
        (buildStateAfter tokens n).captureBlocksQty - 1 = 0 →
        BalancedBraces (buildStateAfter tokens n).blockStack) ∧
      buildSyntaxTree tokens = (buildStateAfter tokens tokens.length).syntaxTree := by
  have hinv := buildStateAfter_invariant tokens n
  refine ⟨hinv, ?_, ?_⟩
  · intro hcap hq
    obtain ⟨_, _, hcount, hpre⟩ := hinv.1 hcap
    refine ⟨hpre, ?_⟩
    rw [hq] at hcount
    omega
  · rw [buildSyntaxTree_unfold, buildStateAfter, List.take_length]

/-- Witness of C18: after the six tokens `a { b { c }` the depth is 1 and the buffer
`b { c }` is balanced. -/
theorem c18_loop_invariant_witness :
    BalancedBraces (buildStateAfter
      ["a".toList, ['{'], "b".toList, ['{'], "c".toList, ['}'], ['}']] 6).blockStack :=
  (c18_loop_invariant ["a".toList, ['{'], "b".toList, ['{'], "c".toList, ['}'], ['}']]
    6).2.1 (by decide!) (by decide!)

/-- C19 as stated fails on an engine with a finite call stack. On a stack that holds 3000
nested activations of `buildSyntaxTree`, `parse` of the text of 3000 nested blocks
`a{a{...}}` ends in a `RangeError`; and whatever the two limits of the engine are, there is
a token list on which `buildSyntaxTree` does not return and a text on which `parse` does
not return. -/
theorem c19_range_error_counterexample :
    parseBounded 1000000 3000 (nestedText 3000) = none ∧
      (¬ ∃ maxArgs frames : Nat, ∀ tokens : List Str,
        (buildSyntaxTreeBounded maxArgs frames tokens).isSome = true) ∧
      (¬ ∃ maxArgs frames : Nat, ∀ content : Str,
        (parseBounded maxArgs frames content).isSome = true) := by
  refine ⟨parseBounded_nestedText 1000000 3000, ?_, ?_⟩
  · rintro ⟨maxArgs, frames, h⟩
    have := h (nestedBlocks frames)
    rw [buildSyntaxTreeBounded_nestedBlocks maxArgs frames] at this
    simp at this
  · rintro ⟨maxArgs, frames, h⟩
    have := h (nestedText frames)
    rw [parseBounded_nestedText maxArgs frames] at this
    simp at this

/-- C19, amended: the recursion of `buildSyntaxTree` is well founded, but the call returns
only within the limits of the engine. While a block is captured the buffer is shorter than
the tokens read by two at least, so the list of a recursive call, made at a further token
`}`, is shorter than the token list of the caller by three at least. On an engine whose
stack holds more than a third of the number of tokens in nested activations and whose calls
take as many arguments as there are tokens, `buildSyntaxTree` returns a tree on the token
list and `parse` on the text; and whenever they return, the tree is the one that satisfies
the defining equation of the source. -/
theorem c19_returns_within_limits (tokens : List Str) (content : Str)
    (maxArgs frames n : Nat) (tree : List ConfigEntry) :
    (n < tokens.length → (buildStateAfter tokens n).captureStack = true →
        (buildStateAfter tokens n).blockStack.length + 3 ≤ tokens.length) ∧
      (tokens.length < 3 * frames → tokens.length ≤ maxArgs →
        buildSyntaxTreeBounded maxArgs frames tokens = some (buildSyntaxTree tokens)) ∧
      ((tokenize content).length < 3 * frames → (tokenize content).length ≤ maxArgs →
        parseBounded maxArgs frames content = some (parse content)) ∧
      (buildSyntaxTreeBounded maxArgs frames tokens = some tree →
        tree = buildSyntaxTree tokens) ∧
      (parseBounded maxArgs frames content = some tree → tree = parse content) ∧
      buildSyntaxTree tokens =
        (tokens.foldl (buildStep buildSyntaxTree) BuildState.init).syntaxTree := by
  refine ⟨?_, buildSyntaxTreeBounded_eq_some maxArgs frames tokens,
    parseBounded_eq_some maxArgs frames content,
    buildSyntaxTreeBounded_some maxArgs frames tokens tree,
    parseBounded_some maxArgs frames content tree, buildSyntaxTree_unfold tokens⟩
  intro hn hcap
  have := buildStateAfter_bufferBound tokens n hcap
  omega

/-- Witness of C19: the tokens `a { b ; }` and the text `a { b; }` on a stack of two frames
with calls of five arguments at most; the recursive call is made at the last token, on the
buffer `b ;`. -/
theorem c19_returns_within_limits_witness :
    (buildStateAfter ["a".toList, ['{'], "b".toList, [';'], ['}']] 4).blockStack.length + 3 ≤
        ["a".toList, ['{'], "b".toList, [';'], ['}']].length ∧
      buildSyntaxTreeBounded 5 2 ["a".toList, ['{'], "b".toList, [';'], ['}']] =
        some (buildSyntaxTree ["a".toList, ['{'], "b".toList, [';'], ['}']]) ∧
      parseBounded 5 2 "a \x7b b; \x7d".toList = some (parse "a \x7b b; \x7d".toList) ∧
      buildSyntaxTree ["a".toList, ['{'], "b".toList, [';'], ['}']] =
        [ConfigEntry.mk "a".toList [] [ConfigEntry.mk "b".toList [] []]] :=
  ⟨(c19_returns_within_limits ["a".toList, ['{'], "b".toList, [';'], ['}']] [] 5 2 4 []).1
      (by decide) (by decide!),
    (c19_returns_within_limits ["a".toList, ['{'], "b".toList, [';'], ['}']] [] 5 2 4 []).2.1
      (by decide) (by decide),
    (c19_returns_within_limits [] "a \x7b b; \x7d".toList 5 2 0 []).2.2.1
      (by decide!) (by decide!),
    ConfigEntry.eq_of_beqList _ _ (by decide!)⟩

end Nncfgt
